import Mathlib

/-!
# Indexed min-priority queue and Prim's algorithm

A shallow embedding of `index_min_pq.h` (class `IndexMinPQ<K>`) and of
`prim_mst.cc` (`Edge`, `Graph`, `BuildPrimMst`, `IsPositiveInteger`,
`IsPositiveDouble`, `IsValidArgument`).

Modelling conventions.

* `std::vector` members are lists. A read `v[i]` is `List.getD v i d` and
  a write `v[i] = x` is `List.set v i x`; the lengths given by the C++
  constructor are kept, so that in-range facts can be stated and proved.
* `unsigned int` and `size_t` values are natural numbers. The only
  arithmetic on positions is `i / 2`, `2 * i` and `2 * i + 1`; it can wrap
  only in a heap holding at least `2 ^ 31` live entries, which is outside
  this model.
* The key type `K` of the template is any linearly ordered type; the
  value-initialised key `K()` is `default`.
* A C++ exception is an `Except.error` carrying the error kind of the
  specification.
* Loops are recursive functions over an explicit iteration budget. The
  budgets of `PercolateUp` and `PercolateDown` are large enough for every
  call from a valid position; a run of the builder that uses up the budget
  of its `while` loop is reported as `PrimStop.budget`.
* An opened `std::ifstream` is the list of the characters not yet read,
  with its `eofbit` and `failbit`; `std::string` is `String`. The `int`
  values of `IsValidArgument` are natural numbers: `std::stoi` is only
  applied to strings of digits, and its `std::out_of_range` keeps them
  below `2 ^ 31`. The `int counter` would wrap only after `2 ^ 31` reads,
  which is outside this model.
-/

set_option autoImplicit false

/-! ## The queue: data model -/

/-- Error kinds of the queue: `std::overflow_error` (InvalidIndex),
`std::runtime_error` thrown by `Push` (DuplicateIndex) and by `ChangeKey`
(MissingIndex), `std::underflow_error` (Underflow). -/
inductive PQError where
  | InvalidIndex
  | DuplicateIndex
  | MissingIndex
  | Underflow
  deriving DecidableEq, Repr

/-- Private members of `IndexMinPQ<K>`. -/
structure IndexMinPQ (K : Type) where
  capacity : Nat
  cur_size : Nat
  keys : List K
  heap_to_idx : List Nat
  idx_to_heap : List Nat
  deriving DecidableEq, Repr

namespace IndexMinPQ

variable {K : Type}

/-- Constructor `IndexMinPQ(size_t capacity)`: `keys(capacity)`,
`heap_to_idx(capacity + 1)`, `idx_to_heap(capacity, 0)`, `cur_size = 0`. -/
def new [Inhabited K] (capacity : Nat) : IndexMinPQ K where
  capacity := capacity
  cur_size := 0
  keys := List.replicate capacity default
  heap_to_idx := List.replicate (capacity + 1) 0
  idx_to_heap := List.replicate capacity 0

/-- Position of the root. -/
def Root : Nat := 1

/-- Position of the parent of `i`. -/
def Parent (i : Nat) : Nat := i / 2

/-- Position of the left child of `i`. -/
def LeftChild (i : Nat) : Nat := 2 * i

/-- Position of the right child of `i`. -/
def RightChild (i : Nat) : Nat := 2 * i + 1

/-- Test `i != Root()`. -/
def HasParent (i : Nat) : Bool := i != Root

/-- Test `i <= cur_size`. -/
def IsNode (q : IndexMinPQ K) (i : Nat) : Bool := decide (i ≤ q.cur_size)

/-- Key stored at heap position `i`, that is `keys[heap_to_idx[i]]`. -/
def keyAt [Inhabited K] (q : IndexMinPQ K) (i : Nat) : K :=
  q.keys.getD (q.heap_to_idx.getD i 0) default

/-- Test `keys[heap_to_idx[i]] > keys[heap_to_idx[j]]`. -/
def GreaterNode [Inhabited K] [LinearOrder K] (q : IndexMinPQ K) (i j : Nat) : Bool :=
  decide (q.keyAt i > q.keyAt j)

/-- The `std::swap` of `heap_to_idx[i]` and `heap_to_idx[j]`, followed by
the two writes `idx_to_heap[heap_to_idx[i]] = i` and
`idx_to_heap[heap_to_idx[j]] = j`. -/
def SwapNodes (q : IndexMinPQ K) (i j : Nat) : IndexMinPQ K :=
  let hi := q.heap_to_idx.getD i 0
  let hj := q.heap_to_idx.getD j 0
  let h1 := (q.heap_to_idx.set i hj).set j hi
  let t1 := q.idx_to_heap.set (h1.getD i 0) i
  let t2 := t1.set (h1.getD j 0) j
  { q with heap_to_idx := h1, idx_to_heap := t2 }

/-- Member `Size()`. -/
def Size (q : IndexMinPQ K) : Nat := q.cur_size

/-- Member `Top()`: throws on an empty queue, otherwise returns
`heap_to_idx[Root()]`; it writes nothing. -/
def Top (q : IndexMinPQ K) : Except PQError Nat :=
  if q.Size = 0 then .error .Underflow
  else .ok (q.heap_to_idx.getD Root 0)

/-- The `while` loop of `PercolateUp`, run for at most `fuel` iterations. -/
def PercolateUpLoop [Inhabited K] [LinearOrder K] :
    Nat → IndexMinPQ K → Nat → IndexMinPQ K
  | 0, q, _ => q
  | fuel + 1, q, i =>
    if HasParent i && q.GreaterNode (Parent i) i then
      PercolateUpLoop fuel (q.SwapNodes (Parent i) i) (Parent i)
    else q

/-- Member `PercolateUp(i)`. The position halves at every iteration, so
`i` iterations are enough. -/
def PercolateUp [Inhabited K] [LinearOrder K] (q : IndexMinPQ K) (i : Nat) : IndexMinPQ K :=
  PercolateUpLoop i q i

/-- The child that `PercolateDown` compares node `i` with: the left one,
unless the right one exists and has a strictly smaller key. -/
def smallerChild [Inhabited K] [LinearOrder K] (q : IndexMinPQ K) (i : Nat) : Nat :=
  if q.IsNode (RightChild i) && q.GreaterNode (LeftChild i) (RightChild i) then RightChild i
  else LeftChild i

/-- The `while` loop of `PercolateDown`, run for at most `fuel` iterations. -/
def PercolateDownLoop [Inhabited K] [LinearOrder K] :
    Nat → IndexMinPQ K → Nat → IndexMinPQ K
  | 0, q, _ => q
  | fuel + 1, q, i =>
    if q.IsNode (LeftChild i) then
      let child := q.smallerChild i
      if q.GreaterNode i child then
        PercolateDownLoop fuel (q.SwapNodes i child) child
      else q
    else q

/-- Member `PercolateDown(i)`. From a position `i >= 1` the position at
least doubles at every iteration and stays `<= cur_size`, so `cur_size + 1`
iterations are enough. -/
def PercolateDown [Inhabited K] [LinearOrder K] (q : IndexMinPQ K) (i : Nat) : IndexMinPQ K :=
  PercolateDownLoop (q.cur_size + 1) q i

/-- Member `Contains(idx)`. -/
def Contains (q : IndexMinPQ K) (idx : Nat) : Except PQError Bool :=
  if idx ≥ q.capacity then .error .InvalidIndex
  else .ok (q.idx_to_heap.getD idx 0 != 0)

/-- Member `Push(key, idx)`. -/
def Push [Inhabited K] [LinearOrder K] (q : IndexMinPQ K) (key : K) (idx : Nat) :
    Except PQError (IndexMinPQ K) :=
  if idx ≥ q.capacity then .error .InvalidIndex
  else match q.Contains idx with
    | .error e => .error e
    | .ok true => .error .DuplicateIndex
    | .ok false =>
      let n := q.cur_size + 1
      let q1 : IndexMinPQ K :=
        { q with
          cur_size := n
          heap_to_idx := q.heap_to_idx.set n idx
          idx_to_heap := q.idx_to_heap.set idx n
          keys := q.keys.set idx key }
      .ok (q1.PercolateUp n)

/-- Member `Pop()`. -/
def Pop [Inhabited K] [LinearOrder K] (q : IndexMinPQ K) : Except PQError (IndexMinPQ K) :=
  if q.Size = 0 then .error .Underflow
  else
    let t1 := q.idx_to_heap.set (q.heap_to_idx.getD Root 0) 0
    let h1 := q.heap_to_idx.set Root (q.heap_to_idx.getD q.cur_size 0)
    let q1 : IndexMinPQ K :=
      { q with idx_to_heap := t1, heap_to_idx := h1, cur_size := q.cur_size - 1 }
    .ok (q1.PercolateDown Root)

/-- Member `ChangeKey(key, idx)`. -/
def ChangeKey [Inhabited K] [LinearOrder K] (q : IndexMinPQ K) (key : K) (idx : Nat) :
    Except PQError (IndexMinPQ K) :=
  if idx ≥ q.capacity then .error .InvalidIndex
  else match q.Contains idx with
    | .error e => .error e
    | .ok false => .error .MissingIndex
    | .ok true =>
      let q1 : IndexMinPQ K := { q with keys := q.keys.set idx key }
      let q2 := q1.PercolateUp (q1.idx_to_heap.getD idx 0)
      .ok (q2.PercolateDown (q2.idx_to_heap.getD idx 0))

/-- The recursion of the debugging helper `CheckHeapOrder`, to a depth of at
most `fuel` calls: `true` when it returns, `false` when it throws its
"Heap order error". -/
def CheckHeapOrderLoop [Inhabited K] [LinearOrder K] : Nat → IndexMinPQ K → Nat → Bool
  | 0, _, _ => true
  | fuel + 1, q, i =>
    if !q.IsNode i then true
    else if HasParent i && q.GreaterNode (Parent i) i then false
    else CheckHeapOrderLoop fuel q (LeftChild i) && CheckHeapOrderLoop fuel q (RightChild i)

/-- Private helper `CheckHeapOrder(i)`. From a position `i >= 1` the
recursion is at most `cur_size + 1` calls deep. -/
def CheckHeapOrder [Inhabited K] [LinearOrder K] (q : IndexMinPQ K) (i : Nat) : Bool :=
  CheckHeapOrderLoop (q.cur_size + 1) q i

end IndexMinPQ

/-- One call of the public interface that changes the queue. -/
inductive PQOp (K : Type) where
  | push (key : K) (idx : Nat)
  | pop
  | changeKey (key : K) (idx : Nat)
  deriving DecidableEq, Repr

namespace IndexMinPQ

variable {K : Type}

/-- Run one call. -/
def step [Inhabited K] [LinearOrder K] (q : IndexMinPQ K) : PQOp K → Except PQError (IndexMinPQ K)
  | .push key idx => q.Push key idx
  | .pop => q.Pop
  | .changeKey key idx => q.ChangeKey key idx

/-- Run a sequence of calls, stopping at the first exception. -/
def run [Inhabited K] [LinearOrder K] (q : IndexMinPQ K) : List (PQOp K) → Except PQError (IndexMinPQ K)
  | [] => .ok q
  | op :: ops =>
    match q.step op with
    | .error e => .error e
    | .ok q1 => run q1 ops

end IndexMinPQ

namespace IndexMinPQ

variable {K : Type}

/-- The loop `for (auto &i : keyval) impq.Push(i.first, i.second)` of the
test scenarios. -/
def pushAll [Inhabited K] [LinearOrder K] :
    IndexMinPQ K → List (K × Nat) → Except PQError (IndexMinPQ K)
  | q, [] => .ok q
  | q, p :: l =>
    match q.Push p.1 p.2 with
    | .error e => .error e
    | .ok q1 => pushAll q1 l

/-- Record `Top()` and call `Pop()`, `n` times in a row; the result is the
list of the recorded indices, in the order of the calls, and the final
queue. -/
def drain [Inhabited K] [LinearOrder K] :
    Nat → IndexMinPQ K → Except PQError (List Nat × IndexMinPQ K)
  | 0, q => .ok ([], q)
  | n + 1, q =>
    match q.Top with
    | .error e => .error e
    | .ok t =>
      match q.Pop with
      | .error e => .error e
      | .ok q1 =>
        match drain n q1 with
        | .error e => .error e
        | .ok (out, q2) => .ok (t :: out, q2)

end IndexMinPQ

/-! ## Histories of calls -/

/-- Effect of one call on the record of the current key of every index:
`Push(key, idx)` and `ChangeKey(key, idx)` make `key` the current key of
`idx`; `Pop` leaves the record of keys as it is. -/
def PQOp.track {K : Type} (ck : Nat → Option K) : PQOp K → Nat → Option K
  | .push key idx => fun x => if x = idx then some key else ck x
  | .pop => ck
  | .changeKey key idx => fun x => if x = idx then some key else ck x

/-- Record of current keys after a sequence of calls, from a given record. -/
def currentKeyFrom {K : Type} (ck : Nat → Option K) : List (PQOp K) → Nat → Option K
  | [] => ck
  | op :: ops => currentKeyFrom (op.track ck) ops

/-- Current key of an index after a sequence of calls on a fresh queue: the
key of its `Push` or of its latest `ChangeKey`; `none` for an index that
no call has named. -/
def currentKey {K : Type} (ops : List (PQOp K)) : Nat → Option K :=
  currentKeyFrom (fun _ => none) ops

/-! ## Prim's algorithm: data model -/

/-- Class `Edge`: source vertex, destination vertex and weight. -/
structure Edge (K : Type) where
  src : Nat
  dst : Nat
  weight : K
  deriving DecidableEq, Repr

/-- Class `Graph`: the number of vertices and one list of incident edges
per vertex. -/
structure Graph (K : Type) where
  num_vertex : Nat
  adj_edge_vec : List (List (Edge K))
  deriving DecidableEq, Repr

namespace Graph

variable {K : Type}

/-- One iteration of the reading loop of `Graph::Graph`: the edge is
appended to the list of its source and then to the list of its
destination. -/
def addEdge (adj : List (List (Edge K))) (e : Edge K) : List (List (Edge K)) :=
  let a1 := adj.set e.src (adj.getD e.src [] ++ [e])
  a1.set e.dst (a1.getD e.dst [] ++ [e])

/-- Constructor `Graph::Graph`, on the vertex count and the edge triples
already read from the input stream. -/
def ofInput (n : Nat) (edges : List (Edge K)) : Graph K where
  num_vertex := n
  adj_edge_vec := edges.foldl addEdge (List.replicate n [])

/-- Well-formed graph: one adjacency list per vertex, and every stored edge
has both endpoints below the vertex count, is incident to the vertex whose
list holds it, is not a self-loop, has a non-negative weight and is stored
in the lists of both of its endpoints. -/
def WellFormed [LinearOrder K] [Zero K] (g : Graph K) : Prop :=
  g.adj_edge_vec.length = g.num_vertex ∧
  ∀ v, v < g.num_vertex → ∀ e ∈ g.adj_edge_vec.getD v [],
    e.src < g.num_vertex ∧ e.dst < g.num_vertex ∧ (e.src = v ∨ e.dst = v) ∧
    e.src ≠ e.dst ∧ 0 ≤ e.weight ∧
    e ∈ g.adj_edge_vec.getD e.src [] ∧ e ∈ g.adj_edge_vec.getD e.dst []

/-- Every stored edge has a strictly positive weight. -/
def PositiveWeights [LinearOrder K] [Zero K] (g : Graph K) : Prop :=
  ∀ v, v < g.num_vertex → ∀ e ∈ g.adj_edge_vec.getD v [], 0 < e.weight

/-- A star around vertex 0 with the weights 1, 2, 3, 2 and the extra edge
(1,4) of weight 1. -/
def starWithChordA : Graph Nat :=
  ofInput 5 [⟨0, 1, 1⟩, ⟨0, 2, 2⟩, ⟨0, 3, 3⟩, ⟨0, 4, 2⟩, ⟨1, 4, 1⟩]

/-- A star around vertex 0 with the weights 1, 3, 5, 3 and the extra edge
(1,4) of weight 2. -/
def starWithChordB : Graph Nat :=
  ofInput 5 [⟨0, 1, 1⟩, ⟨0, 2, 3⟩, ⟨0, 3, 5⟩, ⟨0, 4, 3⟩, ⟨1, 4, 2⟩]

end Graph

/-- Ways in which a run of `BuildPrimMst` can stop without returning: an
exception of the queue, a read of the local `adj` that neither branch
assigned, or the end of the iteration budget of the model. -/
inductive PrimStop where
  | queue (e : PQError)
  | uninitAdj
  | budget
  deriving DecidableEq, Repr

/-- Local variables of `BuildPrimMst`. An entry `none` of `dist_vec` is
`INFINITY`. -/
structure PrimState (K : Type) where
  Q : IndexMinPQ K
  dist_vec : List (Option K)
  marked_vec : List Bool
  best_edge_vec : List (Edge K)
  deriving DecidableEq, Repr

namespace Prim

variable {K : Type}

/-- The two branches that assign `adj` from the scanned edge. -/
def otherEnd (e : Edge K) (root : Nat) : Option Nat :=
  if e.dst = root then some e.src
  else if e.src = root then some e.dst
  else none

/-- Test `weight < dist`, where `none` is `INFINITY`. -/
def ltDist [LinearOrder K] (w : K) : Option K → Bool
  | none => true
  | some d => decide (w < d)

/-- Lift a queue call into a run of the builder. -/
def liftQ {α : Type} : Except PQError α → Except PrimStop α
  | .ok a => .ok a
  | .error e => .error (.queue e)

/-- Body of the loop over the edges incident to `root`. -/
def scanEdge [Inhabited K] [LinearOrder K] (root : Nat) (s : PrimState K) (e : Edge K) :
    Except PrimStop (PrimState K) :=
  match otherEnd e root with
  | none => .error .uninitAdj
  | some adj =>
    if s.marked_vec.getD adj false then .ok s
    else if ltDist e.weight (s.dist_vec.getD adj none) then
      let dist1 := s.dist_vec.set adj (some e.weight)
      let best1 := s.best_edge_vec.set adj e
      match liftQ (s.Q.Contains adj) with
      | .error x => .error x
      | .ok true =>
        match liftQ (s.Q.ChangeKey e.weight adj) with
        | .error x => .error x
        | .ok q1 => .ok { s with Q := q1, dist_vec := dist1, best_edge_vec := best1 }
      | .ok false =>
        match liftQ (s.Q.Push e.weight adj) with
        | .error x => .error x
        | .ok q1 => .ok { s with Q := q1, dist_vec := dist1, best_edge_vec := best1 }
    else .ok s

/-- The loop `for (auto &adj_edge : adj_edge_vec[root])`. -/
def scanEdges [Inhabited K] [LinearOrder K] (root : Nat) :
    PrimState K → List (Edge K) → Except PrimStop (PrimState K)
  | s, [] => .ok s
  | s, e :: es =>
    match scanEdge root s e with
    | .error x => .error x
    | .ok s1 => scanEdges root s1 es

/-- The loop `while (Q.Size())`, run for at most `fuel` iterations. -/
def whileLoop [Inhabited K] [LinearOrder K] (adj_edge_vec : List (List (Edge K))) :
    Nat → PrimState K → Except PrimStop (PrimState K)
  | 0, s => if s.Q.Size = 0 then .ok s else .error .budget
  | fuel + 1, s =>
    if s.Q.Size = 0 then .ok s
    else
      match liftQ s.Q.Top with
      | .error x => .error x
      | .ok root =>
        match liftQ s.Q.Pop with
        | .error x => .error x
        | .ok q1 =>
          let s1 : PrimState K := { s with Q := q1, marked_vec := s.marked_vec.set root true }
          match scanEdges root s1 (adj_edge_vec.getD root []) with
          | .error x => .error x
          | .ok s2 => whileLoop adj_edge_vec fuel s2

/-- Body of the loop `for (unsigned int v = 0; v < num_v; v++)`. -/
def visit [Inhabited K] [LinearOrder K] [Zero K] (adj_edge_vec : List (List (Edge K)))
    (fuel : Nat) (s : PrimState K) (v : Nat) : Except PrimStop (PrimState K) :=
  if s.marked_vec.getD v false then .ok s
  else
    let dist1 := s.dist_vec.set v (some 0)
    match liftQ (s.Q.Push 0 v) with
    | .error x => .error x
    | .ok q1 => whileLoop adj_edge_vec fuel { s with Q := q1, dist_vec := dist1 }

/-- The loop over the vertices, on the list of the vertex ids still to
come. -/
def visitAll [Inhabited K] [LinearOrder K] [Zero K] (adj_edge_vec : List (List (Edge K)))
    (fuel : Nat) : PrimState K → List Nat → Except PrimStop (PrimState K)
  | s, [] => .ok s
  | s, v :: vs =>
    match visit adj_edge_vec fuel s v with
    | .error x => .error x
    | .ok s1 => visitAll adj_edge_vec fuel s1 vs

/-- Iteration budget of one `while (Q.Size())` loop: one more than the
number of entries of the adjacency lists, plus the number of vertices. -/
def budget (g : Graph K) : Nat :=
  g.num_vertex + (g.adj_edge_vec.map List.length).sum + 1

/-- Initial values of the local variables of `BuildPrimMst`. -/
def init [Inhabited K] [Zero K] (g : Graph K) : PrimState K where
  Q := IndexMinPQ.new g.num_vertex
  dist_vec := List.replicate g.num_vertex none
  marked_vec := List.replicate g.num_vertex false
  best_edge_vec := List.replicate g.num_vertex ⟨0, 0, 0⟩

/-- Function `BuildPrimMst`. -/
def BuildPrimMst [Inhabited K] [LinearOrder K] [Zero K] (g : Graph K) :
    Except PrimStop (List (Edge K)) :=
  match visitAll g.adj_edge_vec (budget g) (init g) (List.range g.num_vertex) with
  | .error x => .error x
  | .ok s => .ok s.best_edge_vec

end Prim

/-! ## Invariants of the queue -/

namespace IndexMinPQ

variable {K : Type}

/-- Heap order: the key of every live position `i >= 2` is at least the
key of its parent. -/
def HeapOrdered [Inhabited K] [LinearOrder K] (q : IndexMinPQ K) : Prop :=
  ∀ i, 2 ≤ i → i ≤ q.cur_size → q.keyAt (i / 2) ≤ q.keyAt i

/-- The two maps are inverse to each other over the live entries. -/
def Bijection (q : IndexMinPQ K) : Prop :=
  (∀ p, 1 ≤ p → p ≤ q.cur_size →
      q.idx_to_heap.getD (q.heap_to_idx.getD p 0) 0 = p) ∧
  (∀ idx, idx < q.capacity → q.idx_to_heap.getD idx 0 ≠ 0 →
      1 ≤ q.idx_to_heap.getD idx 0 ∧ q.idx_to_heap.getD idx 0 ≤ q.cur_size ∧
      q.heap_to_idx.getD (q.idx_to_heap.getD idx 0) 0 = idx)

/-- The vectors have the lengths given by the constructor, the size is
within the capacity and every live position holds a valid index. -/
structure Shape (q : IndexMinPQ K) : Prop where
  keys_len : q.keys.length = q.capacity
  h_len : q.heap_to_idx.length = q.capacity + 1
  t_len : q.idx_to_heap.length = q.capacity
  size_le : q.cur_size ≤ q.capacity
  live_lt : ∀ p, 1 ≤ p → p ≤ q.cur_size → q.heap_to_idx.getD p 0 < q.capacity

/-- The live positions hold pairwise distinct indices. -/
def Inj (q : IndexMinPQ K) : Prop :=
  ∀ p p2, 1 ≤ p → p ≤ q.cur_size → 1 ≤ p2 → p2 ≤ q.cur_size →
    q.heap_to_idx.getD p 0 = q.heap_to_idx.getD p2 0 → p = p2

/-- Index `idx` is held by a live position. -/
def Live (q : IndexMinPQ K) (idx : Nat) : Prop :=
  ∃ p, 1 ≤ p ∧ p ≤ q.cur_size ∧ q.heap_to_idx.getD p 0 = idx

/-- A property of queue states that no exchange of two distinct live
positions destroys. -/
def SwapStable (P : IndexMinPQ K → Prop) : Prop :=
  ∀ q i j, 1 ≤ i → i ≤ q.cur_size → 1 ≤ j → j ≤ q.cur_size → i ≠ j →
    P q → P (q.SwapNodes i j)

/-- The position whose entry an exchange of `i` and `j` brings to `p`. -/
def swapPos (i j p : Nat) : Nat := if p = j then i else if p = i then j else p

/-- The indices that `Contains` reports are those satisfying `M`. -/
def Members (q : IndexMinPQ K) (M : Nat → Prop) : Prop :=
  ∀ idx, q.idx_to_heap.getD idx 0 ≠ 0 ↔ M idx

/-- State of the heap while an entry at position `i` moves up: only the
edge from `i` to its parent may be out of order, and the children of `i`
are not below the parent of `i`. -/
def UpInv [Inhabited K] [LinearOrder K] (q : IndexMinPQ K) (i : Nat) : Prop :=
  (∀ k, 2 ≤ k → k ≤ q.cur_size → k ≠ i → q.keyAt (k / 2) ≤ q.keyAt k) ∧
  (∀ c, 2 ≤ c → c ≤ q.cur_size → c / 2 = i → 2 ≤ i → q.keyAt (i / 2) ≤ q.keyAt c)

/-- State of the heap while an entry at position `i` moves down: only the
edges from `i` to its children may be out of order, and the children of
`i` are not below the parent of `i`. -/
def DownInv [Inhabited K] [LinearOrder K] (q : IndexMinPQ K) (i : Nat) : Prop :=
  (∀ k, 2 ≤ k → k ≤ q.cur_size → k / 2 ≠ i → q.keyAt (k / 2) ≤ q.keyAt k) ∧
  (∀ c, 2 ≤ c → c ≤ q.cur_size → c / 2 = i → 2 ≤ i → q.keyAt (i / 2) ≤ q.keyAt c)

/-- The queue after the three writes of `Push`, before `PercolateUp`. -/
def pushed (q : IndexMinPQ K) (key : K) (idx : Nat) : IndexMinPQ K :=
  { q with
    cur_size := q.cur_size + 1
    heap_to_idx := q.heap_to_idx.set (q.cur_size + 1) idx
    idx_to_heap := q.idx_to_heap.set idx (q.cur_size + 1)
    keys := q.keys.set idx key }

/-- A valid state: well-shaped, with inverse maps and in heap order. -/
structure Valid [Inhabited K] [LinearOrder K] (q : IndexMinPQ K) : Prop where
  shape : Shape q
  bij : Bijection q
  heap : HeapOrdered q

/-- The queue after the write `keys[idx] = key` of `ChangeKey`. -/
def rekeyed (q : IndexMinPQ K) (key : K) (idx : Nat) : IndexMinPQ K :=
  { q with keys := q.keys.set idx key }

/-- The queue agrees with a record of current keys: it is valid, `Contains`
reports exactly the recorded indices, and `keys` stores the recorded key. -/
structure Tracks [Inhabited K] [LinearOrder K] (q : IndexMinPQ K) (ck : Nat → Option K) :
    Prop where
  valid : Valid q
  mem : Members q (fun idx => ck idx ≠ none)
  key : ∀ idx k, ck idx = some k → q.keys.getD idx default = k

/-- The queue after the two writes of `Pop` and the decrement of the size,
before `PercolateDown`. -/
def popped (q : IndexMinPQ K) : IndexMinPQ K :=
  { q with
    idx_to_heap := q.idx_to_heap.set (q.heap_to_idx.getD Root 0) 0
    heap_to_idx := q.heap_to_idx.set Root (q.heap_to_idx.getD q.cur_size 0)
    cur_size := q.cur_size - 1 }

/-- The position of `q` whose entry `popped` brings to `p`. -/
def popPos (n p : Nat) : Nat := if p = 1 then n else p

/-- A state from which `Pop` and `Top` behave as on a binary heap: the
shape is right, the live positions hold distinct indices and the keys are
in heap order. Nothing is asked of `idx_to_heap`. -/
structure Sound [Inhabited K] [LinearOrder K] (q : IndexMinPQ K) : Prop where
  shape : Shape q
  inj : Inj q
  heap : HeapOrdered q

/-- State of the queue after the pairs of `done` have been pushed. -/
structure Loaded [Inhabited K] [LinearOrder K] (q : IndexMinPQ K) (done : List (K × Nat)) :
    Prop where
  valid : Valid q
  mem : Members q (fun idx => idx ∈ done.map Prod.snd)
  key : ∀ p ∈ done, q.keys.getD p.2 default = p.1
  size : q.cur_size = done.length

/-- Run one call; a call that throws leaves the queue as it was, since
every `throw` of the class comes before its first write. -/
def stepKeep [Inhabited K] [LinearOrder K] (q : IndexMinPQ K) (op : PQOp K) : IndexMinPQ K :=
  match q.step op with
  | .ok q1 => q1
  | .error _ => q

/-- Run a sequence of calls, going on after a call that throws. -/
def runKeep [Inhabited K] [LinearOrder K] (q : IndexMinPQ K) : List (PQOp K) → IndexMinPQ K
  | [] => q
  | op :: ops => runKeep (q.stepKeep op) ops

/-- Number of entries of `idx_to_heap` that are not the sentinel 0. -/
def present (q : IndexMinPQ K) : Nat := q.idx_to_heap.countP (fun x => x != 0)

/-- The size is at most the number of indices that `Contains` reports. -/
def Bounded (q : IndexMinPQ K) : Prop :=
  q.idx_to_heap.length = q.capacity ∧ q.heap_to_idx.length = q.capacity + 1 ∧
    q.cur_size ≤ q.present

/-- A property of queue states that no exchange of two positions other
than 0 destroys. -/
def PosSwapStable (P : IndexMinPQ K → Prop) : Prop :=
  ∀ q i j, 1 ≤ i → 1 ≤ j → P q → P (q.SwapNodes i j)

/-- The first test of the loop of `PercolateUp(i)` succeeds: the call
performs a swap. -/
def upSwaps [Inhabited K] [LinearOrder K] (q : IndexMinPQ K) (i : Nat) : Bool :=
  HasParent i && q.GreaterNode (Parent i) i

/-- The first iteration of the loop of `PercolateDown(i)` reaches
`SwapNodes`: the call performs a swap. -/
def downSwaps [Inhabited K] [LinearOrder K] (q : IndexMinPQ K) (i : Nat) : Bool :=
  q.IsNode (LeftChild i) && q.GreaterNode i (q.smallerChild i)

/-- The indices held by the live positions 1..`cur_size`, in the order of
the positions. -/
def liveList (q : IndexMinPQ K) : List Nat :=
  (List.range q.cur_size).map (fun k => q.heap_to_idx.getD (k + 1) 0)

end IndexMinPQ

/-- Number of `Push` calls in a sequence of calls. -/
def countPush {K : Type} : List (PQOp K) → Nat
  | [] => 0
  | .push _ _ :: ops => countPush ops + 1
  | _ :: ops => countPush ops

/-- Number of `Pop` calls in a sequence of calls. -/
def countPop {K : Type} : List (PQOp K) → Nat
  | [] => 0
  | .pop :: ops => countPop ops + 1
  | _ :: ops => countPop ops

namespace Graph

variable {K : Type}

/-- The graph of the end-to-end example: 5 vertices and the edges (0,1,2),
(0,2,4), (1,2,1), (1,3,7), (2,3,3), (3,4,5). -/
def endToEnd : Graph Nat :=
  ofInput 5 [⟨0, 1, 2⟩, ⟨0, 2, 4⟩, ⟨1, 2, 1⟩, ⟨1, 3, 7⟩, ⟨2, 3, 3⟩, ⟨3, 4, 5⟩]

end Graph

namespace Prim

variable {K : Type}

/-- One iteration of the loop `while (Q.Size())`: `Top`, `Pop`, the mark
and the scan of the edges of the root. -/
def iteration [Inhabited K] [LinearOrder K] (adj_edge_vec : List (List (Edge K)))
    (s : PrimState K) : Except PrimStop (PrimState K) :=
  match liftQ s.Q.Top with
  | .error x => .error x
  | .ok root =>
    match liftQ s.Q.Pop with
    | .error x => .error x
    | .ok q1 =>
      scanEdges root { s with Q := q1, marked_vec := s.marked_vec.set root true }
        (adj_edge_vec.getD root [])

/-- The entries of the adjacency lists from list number `k` on, each with
the number of its list. -/
def entriesFrom (k : Nat) : List (List (Edge K)) → List (Nat × Edge K)
  | [] => []
  | es :: rest => es.map (fun e => (k, e)) ++ entriesFrom (k + 1) rest

/-- The entry `e` of the list of `root` would pass the test
`weight < dist_vec[adj]`. -/
def canRelax [LinearOrder K] (dist : List (Option K)) (x : Nat × Edge K) : Bool :=
  match otherEnd x.2 x.1 with
  | none => false
  | some adj => ltDist x.2.weight (dist.getD adj none)

/-- Number of entries of the adjacency lists that would pass the test
`weight < dist_vec[adj]`. -/
def pending [LinearOrder K] (adj_edge_vec : List (List (Edge K))) (dist : List (Option K)) :
    Nat :=
  (entriesFrom 0 adj_edge_vec).countP (canRelax dist)

/-- The edges that `PrintMst` prints: those of weight other than 0. -/
def printed [DecidableEq K] [Zero K] (mst : List (Edge K)) : List (Edge K) :=
  mst.filter (fun e => decide (e.weight ≠ 0))

/-- The total weight that `PrintMst` prints. -/
def totalWeight [DecidableEq K] [Zero K] [Add K] (mst : List (Edge K)) : K :=
  ((printed mst).map Edge.weight).sum

/-- One of the edges of `es` joins `a` and `b`. -/
def Step (es : List (Edge K)) (a b : Nat) : Prop :=
  ∃ e ∈ es, (e.src = a ∧ e.dst = b) ∨ (e.src = b ∧ e.dst = a)

/-- A walk along edges of `es` leads from `u` to `v`. -/
def Joined (es : List (Edge K)) (u v : Nat) : Prop :=
  Relation.ReflTransGen (Step es) u v

/-- The edges of `es` form no cycle: no edge joins two vertices that the
other edges already join. -/
def Acyclic [DecidableEq K] (es : List (Edge K)) : Prop :=
  ∀ e ∈ es, ¬ Joined (es.erase e) e.src e.dst

/-- The edges of `es` join every two vertices below `n`. -/
def Spanning (es : List (Edge K)) (n : Nat) : Prop :=
  ∀ u v, u < n → v < n → Joined es u v

end Prim

namespace IndexMinPQ

variable {K : Type}

/-- State of a queue that never holds more than two entries. The live
positions hold distinct valid indices, `Contains` reports live indices
only, position 2 is recorded exactly, and the index at position 1 is
recorded at position 1 or, after a `Pop` that moved it there from position
2, still at position 2. -/
structure Tame (q : IndexMinPQ K) : Prop where
  shape : Shape q
  small : q.cur_size ≤ 2
  inj : Inj q
  reported : ∀ idx, idx < q.capacity → q.idx_to_heap.getD idx 0 ≠ 0 → Live q idx
  pos1 : 1 ≤ q.cur_size →
    q.idx_to_heap.getD (q.heap_to_idx.getD 1 0) 0 = 1 ∨
    (q.idx_to_heap.getD (q.heap_to_idx.getD 1 0) 0 = 2 ∧
      (q.cur_size = 1 → q.heap_to_idx.getD 2 0 = q.heap_to_idx.getD 1 0))
  pos2 : q.cur_size = 2 → q.idx_to_heap.getD (q.heap_to_idx.getD 2 0) 0 = 2

end IndexMinPQ

namespace Graph

variable {K : Type}

/-- All the edges stored in the adjacency lists. -/
def edges (g : Graph K) : List (Edge K) := g.adj_edge_vec.flatten

/-- A graph of 5 vertices with the two components 0, 2, 4 and 1, 3. -/
def twoComponents : Graph Nat :=
  ofInput 5 [⟨0, 2, 3⟩, ⟨2, 4, 1⟩, ⟨0, 4, 2⟩, ⟨1, 3, 5⟩]

end Graph

namespace Prim

variable {K : Type}

/-- A walk along stored edges of the graph leads from `u` to `v`. -/
def Conn (g : Graph K) (u v : Nat) : Prop := Joined g.edges u v

/-- Vertex `v` has the smallest id of its connected component. -/
def Least (g : Graph K) (v : Nat) : Prop := ∀ u, Conn g u v → v ≤ u

/-- The entry of `x` in the array of best edges is as it should be in a
search that started at `r0`: the initial value for `r0` itself, an edge of
the list of `x` otherwise. -/
def Entry [Zero K] (g : Graph K) (r0 : Nat) (best : List (Edge K)) (x : Nat) : Prop :=
  (x = r0 → best.getD x ⟨0, 0, 0⟩ = ⟨0, 0, 0⟩) ∧
  (x ≠ r0 → best.getD x ⟨0, 0, 0⟩ ∈ g.adj_edge_vec.getD x [])

/-- State of the loop `while (Q.Size())` of the search that started at `r0`
from the state `s0`, when the queue has stayed tame. The vertex `skip` is
the one whose edges are being scanned. -/
structure Frontier [Zero K] (g : Graph K) (r0 skip : Nat) (s0 s : PrimState K) : Prop where
  tame : IndexMinPQ.Tame s.Q
  cap : s.Q.capacity = g.num_vertex
  dist_len : s.dist_vec.length = g.num_vertex
  marked_len : s.marked_vec.length = g.num_vertex
  best_len : s.best_edge_vec.length = g.num_vertex
  live : ∀ x, IndexMinPQ.Live s.Q x →
    s.marked_vec.getD x false = false ∧ Conn g r0 x ∧ Entry g r0 s.best_edge_vec x
  fresh : ∀ x, x < g.num_vertex → s.marked_vec.getD x false = false →
    ¬ IndexMinPQ.Live s.Q x →
    s.dist_vec.getD x none = none ∧ s.best_edge_vec.getD x ⟨0, 0, 0⟩ = ⟨0, 0, 0⟩
  old : ∀ x, s0.marked_vec.getD x false = true →
    s.marked_vec.getD x false = true ∧
      s.best_edge_vec.getD x ⟨0, 0, 0⟩ = s0.best_edge_vec.getD x ⟨0, 0, 0⟩
  reached : ∀ x, s0.marked_vec.getD x false = false → s.marked_vec.getD x false = true →
    Conn g r0 x ∧ Entry g r0 s.best_edge_vec x
  closed : ∀ x, s0.marked_vec.getD x false = false → s.marked_vec.getD x false = true →
    x ≠ skip → ∀ e ∈ g.adj_edge_vec.getD x [], ∀ y, otherEnd e x = some y →
      s.marked_vec.getD y false = true ∨ IndexMinPQ.Live s.Q y
  seed : s.marked_vec.getD r0 false = true ∨ ∀ x, IndexMinPQ.Live s.Q x ↔ x = r0

/-- State of the loop over the vertices before vertex `k`, when the queue
has stayed tame: the marked vertices are those of the components of the
vertices below `k`, and their entries are final. -/
structure Outer [Zero K] (g : Graph K) (k : Nat) (s : PrimState K) : Prop where
  tame : IndexMinPQ.Tame s.Q
  empty : s.Q.cur_size = 0
  cap : s.Q.capacity = g.num_vertex
  dist_len : s.dist_vec.length = g.num_vertex
  marked_len : s.marked_vec.length = g.num_vertex
  best_len : s.best_edge_vec.length = g.num_vertex
  marked_iff : ∀ v, v < g.num_vertex →
    (s.marked_vec.getD v false = true ↔ ∃ u, u < k ∧ Conn g u v)
  done : ∀ v, s.marked_vec.getD v false = true →
    (Least g v → s.best_edge_vec.getD v ⟨0, 0, 0⟩ = ⟨0, 0, 0⟩) ∧
    (¬ Least g v → s.best_edge_vec.getD v ⟨0, 0, 0⟩ ∈ g.adj_edge_vec.getD v [])
  rest : ∀ v, v < g.num_vertex → s.marked_vec.getD v false = false →
    s.dist_vec.getD v none = none ∧ s.best_edge_vec.getD v ⟨0, 0, 0⟩ = ⟨0, 0, 0⟩

end Prim

/-! ## Input validation: data model -/

/-- Ways in which a run of `IsValidArgument` can stop without returning:
the two exceptions of `std::stoi`, or the end of the iteration budget of
the model. -/
inductive ValidationStop where
  | invalidArgument
  | outOfRange
  | budget
  deriving DecidableEq, Repr

/-- State of an opened `std::ifstream`: the characters not yet read and the
two state bits that the code tests. -/
structure IStream where
  rest : List Char
  eofbit : Bool
  failbit : Bool
  deriving DecidableEq, Repr

namespace Prim

/-- White space of the classic locale: the blank and the characters 9
to 13. -/
def isSpace (c : Char) : Bool :=
  c.toNat == 32 || (decide (9 ≤ c.toNat) && decide (c.toNat ≤ 13))

/-- Extraction `input_file >> temp` into a `std::string`. On a stream that
is not good the read fails and `temp` keeps its value; otherwise leading
white space is skipped, and at the end of the file the read fails with both
bits set; otherwise the characters up to the next white space go to
`temp`, and `eofbit` is set when the end of the file stopped the read. -/
def readToken (s : IStream) (temp : String) : IStream × String :=
  if s.eofbit || s.failbit then ({ s with failbit := true }, temp)
  else
    match s.rest.dropWhile isSpace with
    | [] => ({ rest := [], eofbit := true, failbit := true }, temp)
    | c :: cs =>
      ({ rest := (c :: cs).dropWhile (fun x => !isSpace x),
         eofbit := ((c :: cs).dropWhile (fun x => !isSpace x)).isEmpty,
         failbit := false },
       String.mk ((c :: cs).takeWhile (fun x => !isSpace x)))

/-- Function `IsPositiveInteger`: no character outside "0123456789". -/
def IsPositiveInteger (input : String) : Bool :=
  input.toList.all (fun c => "0123456789".toList.contains c)

/-- Function `IsPositiveDouble`: no character outside ".0123456789". -/
def IsPositiveDouble (input : String) : Bool :=
  input.toList.all (fun c => ".0123456789".toList.contains c)

/-- Value of a list of decimal digits. -/
def digitsValue (ds : List Char) : Nat :=
  ds.foldl (fun acc c => 10 * acc + (c.toNat - 48)) 0

/-- Library function `std::stoi`, on a string that starts with neither
white space nor a sign (the code calls it only after `IsPositiveInteger`):
the value of the leading digits, `std::invalid_argument` when there is
none, `std::out_of_range` above the largest `int`. -/
def stoi (input : String) : Except ValidationStop Nat :=
  if (input.toList.takeWhile Char.isDigit).isEmpty then .error .invalidArgument
  else if digitsValue (input.toList.takeWhile Char.isDigit) > 2147483647 then
    .error .outOfRange
  else .ok (digitsValue (input.toList.takeWhile Char.isDigit))

/-- The test `!IsPositiveInteger(temp) || (std::stoi(temp) > graph_size)`
of the source and of the destination vertex. -/
def vertexRejected (temp : String) (graph_size : Nat) : Except ValidationStop Bool :=
  if !IsPositiveInteger temp then .ok true
  else
    match stoi temp with
    | .error x => .error x
    | .ok v => .ok (decide (v > graph_size))

/-- The loop `while (input_file >> temp)` of `IsValidArgument`, run for at
most `fuel` reads. Of its three tests the one of `counter % 3` applies. -/
def checkEdges : Nat → IStream → String → Nat → Nat → Except ValidationStop Bool
  | 0, _, _, _, _ => .error .budget
  | fuel + 1, s, temp, graph_size, counter =>
    if (readToken s temp).1.failbit then .ok true
    else if counter % 3 = 2 then
      if !IsPositiveDouble (readToken s temp).2 then .ok false
      else checkEdges fuel (readToken s temp).1 (readToken s temp).2 graph_size (counter + 1)
    else
      match vertexRejected (readToken s temp).2 graph_size with
      | .error x => .error x
      | .ok true => .ok false
      | .ok false =>
        checkEdges fuel (readToken s temp).1 (readToken s temp).2 graph_size (counter + 1)

/-- Function `IsValidArgument`, on the argument count and the content of
the file named by `argv[1]`, `none` when it cannot be opened. -/
def IsValidArgument (argc : Nat) (file : Option String) : Except ValidationStop Bool :=
  if argc < 2 then .ok false
  else
    match file with
    | none => .ok false
    | some content =>
      if !IsPositiveInteger (readToken ⟨content.toList, false, false⟩ "").2
          || (readToken ⟨content.toList, false, false⟩ "").1.eofbit then .ok false
      else
        match stoi (readToken ⟨content.toList, false, false⟩ "").2 with
        | .error x => .error x
        | .ok graph_size =>
          checkEdges content.length (readToken ⟨content.toList, false, false⟩ "").1
            (readToken ⟨content.toList, false, false⟩ "").2 graph_size 0

/-- The strings that successive reads `input_file >> temp` deliver, for at
most `fuel` reads. -/
def tokensFrom : Nat → IStream → String → List String
  | 0, _, _ => []
  | fuel + 1, s, temp =>
    if (readToken s temp).1.failbit then []
    else (readToken s temp).2 :: tokensFrom fuel (readToken s temp).1 (readToken s temp).2

/-- The strings that the reads `input_file >> temp` deliver on a file. -/
def tokens (content : String) : List String :=
  tokensFrom (content.length + 1) ⟨content.toList, false, false⟩ ""

end Prim

/-! ## Reading and writing vectors -/

theorem getD_set_eq_ite {α : Type} (l : List α) (i j : Nat) (v d : α) :
    (l.set i v).getD j d = if i = j ∧ i < l.length then v else l.getD j d := by
  simp only [List.getD_eq_getElem?_getD, List.getElem?_set]
  by_cases h : i = j
  · subst h
    by_cases h2 : i < l.length
    · simp [h2]
    · have h3 : l[i]? = none := by simp; omega
      simp [h2, h3]
  · simp [h]

theorem getD_replicate_eq {α : Type} (n i : Nat) (d : α) :
    (List.replicate n d).getD i d = d := by
  simp only [List.getD_eq_getElem?_getD, List.getElem?_replicate]
  split <;> rfl

namespace IndexMinPQ

variable {K : Type}

/-! ## Exchange of two positions -/

@[simp] theorem SwapNodes_capacity (q : IndexMinPQ K) (i j : Nat) :
    (q.SwapNodes i j).capacity = q.capacity := rfl

@[simp] theorem SwapNodes_cur_size (q : IndexMinPQ K) (i j : Nat) :
    (q.SwapNodes i j).cur_size = q.cur_size := rfl

@[simp] theorem SwapNodes_keys (q : IndexMinPQ K) (i j : Nat) :
    (q.SwapNodes i j).keys = q.keys := rfl

@[simp] theorem SwapNodes_h_length (q : IndexMinPQ K) (i j : Nat) :
    (q.SwapNodes i j).heap_to_idx.length = q.heap_to_idx.length := by
  simp [SwapNodes]

@[simp] theorem SwapNodes_t_length (q : IndexMinPQ K) (i j : Nat) :
    (q.SwapNodes i j).idx_to_heap.length = q.idx_to_heap.length := by
  simp [SwapNodes]

theorem SwapNodes_h (q : IndexMinPQ K) (i j k : Nat)
    (hi : i < q.heap_to_idx.length) (hj : j < q.heap_to_idx.length) :
    (q.SwapNodes i j).heap_to_idx.getD k 0 =
      if k = j then q.heap_to_idx.getD i 0
      else if k = i then q.heap_to_idx.getD j 0
      else q.heap_to_idx.getD k 0 := by
  simp only [SwapNodes, getD_set_eq_ite, List.length_set, true_and]
  split_ifs <;> first | rfl | (exfalso; omega)

theorem SwapNodes_t (q : IndexMinPQ K) (i j x : Nat) (hij : i ≠ j)
    (hi : i < q.heap_to_idx.length) (hj : j < q.heap_to_idx.length)
    (hti : q.heap_to_idx.getD i 0 < q.idx_to_heap.length)
    (htj : q.heap_to_idx.getD j 0 < q.idx_to_heap.length) :
    (q.SwapNodes i j).idx_to_heap.getD x 0 =
      if x = q.heap_to_idx.getD i 0 then j
      else if x = q.heap_to_idx.getD j 0 then i
      else q.idx_to_heap.getD x 0 := by
  have e1 : ((q.heap_to_idx.set i (q.heap_to_idx.getD j 0)).set j
      (q.heap_to_idx.getD i 0)).getD i 0 = q.heap_to_idx.getD j 0 := by
    simp only [getD_set_eq_ite, List.length_set, true_and]
    split_ifs <;> first | rfl | (exfalso; omega)
  have e2 : ((q.heap_to_idx.set i (q.heap_to_idx.getD j 0)).set j
      (q.heap_to_idx.getD i 0)).getD j 0 = q.heap_to_idx.getD i 0 := by
    rw [getD_set_eq_ite, if_pos]
    exact ⟨rfl, by rw [List.length_set]; exact hj⟩
  simp only [SwapNodes, e1, e2, getD_set_eq_ite, List.length_set, true_and]
  split_ifs <;> first | rfl | (exfalso; omega)

theorem SwapNodes_keyAt [Inhabited K] (q : IndexMinPQ K) (i j k : Nat)
    (hi : i < q.heap_to_idx.length) (hj : j < q.heap_to_idx.length) :
    (q.SwapNodes i j).keyAt k =
      if k = j then q.keyAt i else if k = i then q.keyAt j else q.keyAt k := by
  unfold keyAt
  rw [SwapNodes_h q i j k hi hj, SwapNodes_keys]
  split
  · rfl
  · split <;> rfl

end IndexMinPQ

namespace IndexMinPQ

variable {K : Type}

/-! ## What the two loops leave unchanged -/

theorem HasParent_true {i : Nat} (h : HasParent i = true) : i ≠ 1 := by
  simpa [HasParent, Root] using h

theorem GreaterNode_true [Inhabited K] [LinearOrder K] {q : IndexMinPQ K} {i j : Nat}
    (h : q.GreaterNode i j = true) : q.keyAt j < q.keyAt i := by
  simpa [GreaterNode] using h

theorem GreaterNode_false [Inhabited K] [LinearOrder K] {q : IndexMinPQ K} {i j : Nat}
    (h : ¬ q.GreaterNode i j = true) : q.keyAt i ≤ q.keyAt j := by
  simpa [GreaterNode] using h

theorem IsNode_true {q : IndexMinPQ K} {i : Nat} (h : q.IsNode i = true) : i ≤ q.cur_size := by
  simpa [IsNode] using h

theorem IsNode_false {q : IndexMinPQ K} {i : Nat} (h : ¬ q.IsNode i = true) : q.cur_size < i := by
  simpa [IsNode] using h

theorem smallerChild_cases [Inhabited K] [LinearOrder K] (q : IndexMinPQ K) (i : Nat) :
    (q.smallerChild i = 2 * i ∧
        (2 * i + 1 ≤ q.cur_size → q.keyAt (2 * i) ≤ q.keyAt (2 * i + 1))) ∨
    (q.smallerChild i = 2 * i + 1 ∧ 2 * i + 1 ≤ q.cur_size ∧
        q.keyAt (2 * i + 1) < q.keyAt (2 * i)) := by
  unfold smallerChild
  by_cases hc : (q.IsNode (RightChild i) && q.GreaterNode (LeftChild i) (RightChild i)) = true
  · right
    rw [if_pos hc]
    rw [Bool.and_eq_true] at hc
    exact ⟨rfl, IsNode_true hc.1, GreaterNode_true hc.2⟩
  · left
    rw [if_neg hc]
    refine ⟨rfl, fun h => ?_⟩
    rw [Bool.and_eq_true, not_and] at hc
    exact GreaterNode_false (hc (by simpa [IsNode, RightChild] using h))

theorem PercolateUpLoop_stable [Inhabited K] [LinearOrder K] (P : IndexMinPQ K → Prop)
    (hP : SwapStable P) :
    ∀ (fuel : Nat) (q : IndexMinPQ K) (i : Nat), 1 ≤ i → i ≤ q.cur_size → P q →
      P (PercolateUpLoop fuel q i) := by
  intro fuel
  induction fuel with
  | zero => intro q i _ _ h; exact h
  | succ n ih =>
    intro q i h1 h2 h
    unfold PercolateUpLoop
    by_cases hc : (HasParent i && q.GreaterNode (Parent i) i) = true
    · rw [if_pos hc]
      rw [Bool.and_eq_true] at hc
      have hne := HasParent_true hc.1
      have hp1 : 1 ≤ Parent i := by unfold Parent; omega
      have hp2 : Parent i ≤ q.cur_size := by unfold Parent; omega
      have hp3 : Parent i ≠ i := by unfold Parent; omega
      exact ih _ _ hp1 (by simpa using hp2) (hP q _ _ hp1 hp2 h1 h2 hp3 h)
    · rw [if_neg hc]; exact h

theorem PercolateDownLoop_stable [Inhabited K] [LinearOrder K] (P : IndexMinPQ K → Prop)
    (hP : SwapStable P) :
    ∀ (fuel : Nat) (q : IndexMinPQ K) (i : Nat), 1 ≤ i → P q →
      P (PercolateDownLoop fuel q i) := by
  intro fuel
  induction fuel with
  | zero => intro q i _ h; exact h
  | succ n ih =>
    intro q i h1 h
    unfold PercolateDownLoop
    by_cases hn : q.IsNode (LeftChild i) = true
    · rw [if_pos hn]
      have hl : 2 * i ≤ q.cur_size := IsNode_true hn
      simp only []
      by_cases hg : q.GreaterNode i (q.smallerChild i) = true
      · rw [if_pos hg]
        have hc1 : 1 ≤ q.smallerChild i ∧ q.smallerChild i ≤ q.cur_size ∧
            i ≠ q.smallerChild i := by
          rcases smallerChild_cases q i with ⟨e, _⟩ | ⟨e, h3, _⟩ <;> rw [e] <;> omega
        exact ih _ _ hc1.1 (hP q _ _ h1 (by omega) hc1.1 hc1.2.1 hc1.2.2 h)
      · rw [if_neg hg]; exact h
    · rw [if_neg hn]; exact h

theorem GreaterNode_self [Inhabited K] [LinearOrder K] (q : IndexMinPQ K) (i : Nat) :
    q.GreaterNode i i = false := by
  simp [GreaterNode]

theorem PercolateUpLoop_zero [Inhabited K] [LinearOrder K] (fuel : Nat) (q : IndexMinPQ K) :
    PercolateUpLoop fuel q 0 = q := by
  cases fuel with
  | zero => rfl
  | succ n =>
    unfold PercolateUpLoop
    rw [if_neg]
    simp [Parent, GreaterNode_self]

/-- More iterations than the position change nothing in `PercolateUp`. -/
theorem PercolateUpLoop_fuel [Inhabited K] [LinearOrder K] :
    ∀ (f1 f2 : Nat) (q : IndexMinPQ K) (i : Nat), i ≤ f1 → i ≤ f2 →
      PercolateUpLoop f1 q i = PercolateUpLoop f2 q i := by
  intro f1
  induction f1 with
  | zero =>
    intro f2 q i h1 _
    have : i = 0 := by omega
    rw [this, PercolateUpLoop_zero, PercolateUpLoop_zero]
  | succ n ih =>
    intro f2 q i h1 h2
    cases f2 with
    | zero =>
      have : i = 0 := by omega
      rw [this, PercolateUpLoop_zero, PercolateUpLoop_zero]
    | succ m =>
      unfold PercolateUpLoop
      by_cases hc : (HasParent i && q.GreaterNode (Parent i) i) = true
      · rw [if_pos hc, if_pos hc]
        by_cases h0 : i = 0
        · rw [h0]
          simp only [Parent, Nat.zero_div]
          rw [PercolateUpLoop_zero, PercolateUpLoop_zero]
        · exact ih m _ _ (by unfold Parent; omega) (by unfold Parent; omega)
      · rw [if_neg hc, if_neg hc]

/-- The model of `PercolateUp` satisfies the equation of its `while` loop at
every position: the iteration budget never cuts the loop short. -/
theorem PercolateUp_loop [Inhabited K] [LinearOrder K] (q : IndexMinPQ K) (i : Nat) :
    q.PercolateUp i =
      if HasParent i && q.GreaterNode (Parent i) i then
        (q.SwapNodes (Parent i) i).PercolateUp (Parent i)
      else q := by
  unfold PercolateUp
  cases i with
  | zero =>
    rw [PercolateUpLoop_zero, if_neg]
    simp [Parent, GreaterNode_self]
  | succ n =>
    conv => lhs; unfold PercolateUpLoop
    by_cases hc : (HasParent (n + 1) && q.GreaterNode (Parent (n + 1)) (n + 1)) = true
    · rw [if_pos hc, if_pos hc]
      exact PercolateUpLoop_fuel _ _ _ _ (by unfold Parent; omega) (le_refl _)
    · rw [if_neg hc, if_neg hc]

theorem PercolateDownLoop_leaf [Inhabited K] [LinearOrder K] (fuel : Nat) (q : IndexMinPQ K)
    (i : Nat) (h : ¬ q.IsNode (LeftChild i) = true) : PercolateDownLoop fuel q i = q := by
  cases fuel with
  | zero => rfl
  | succ n => unfold PercolateDownLoop; rw [if_neg h]

/-- More iterations than `cur_size + 1 - i` change nothing in
`PercolateDown` from a position `i >= 1`. -/
theorem PercolateDownLoop_fuel [Inhabited K] [LinearOrder K] :
    ∀ (f1 f2 : Nat) (q : IndexMinPQ K) (i : Nat), 1 ≤ i → q.cur_size + 1 ≤ f1 + i →
      q.cur_size + 1 ≤ f2 + i → PercolateDownLoop f1 q i = PercolateDownLoop f2 q i := by
  intro f1
  induction f1 with
  | zero =>
    intro f2 q i _ h1 _
    have hl : ¬ q.IsNode (LeftChild i) = true := by
      intro h; have := IsNode_true h; unfold LeftChild at this; omega
    rw [PercolateDownLoop_leaf _ _ _ hl, PercolateDownLoop_leaf _ _ _ hl]
  | succ n ih =>
    intro f2 q i h0 h1 h2
    cases f2 with
    | zero =>
      have hl : ¬ q.IsNode (LeftChild i) = true := by
        intro h; have := IsNode_true h; unfold LeftChild at this; omega
      rw [PercolateDownLoop_leaf _ _ _ hl, PercolateDownLoop_leaf _ _ _ hl]
    | succ m =>
      unfold PercolateDownLoop
      by_cases hn : q.IsNode (LeftChild i) = true
      · rw [if_pos hn, if_pos hn]
        simp only []
        by_cases hg : q.GreaterNode i (q.smallerChild i) = true
        · rw [if_pos hg, if_pos hg]
          have hc : 2 * i ≤ q.smallerChild i := by
            rcases smallerChild_cases q i with ⟨e, _⟩ | ⟨e, _, _⟩ <;> omega
          exact ih m _ _ (by omega) (by simp only [SwapNodes_cur_size]; omega)
            (by simp only [SwapNodes_cur_size]; omega)
        · rw [if_neg hg, if_neg hg]
      · rw [if_neg hn, if_neg hn]

/-- The model of `PercolateDown` satisfies the equation of its `while` loop
at every position `i >= 1`: the iteration budget never cuts the loop
short. -/
theorem PercolateDown_loop [Inhabited K] [LinearOrder K] (q : IndexMinPQ K) (i : Nat)
    (h1 : 1 ≤ i) :
    q.PercolateDown i =
      if q.IsNode (LeftChild i) then
        if q.GreaterNode i (q.smallerChild i) then
          (q.SwapNodes i (q.smallerChild i)).PercolateDown (q.smallerChild i)
        else q
      else q := by
  unfold PercolateDown
  conv => lhs; unfold PercolateDownLoop
  by_cases hn : q.IsNode (LeftChild i) = true
  · rw [if_pos hn, if_pos hn]
    simp only []
    by_cases hg : q.GreaterNode i (q.smallerChild i) = true
    · rw [if_pos hg, if_pos hg]
      have hl : 2 * i ≤ q.cur_size := IsNode_true hn
      have hc : 2 * i ≤ q.smallerChild i := by
        rcases smallerChild_cases q i with ⟨e, _⟩ | ⟨e, _, _⟩ <;> omega
      exact PercolateDownLoop_fuel _ _ _ _ (by omega)
        (by simp only [SwapNodes_cur_size]; omega) (by simp only [SwapNodes_cur_size]; omega)
    · rw [if_neg hg, if_neg hg]
  · rw [if_neg hn, if_neg hn]

theorem PercolateUpLoop_frame [Inhabited K] [LinearOrder K] :
    ∀ (fuel : Nat) (q : IndexMinPQ K) (i : Nat),
      (PercolateUpLoop fuel q i).capacity = q.capacity ∧
      (PercolateUpLoop fuel q i).cur_size = q.cur_size ∧
      (PercolateUpLoop fuel q i).keys = q.keys := by
  intro fuel
  induction fuel with
  | zero => intro q i; exact ⟨rfl, rfl, rfl⟩
  | succ n ih =>
    intro q i
    unfold PercolateUpLoop
    split
    · exact ih _ _
    · exact ⟨rfl, rfl, rfl⟩

theorem PercolateDownLoop_frame [Inhabited K] [LinearOrder K] :
    ∀ (fuel : Nat) (q : IndexMinPQ K) (i : Nat),
      (PercolateDownLoop fuel q i).capacity = q.capacity ∧
      (PercolateDownLoop fuel q i).cur_size = q.cur_size ∧
      (PercolateDownLoop fuel q i).keys = q.keys := by
  intro fuel
  induction fuel with
  | zero => intro q i; exact ⟨rfl, rfl, rfl⟩
  | succ n ih =>
    intro q i
    unfold PercolateDownLoop
    split
    · simp only []
      split
      · exact ih _ _
      · exact ⟨rfl, rfl, rfl⟩
    · exact ⟨rfl, rfl, rfl⟩

end IndexMinPQ

namespace IndexMinPQ

variable {K : Type}

/-! ## Properties kept by an exchange of two live positions -/

theorem swapPos_invol (i j p : Nat) : swapPos i j (swapPos i j p) = p := by
  unfold swapPos; split_ifs <;> omega

theorem swapPos_bounds {i j p n : Nat} (hi1 : 1 ≤ i) (hi2 : i ≤ n) (hj1 : 1 ≤ j) (hj2 : j ≤ n)
    (hp1 : 1 ≤ p) (hp2 : p ≤ n) : 1 ≤ swapPos i j p ∧ swapPos i j p ≤ n := by
  unfold swapPos; split_ifs <;> omega

theorem SwapNodes_h_swapPos (q : IndexMinPQ K) (i j k : Nat)
    (hi : i < q.heap_to_idx.length) (hj : j < q.heap_to_idx.length) :
    (q.SwapNodes i j).heap_to_idx.getD k 0 = q.heap_to_idx.getD (swapPos i j k) 0 := by
  rw [SwapNodes_h q i j k hi hj]
  unfold swapPos; split_ifs <;> rfl

theorem Shape.pos_lt {q : IndexMinPQ K} (hs : Shape q) {p : Nat} (hp : p ≤ q.cur_size) :
    p < q.heap_to_idx.length := by
  have h1 := hs.h_len
  have h2 := hs.size_le
  omega

theorem Shape.live_idx_lt {q : IndexMinPQ K} (hs : Shape q) {p : Nat} (hp1 : 1 ≤ p)
    (hp : p ≤ q.cur_size) : q.heap_to_idx.getD p 0 < q.idx_to_heap.length := by
  rw [hs.t_len]; exact hs.live_lt p hp1 hp

theorem Shape_swapStable : SwapStable (fun q : IndexMinPQ K => Shape q) := by
  intro q i j hi1 hi2 hj1 hj2 _ hs
  refine ⟨hs.keys_len, ?_, ?_, hs.size_le, ?_⟩
  · rw [SwapNodes_h_length]; exact hs.h_len
  · rw [SwapNodes_t_length]; exact hs.t_len
  · intro p hp1 hp2
    rw [SwapNodes_h_swapPos q i j p (hs.pos_lt hi2) (hs.pos_lt hj2)]
    have hb := swapPos_bounds hi1 hi2 hj1 hj2 hp1 hp2
    exact hs.live_lt _ hb.1 hb.2

theorem Bijection.inj {q : IndexMinPQ K} (hb : Bijection q) : Inj q := by
  intro p p2 h1 h2 h3 h4 he
  have e1 := hb.1 p h1 h2
  have e2 := hb.1 p2 h3 h4
  rw [he] at e1
  omega

theorem Bijection_swapStable (M : Nat → Prop) :
    SwapStable (fun q : IndexMinPQ K => Shape q ∧ Bijection q ∧ Members q M) := by
  intro q i j hi1 hi2 hj1 hj2 hij ⟨hs, hb, hm⟩
  have hs2 : Shape (q.SwapNodes i j) := Shape_swapStable q i j hi1 hi2 hj1 hj2 hij hs
  have hli := hs.pos_lt hi2
  have hlj := hs.pos_lt hj2
  have hti := hs.live_idx_lt hi1 hi2
  have htj := hs.live_idx_lt hj1 hj2
  have hne : q.heap_to_idx.getD i 0 ≠ q.heap_to_idx.getD j 0 :=
    fun h => hij (hb.inj i j hi1 hi2 hj1 hj2 h)
  have ei := hb.1 i hi1 hi2
  have ej := hb.1 j hj1 hj2
  refine ⟨hs2, ⟨?_, ?_⟩, ?_⟩
  · intro p hp1 hp2
    simp only [SwapNodes_cur_size] at hp2
    rw [SwapNodes_t q i j _ hij hli hlj hti htj, SwapNodes_h q i j p hli hlj]
    by_cases h1 : p = j
    · simp only [h1, if_true]
    · by_cases h2 : p = i
      · simp only [h1, h2, if_true, if_false, hij]
        rw [if_neg (Ne.symm hne)]
      · simp only [h1, h2, if_false]
        have n1 : q.heap_to_idx.getD p 0 ≠ q.heap_to_idx.getD i 0 :=
          fun h => h2 (hb.inj p i hp1 hp2 hi1 hi2 h)
        have n2 : q.heap_to_idx.getD p 0 ≠ q.heap_to_idx.getD j 0 :=
          fun h => h1 (hb.inj p j hp1 hp2 hj1 hj2 h)
        rw [if_neg n1, if_neg n2]
        exact hb.1 p hp1 hp2
  · intro idx hidx
    simp only [SwapNodes_cur_size, SwapNodes_capacity] at hidx ⊢
    rw [SwapNodes_t q i j _ hij hli hlj hti htj]
    by_cases h1 : idx = q.heap_to_idx.getD i 0
    · rw [if_pos h1]
      intro _
      refine ⟨hj1, hj2, ?_⟩
      rw [SwapNodes_h q i j j hli hlj, if_pos rfl]; exact h1.symm
    · rw [if_neg h1]
      by_cases h2 : idx = q.heap_to_idx.getD j 0
      · rw [if_pos h2]
        intro _
        refine ⟨hi1, hi2, ?_⟩
        rw [SwapNodes_h q i j i hli hlj, if_neg hij, if_pos rfl]; exact h2.symm
      · rw [if_neg h2]
        intro hnz
        obtain ⟨a1, a2, a3⟩ := hb.2 idx hidx hnz
        refine ⟨a1, a2, ?_⟩
        have n1 : q.idx_to_heap.getD idx 0 ≠ j := fun h => h2 (by rw [← a3, h])
        have n2 : q.idx_to_heap.getD idx 0 ≠ i := fun h => h1 (by rw [← a3, h])
        rw [SwapNodes_h q i j _ hli hlj, if_neg n1, if_neg n2]; exact a3
  · intro idx
    rw [← hm idx, SwapNodes_t q i j _ hij hli hlj hti htj]
    by_cases h1 : idx = q.heap_to_idx.getD i 0
    · rw [if_pos h1, h1, ei]; omega
    · rw [if_neg h1]
      by_cases h2 : idx = q.heap_to_idx.getD j 0
      · rw [if_pos h2, h2, ej]; omega
      · rw [if_neg h2]

theorem Inj_swapStable (M : Nat → Prop) :
    SwapStable (fun q : IndexMinPQ K => Shape q ∧ Inj q ∧ ∀ idx, Live q idx ↔ M idx) := by
  intro q i j hi1 hi2 hj1 hj2 hij ⟨hs, hinj, hm⟩
  have hs2 : Shape (q.SwapNodes i j) := Shape_swapStable q i j hi1 hi2 hj1 hj2 hij hs
  have hli := hs.pos_lt hi2
  have hlj := hs.pos_lt hj2
  refine ⟨hs2, ?_, ?_⟩
  · intro p p2 h1 h2 h3 h4 he
    simp only [SwapNodes_cur_size] at h2 h4
    rw [SwapNodes_h_swapPos q i j p hli hlj, SwapNodes_h_swapPos q i j p2 hli hlj] at he
    have b1 := swapPos_bounds hi1 hi2 hj1 hj2 h1 h2
    have b2 := swapPos_bounds hi1 hi2 hj1 hj2 h3 h4
    have e := hinj _ _ b1.1 b1.2 b2.1 b2.2 he
    rw [← swapPos_invol i j p, ← swapPos_invol i j p2, e]
  · intro idx
    rw [← hm idx]
    constructor
    · rintro ⟨p, h1, h2, h3⟩
      simp only [SwapNodes_cur_size] at h2
      rw [SwapNodes_h_swapPos q i j p hli hlj] at h3
      have b1 := swapPos_bounds hi1 hi2 hj1 hj2 h1 h2
      exact ⟨_, b1.1, b1.2, h3⟩
    · rintro ⟨p, h1, h2, h3⟩
      have b1 := swapPos_bounds hi1 hi2 hj1 hj2 h1 h2
      refine ⟨swapPos i j p, b1.1, b1.2, ?_⟩
      rw [SwapNodes_h_swapPos q i j _ hli hlj, swapPos_invol]; exact h3

end IndexMinPQ

namespace IndexMinPQ

variable {K : Type}

/-! ## The two loops restore heap order -/

theorem HeapOrdered.upInv [Inhabited K] [LinearOrder K] {q : IndexMinPQ K}
    (h : HeapOrdered q) (i : Nat) : UpInv q i := by
  refine ⟨fun k h1 h2 _ => h k h1 h2, fun c h1 h2 h3 h4 => ?_⟩
  have e1 := h c h1 h2
  have e2 := h i h4 (by omega)
  rw [h3] at e1
  exact le_trans e2 e1

theorem HeapOrdered.downInv [Inhabited K] [LinearOrder K] {q : IndexMinPQ K}
    (h : HeapOrdered q) (i : Nat) : DownInv q i :=
  ⟨fun k h1 h2 _ => h k h1 h2, (h.upInv i).2⟩

theorem UpInv_swap [Inhabited K] [LinearOrder K] {q : IndexMinPQ K} {i : Nat}
    (hs : Shape q) (h1 : 2 ≤ i) (h2 : i ≤ q.cur_size) (hu : UpInv q i)
    (hlt : q.keyAt i < q.keyAt (i / 2)) : UpInv (q.SwapNodes (i / 2) i) (i / 2) := by
  have kA : ∀ k, (q.SwapNodes (i / 2) i).keyAt k =
      if k = i then q.keyAt (i / 2) else if k = i / 2 then q.keyAt i else q.keyAt k :=
    fun k => SwapNodes_keyAt q (i / 2) i k (hs.pos_lt (by omega)) (hs.pos_lt h2)
  obtain ⟨ha, hb⟩ := hu
  constructor
  · intro k k1 k2 k3
    simp only [SwapNodes_cur_size] at k2
    rw [kA k, kA (k / 2)]
    by_cases e1 : k = i
    · have e2 : ¬ k / 2 = i := by omega
      have e3 : k / 2 = i / 2 := by rw [e1]
      rw [if_pos e1, if_neg e2, if_pos e3]
      exact le_of_lt hlt
    · rw [if_neg e1, if_neg k3]
      by_cases e2 : k / 2 = i
      · rw [if_pos e2]
        exact hb k k1 k2 e2 h1
      · rw [if_neg e2]
        by_cases e3 : k / 2 = i / 2
        · rw [if_pos e3]
          have := ha k k1 k2 e1
          rw [e3] at this
          exact le_trans (le_of_lt hlt) this
        · rw [if_neg e3]
          exact ha k k1 k2 e1
  · intro c c1 c2 c3 c4
    simp only [SwapNodes_cur_size] at c2
    rw [kA c, kA (i / 2 / 2)]
    have e1 : ¬ i / 2 / 2 = i := by omega
    have e2 : ¬ i / 2 / 2 = i / 2 := by omega
    rw [if_neg e1, if_neg e2]
    have hp : q.keyAt (i / 2 / 2) ≤ q.keyAt (i / 2) := ha (i / 2) c4 (by omega) (by omega)
    by_cases e3 : c = i
    · rw [if_pos e3]; exact hp
    · have e4 : ¬ c = i / 2 := by omega
      rw [if_neg e3, if_neg e4]
      have := ha c c1 c2 e3
      rw [c3] at this
      exact le_trans hp this

theorem PercolateUpLoop_heap [Inhabited K] [LinearOrder K] :
    ∀ (fuel : Nat) (q : IndexMinPQ K) (i : Nat), Shape q → 1 ≤ i → i ≤ q.cur_size →
      i ≤ fuel → UpInv q i → HeapOrdered (PercolateUpLoop fuel q i) := by
  intro fuel
  induction fuel with
  | zero => intro q i _ h1 _ h3 _; omega
  | succ n ih =>
    intro q i hs h1 h2 h3 hu
    unfold PercolateUpLoop
    by_cases hc : (HasParent i && q.GreaterNode (Parent i) i) = true
    · rw [if_pos hc]
      rw [Bool.and_eq_true] at hc
      have hne := HasParent_true hc.1
      have hlt := GreaterNode_true hc.2
      unfold Parent at hlt ⊢
      have hi2 : 2 ≤ i := by omega
      refine ih _ _ ?_ (by omega) (by simp only [SwapNodes_cur_size]; omega) (by omega)
        (UpInv_swap hs hi2 h2 hu hlt)
      exact Shape_swapStable q _ _ (by omega) (by omega) h1 h2 (by omega) hs
    · rw [if_neg hc]
      intro k k1 k2
      by_cases e : k = i
      · rw [Bool.and_eq_true, not_and] at hc
        have hp : HasParent i = true := by
          simp only [HasParent, Root, bne_iff_ne]; omega
        have := GreaterNode_false (hc hp)
        unfold Parent at this
        rw [e]; exact this
      · exact hu.1 k k1 k2 e

theorem DownInv_swap [Inhabited K] [LinearOrder K] {q : IndexMinPQ K} {i c : Nat}
    (hs : Shape q) (h1 : 1 ≤ i) (hc1 : c = 2 * i ∨ c = 2 * i + 1) (hc2 : c ≤ q.cur_size)
    (hd : DownInv q i) (hlt : q.keyAt c < q.keyAt i)
    (hmin : ∀ k, 2 ≤ k → k ≤ q.cur_size → k / 2 = i → q.keyAt c ≤ q.keyAt k) :
    DownInv (q.SwapNodes i c) c := by
  have kA : ∀ k, (q.SwapNodes i c).keyAt k =
      if k = c then q.keyAt i else if k = i then q.keyAt c else q.keyAt k :=
    fun k => SwapNodes_keyAt q i c k (hs.pos_lt (by omega)) (hs.pos_lt hc2)
  obtain ⟨ha, hb⟩ := hd
  have hci : c / 2 = i := by omega
  constructor
  · intro k k1 k2 k3
    simp only [SwapNodes_cur_size] at k2
    rw [kA k, kA (k / 2)]
    rw [if_neg k3]
    by_cases e1 : k = c
    · have e2 : k / 2 = i := by rw [e1]; exact hci
      rw [if_pos e1, if_pos e2]
      exact le_of_lt hlt
    · rw [if_neg e1]
      by_cases e2 : k = i
      · have e3 : ¬ k / 2 = i := by omega
        rw [if_pos e2, if_neg e3, e2]
        exact hb c (by omega) hc2 hci (by omega)
      · rw [if_neg e2]
        by_cases e3 : k / 2 = i
        · rw [if_pos e3]
          exact hmin k k1 k2 e3
        · rw [if_neg e3]
          exact ha k k1 k2 e3
  · intro d d1 d2 d3 _
    simp only [SwapNodes_cur_size] at d2
    rw [kA d, kA (c / 2)]
    have e1 : ¬ c / 2 = c := by omega
    have e2 : ¬ d = c := by omega
    have e3 : ¬ d = i := by omega
    rw [if_neg e1, if_pos hci, if_neg e2, if_neg e3]
    have := ha d d1 d2 (by omega)
    rw [d3] at this
    exact this

theorem PercolateDownLoop_heap [Inhabited K] [LinearOrder K] :
    ∀ (fuel : Nat) (q : IndexMinPQ K) (i : Nat), Shape q → 1 ≤ i →
      q.cur_size + 1 ≤ fuel + i → DownInv q i → HeapOrdered (PercolateDownLoop fuel q i) := by
  intro fuel
  induction fuel with
  | zero =>
    intro q i _ _ h3 hd k k1 k2
    exact hd.1 k k1 k2 (by simp only [PercolateDownLoop] at k2; omega)
  | succ n ih =>
    intro q i hs h1 h3 hd
    unfold PercolateDownLoop
    by_cases hn : q.IsNode (LeftChild i) = true
    · rw [if_pos hn]
      have hl : 2 * i ≤ q.cur_size := IsNode_true hn
      simp only []
      have hmin : ∀ k, 2 ≤ k → k ≤ q.cur_size → k / 2 = i →
          q.keyAt (q.smallerChild i) ≤ q.keyAt k := by
        intro k _ k2 k3
        have hk : k = 2 * i ∨ k = 2 * i + 1 := by omega
        rcases smallerChild_cases q i with ⟨e, hle⟩ | ⟨e, _, hlt⟩
        · rw [e]
          rcases hk with hk | hk
          · rw [hk]
          · rw [hk]; exact hle (by omega)
        · rw [e]
          rcases hk with hk | hk
          · rw [hk]; exact le_of_lt hlt
          · rw [hk]
      have hcc : (q.smallerChild i = 2 * i ∨ q.smallerChild i = 2 * i + 1) ∧
          q.smallerChild i ≤ q.cur_size := by
        rcases smallerChild_cases q i with ⟨e, _⟩ | ⟨e, h3, _⟩
        · exact ⟨Or.inl e, by omega⟩
        · exact ⟨Or.inr e, by omega⟩
      by_cases hg : q.GreaterNode i (q.smallerChild i) = true
      · rw [if_pos hg]
        have hlt := GreaterNode_true hg
        refine ih _ _ ?_ (by omega) (by simp only [SwapNodes_cur_size]; omega)
          (DownInv_swap hs h1 hcc.1 hcc.2 hd hlt hmin)
        exact Shape_swapStable q _ _ h1 (by omega) (by omega) hcc.2 (by omega) hs
      · rw [if_neg hg]
        have hle := GreaterNode_false hg
        intro k k1 k2
        by_cases e : k / 2 = i
        · rw [e]; exact le_trans hle (hmin k k1 k2 e)
        · exact hd.1 k k1 k2 e
    · rw [if_neg hn]
      have hl := IsNode_false hn
      unfold LeftChild at hl
      intro k k1 k2
      exact hd.1 k k1 k2 (by omega)

theorem HeapOrdered.root_le [Inhabited K] [LinearOrder K] {q : IndexMinPQ K}
    (h : HeapOrdered q) : ∀ p, 1 ≤ p → p ≤ q.cur_size → q.keyAt 1 ≤ q.keyAt p := by
  intro p
  induction p using Nat.strong_induction_on with
  | _ p ih =>
    intro h1 h2
    by_cases e : p = 1
    · rw [e]
    · have hp := h p (by omega) h2
      exact le_trans (ih (p / 2) (by omega) (by omega) (by omega)) hp

end IndexMinPQ

namespace IndexMinPQ

variable {K : Type}

/-! ## Push -/

theorem Push_eq [Inhabited K] [LinearOrder K] (q : IndexMinPQ K) (key : K) (idx : Nat)
    (h1 : idx < q.capacity) (h2 : q.idx_to_heap.getD idx 0 = 0) :
    q.Push key idx = .ok ((q.pushed key idx).PercolateUp (q.cur_size + 1)) := by
  have h3 : ¬ idx ≥ q.capacity := by omega
  simp only [Push, Contains, if_neg h3, h2, bne_self_eq_false]
  rfl

theorem size_lt_of_absent {q : IndexMinPQ K} (hs : Shape q) (hb : Bijection q) {idx : Nat}
    (h1 : idx < q.capacity) (h2 : q.idx_to_heap.getD idx 0 = 0) :
    q.cur_size < q.capacity := by
  have hc : (Finset.Icc 1 q.cur_size).card ≤ ((Finset.range q.capacity).erase idx).card := by
    apply Finset.card_le_card_of_injOn (fun p => q.heap_to_idx.getD p 0)
    · intro p hp
      rw [Finset.mem_Icc] at hp
      rw [Finset.mem_erase, Finset.mem_range]
      refine ⟨fun he => ?_, hs.live_lt p hp.1 hp.2⟩
      have := hb.1 p hp.1 hp.2
      rw [he, h2] at this
      omega
    · intro p hp p2 hp2 he
      simp only [Finset.coe_Icc, Set.mem_Icc] at hp hp2
      exact hb.inj p p2 hp.1 hp.2 hp2.1 hp2.2 he
  rw [Nat.card_Icc, Finset.card_erase_of_mem (Finset.mem_range.2 h1), Finset.card_range] at hc
  omega

theorem pushed_keyAt [Inhabited K] (q : IndexMinPQ K) (key : K) (idx : Nat)
    (hb : Bijection q) (h2 : q.idx_to_heap.getD idx 0 = 0) (p : Nat) (hp1 : 1 ≤ p)
    (hp2 : p ≤ q.cur_size) : (q.pushed key idx).keyAt p = q.keyAt p := by
  have hne : idx ≠ q.heap_to_idx.getD p 0 := by
    intro he
    have := hb.1 p hp1 hp2
    rw [← he, h2] at this
    omega
  have hn : ¬ (q.cur_size + 1 = p ∧ q.cur_size + 1 < q.heap_to_idx.length) := by omega
  simp only [keyAt, pushed, getD_set_eq_ite, if_neg hn]
  rw [if_neg (fun h => hne h.1)]

theorem pushed_shape {q : IndexMinPQ K} (hs : Shape q) (key : K) {idx : Nat}
    (h1 : idx < q.capacity) (hlt : q.cur_size < q.capacity) : Shape (q.pushed key idx) := by
  refine ⟨?_, ?_, ?_, ?_, ?_⟩
  · simp only [pushed, List.length_set]; exact hs.keys_len
  · simp only [pushed, List.length_set]; exact hs.h_len
  · simp only [pushed, List.length_set]; exact hs.t_len
  · simp only [pushed]; omega
  · intro p hp1 hp2
    simp only [pushed, getD_set_eq_ite] at hp2 ⊢
    split_ifs with hc
    · exact h1
    · have hl := hs.h_len
      exact hs.live_lt p hp1 (by omega)

theorem pushed_bij {q : IndexMinPQ K} (hs : Shape q) (hb : Bijection q) (key : K) {idx : Nat}
    (h1 : idx < q.capacity) (h2 : q.idx_to_heap.getD idx 0 = 0)
    (hlt : q.cur_size < q.capacity) : Bijection (q.pushed key idx) := by
  have hl := hs.h_len
  have tl := hs.t_len
  constructor
  · intro p hp1 hp2
    simp only [pushed, getD_set_eq_ite] at hp2 ⊢
    by_cases e : q.cur_size + 1 = p
    · have hc : q.cur_size + 1 = p ∧ q.cur_size + 1 < q.heap_to_idx.length := ⟨e, by omega⟩
      simp only [if_pos hc]
      rw [if_pos ⟨trivial, by omega⟩]; exact e
    · have hc : ¬ (q.cur_size + 1 = p ∧ q.cur_size + 1 < q.heap_to_idx.length) :=
        fun h => e h.1
      simp only [if_neg hc]
      have := hb.1 p hp1 (by omega)
      rw [if_neg]
      · exact this
      · rintro ⟨he, _⟩
        rw [← he, h2] at this
        omega
  · intro x hx hnz
    simp only [pushed, getD_set_eq_ite] at hx hnz ⊢
    by_cases e : idx = x
    · have hc : idx = x ∧ idx < q.idx_to_heap.length := ⟨e, by omega⟩
      simp only [if_pos hc]
      rw [if_pos ⟨trivial, by omega⟩]
      exact ⟨by omega, le_refl _, e⟩
    · have hc : ¬ (idx = x ∧ idx < q.idx_to_heap.length) := fun h => e h.1
      simp only [if_neg hc] at hnz ⊢
      obtain ⟨a1, a2, a3⟩ := hb.2 x hx hnz
      refine ⟨a1, by omega, ?_⟩
      rw [if_neg (by omega)]
      exact a3

theorem pushed_members {q : IndexMinPQ K} (hs : Shape q) (key : K) {idx : Nat}
    (h1 : idx < q.capacity) {M : Nat → Prop} (hm : Members q M) :
    Members (q.pushed key idx) (fun x => x = idx ∨ M x) := by
  intro x
  have tl := hs.t_len
  simp only [pushed, getD_set_eq_ite]
  by_cases e : idx = x
  · rw [if_pos ⟨e, by omega⟩]
    constructor
    · intro _; exact Or.inl e.symm
    · intro _; omega
  · rw [if_neg (fun h => e h.1), hm x]
    constructor
    · intro h; exact Or.inr h
    · rintro (h | h)
      · exact absurd h.symm e
      · exact h

theorem pushed_upInv [Inhabited K] [LinearOrder K] {q : IndexMinPQ K} (hv : Valid q)
    (key : K) {idx : Nat} (h2 : q.idx_to_heap.getD idx 0 = 0) :
    UpInv (q.pushed key idx) (q.cur_size + 1) := by
  constructor
  · intro k k1 k2 k3
    have k4 : k ≤ q.cur_size := by
      have : k ≤ q.cur_size + 1 := k2
      omega
    rw [pushed_keyAt q key idx hv.bij h2 k (by omega) k4,
      pushed_keyAt q key idx hv.bij h2 (k / 2) (by omega) (by omega)]
    exact hv.heap k k1 k4
  · intro c _ c2 c3 _
    have : c ≤ q.cur_size + 1 := c2
    omega

/-- A successful `Push` keeps the state valid, adds `idx` to the indices
that `Contains` reports, writes the key and adds one to the size. -/
theorem Push_valid [Inhabited K] [LinearOrder K] {q : IndexMinPQ K} (hv : Valid q)
    {M : Nat → Prop} (hm : Members q M) (key : K) {idx : Nat}
    (h1 : idx < q.capacity) (h2 : q.idx_to_heap.getD idx 0 = 0) :
    ∃ q2, q.Push key idx = .ok q2 ∧ Valid q2 ∧ Members q2 (fun x => x = idx ∨ M x) ∧
      q2.keys = q.keys.set idx key ∧ q2.cur_size = q.cur_size + 1 ∧
      q2.capacity = q.capacity := by
  refine ⟨_, Push_eq q key idx h1 h2, ?_⟩
  have hlt := size_lt_of_absent hv.shape hv.bij h1 h2
  have hs1 := pushed_shape hv.shape key h1 hlt
  have hb1 := pushed_bij hv.shape hv.bij key h1 h2 hlt
  have hm1 := pushed_members hv.shape key h1 hm
  have hsz : q.cur_size + 1 ≤ (q.pushed key idx).cur_size := le_refl _
  have hst := PercolateUpLoop_stable _ (Bijection_swapStable (fun x => x = idx ∨ M x))
    (q.cur_size + 1) (q.pushed key idx) (q.cur_size + 1) (by omega) hsz ⟨hs1, hb1, hm1⟩
  have hh := PercolateUpLoop_heap (q.cur_size + 1) (q.pushed key idx) (q.cur_size + 1) hs1
    (by omega) hsz (le_refl _) (pushed_upInv hv key h2)
  have hf := PercolateUpLoop_frame (q.cur_size + 1) (q.pushed key idx) (q.cur_size + 1)
  exact ⟨⟨hst.1, hst.2.1, hh⟩, hst.2.2, hf.2.2, hf.2.1, hf.1⟩

end IndexMinPQ

namespace IndexMinPQ

variable {K : Type}

/-! ## ChangeKey -/

theorem ChangeKey_eq [Inhabited K] [LinearOrder K] (q : IndexMinPQ K) (key : K) (idx : Nat)
    (h1 : idx < q.capacity) (h2 : q.idx_to_heap.getD idx 0 ≠ 0) :
    q.ChangeKey key idx = .ok
      (((q.rekeyed key idx).PercolateUp (q.idx_to_heap.getD idx 0)).PercolateDown
        (((q.rekeyed key idx).PercolateUp (q.idx_to_heap.getD idx 0)).idx_to_heap.getD idx 0)) := by
  have h3 : ¬ idx ≥ q.capacity := by omega
  have h4 : (q.idx_to_heap.getD idx 0 != 0) = true := by simpa using h2
  simp only [ChangeKey, Contains, if_neg h3, h4]
  rfl

theorem rekeyed_keyAt_ne [Inhabited K] {q : IndexMinPQ K} (hb : Bijection q) (key : K)
    {idx : Nat} {p : Nat} (hp1 : 1 ≤ p) (hp2 : p ≤ q.cur_size) (hne : p ≠ q.idx_to_heap.getD idx 0) :
    (q.rekeyed key idx).keyAt p = q.keyAt p := by
  have hx : idx ≠ q.heap_to_idx.getD p 0 := by
    intro he
    have := hb.1 p hp1 hp2
    rw [← he] at this
    exact hne this.symm
  simp only [keyAt, rekeyed, getD_set_eq_ite]
  rw [if_neg (fun h => hx h.1)]

theorem rekeyed_keyAt_eq [Inhabited K] {q : IndexMinPQ K} (hs : Shape q) (hb : Bijection q)
    (key : K) {idx : Nat} (h1 : idx < q.capacity) (h2 : q.idx_to_heap.getD idx 0 ≠ 0) :
    (q.rekeyed key idx).keyAt (q.idx_to_heap.getD idx 0) = key := by
  have h3 := (hb.2 idx h1 h2).2.2
  have kl := hs.keys_len
  simp only [keyAt, rekeyed, getD_set_eq_ite, h3]
  rw [if_pos ⟨trivial, by omega⟩]

theorem PercolateUpLoop_noop [Inhabited K] [LinearOrder K] (fuel : Nat) (q : IndexMinPQ K)
    (i : Nat) (h : ¬ (HasParent i && q.GreaterNode (Parent i) i) = true) :
    PercolateUpLoop fuel q i = q := by
  cases fuel with
  | zero => rfl
  | succ n => unfold PercolateUpLoop; rw [if_neg h]

theorem PercolateUp_stable [Inhabited K] [LinearOrder K] (P : IndexMinPQ K → Prop)
    (hP : SwapStable P) {q : IndexMinPQ K} {i : Nat} (h1 : 1 ≤ i) (h2 : i ≤ q.cur_size)
    (h : P q) : P (q.PercolateUp i) :=
  PercolateUpLoop_stable P hP i q i h1 h2 h

theorem PercolateDown_stable [Inhabited K] [LinearOrder K] (P : IndexMinPQ K → Prop)
    (hP : SwapStable P) {q : IndexMinPQ K} {i : Nat} (h1 : 1 ≤ i)
    (h : P q) : P (q.PercolateDown i) :=
  PercolateDownLoop_stable P hP (q.cur_size + 1) q i h1 h

theorem PercolateUp_frame [Inhabited K] [LinearOrder K] (q : IndexMinPQ K) (i : Nat) :
    (q.PercolateUp i).capacity = q.capacity ∧ (q.PercolateUp i).cur_size = q.cur_size ∧
      (q.PercolateUp i).keys = q.keys :=
  PercolateUpLoop_frame i q i

theorem PercolateDown_frame [Inhabited K] [LinearOrder K] (q : IndexMinPQ K) (i : Nat) :
    (q.PercolateDown i).capacity = q.capacity ∧ (q.PercolateDown i).cur_size = q.cur_size ∧
      (q.PercolateDown i).keys = q.keys :=
  PercolateDownLoop_frame (q.cur_size + 1) q i

theorem PercolateUp_heap [Inhabited K] [LinearOrder K] {q : IndexMinPQ K} {i : Nat}
    (hs : Shape q) (h1 : 1 ≤ i) (h2 : i ≤ q.cur_size) (hu : UpInv q i) :
    HeapOrdered (q.PercolateUp i) :=
  PercolateUpLoop_heap i q i hs h1 h2 (le_refl _) hu

theorem PercolateDown_heap [Inhabited K] [LinearOrder K] {q : IndexMinPQ K} {i : Nat}
    (hs : Shape q) (h1 : 1 ≤ i) (hd : DownInv q i) : HeapOrdered (q.PercolateDown i) :=
  PercolateDownLoop_heap (q.cur_size + 1) q i hs h1 (by omega) hd

/-- The second half of `ChangeKey`: `PercolateDown` from the position that
`idx_to_heap` records for a reported index. -/
theorem PercolateDown_at_index [Inhabited K] [LinearOrder K] {q : IndexMinPQ K}
    {M : Nat → Prop} (hs : Shape q) (hb : Bijection q) (hm : Members q M) {idx : Nat}
    (h1 : idx < q.capacity) (h2 : q.idx_to_heap.getD idx 0 ≠ 0)
    (hd : DownInv q (q.idx_to_heap.getD idx 0)) :
    Valid (q.PercolateDown (q.idx_to_heap.getD idx 0)) ∧
      Members (q.PercolateDown (q.idx_to_heap.getD idx 0)) M ∧
      (q.PercolateDown (q.idx_to_heap.getD idx 0)).capacity = q.capacity ∧
      (q.PercolateDown (q.idx_to_heap.getD idx 0)).cur_size = q.cur_size ∧
      (q.PercolateDown (q.idx_to_heap.getD idx 0)).keys = q.keys := by
  obtain ⟨p1, _, _⟩ := hb.2 idx h1 h2
  have hst := PercolateDown_stable _ (Bijection_swapStable M) p1 ⟨hs, hb, hm⟩
  exact ⟨⟨hst.1, hst.2.1, PercolateDown_heap hs p1 hd⟩, hst.2.2, PercolateDown_frame _ _⟩

/-- A successful `ChangeKey` keeps the state valid, keeps the indices that
`Contains` reports and the size, and writes the key. -/
theorem ChangeKey_valid [Inhabited K] [LinearOrder K] {q : IndexMinPQ K} (hv : Valid q)
    {M : Nat → Prop} (hm : Members q M) (key : K) {idx : Nat}
    (h1 : idx < q.capacity) (h2 : q.idx_to_heap.getD idx 0 ≠ 0) :
    ∃ q2, q.ChangeKey key idx = .ok q2 ∧ Valid q2 ∧ Members q2 M ∧
      q2.keys = q.keys.set idx key ∧ q2.cur_size = q.cur_size ∧
      q2.capacity = q.capacity := by
  refine ⟨_, ChangeKey_eq q key idx h1 h2, ?_⟩
  obtain ⟨p1, p2, p3⟩ := hv.bij.2 idx h1 h2
  have hs1 : Shape (q.rekeyed key idx) :=
    ⟨by simp only [rekeyed, List.length_set]; exact hv.shape.keys_len, hv.shape.h_len,
      hv.shape.t_len, hv.shape.size_le, hv.shape.live_lt⟩
  have hb1 : Bijection (q.rekeyed key idx) := hv.bij
  have hm1 : Members (q.rekeyed key idx) M := hm
  have kne : ∀ p, 1 ≤ p → p ≤ q.cur_size → p ≠ q.idx_to_heap.getD idx 0 →
      (q.rekeyed key idx).keyAt p = q.keyAt p :=
    fun p a b c => rekeyed_keyAt_ne hv.bij key a b c
  have keq := rekeyed_keyAt_eq hv.shape hv.bij key h1 h2
  have hgp : ∀ c, 2 ≤ c → c ≤ (q.rekeyed key idx).cur_size →
      c / 2 = q.idx_to_heap.getD idx 0 → 2 ≤ q.idx_to_heap.getD idx 0 →
      (q.rekeyed key idx).keyAt (q.idx_to_heap.getD idx 0 / 2) ≤
        (q.rekeyed key idx).keyAt c := by
    intro c c1 c2 c3 c4
    have c2' : c ≤ q.cur_size := c2
    rw [kne c (by omega) c2' (by omega), kne _ (by omega) (by omega) (by omega)]
    have e1 := hv.heap c c1 c2'
    rw [c3] at e1
    exact le_trans (hv.heap _ c4 p2) e1
  rcases le_or_lt key (q.keyAt (q.idx_to_heap.getD idx 0)) with hle | hlt
  · have hu : UpInv (q.rekeyed key idx) (q.idx_to_heap.getD idx 0) := by
      refine ⟨fun k k1 k2 k3 => ?_, hgp⟩
      have k2' : k ≤ q.cur_size := k2
      rw [kne k (by omega) k2' k3]
      by_cases e : k / 2 = q.idx_to_heap.getD idx 0
      · rw [e, keq]
        have := hv.heap k k1 k2'
        rw [e] at this
        exact le_trans hle this
      · rw [kne _ (by omega) (by omega) e]
        exact hv.heap k k1 k2'
    have hst2 := PercolateUp_stable _ (Bijection_swapStable M) p1
      (show q.idx_to_heap.getD idx 0 ≤ (q.rekeyed key idx).cur_size from p2) ⟨hs1, hb1, hm1⟩
    have hh2 := PercolateUp_heap hs1 p1
      (show q.idx_to_heap.getD idx 0 ≤ (q.rekeyed key idx).cur_size from p2) hu
    have hf2 := PercolateUp_frame (q.rekeyed key idx) (q.idx_to_heap.getD idx 0)
    revert hst2 hh2 hf2
    generalize (q.rekeyed key idx).PercolateUp (q.idx_to_heap.getD idx 0) = q2
    intro hst2 hh2 hf2
    have hnz2 : q2.idx_to_heap.getD idx 0 ≠ 0 := (hst2.2.2 idx).2 ((hm idx).1 h2)
    have hcap2 : idx < q2.capacity := by rw [hf2.1]; exact h1
    obtain ⟨a1, a2, a3, a4, a5⟩ := PercolateDown_at_index hst2.1 hst2.2.1 hst2.2.2 hcap2 hnz2
      (HeapOrdered.downInv hh2 _)
    refine ⟨a1, a2, ?_, ?_, ?_⟩
    · rw [a5, hf2.2.2]; rfl
    · rw [a4, hf2.2.1]; rfl
    · rw [a3, hf2.1]; rfl
  · have hno : ¬ (HasParent (q.idx_to_heap.getD idx 0) &&
        (q.rekeyed key idx).GreaterNode (Parent (q.idx_to_heap.getD idx 0))
          (q.idx_to_heap.getD idx 0)) = true := by
      rw [Bool.and_eq_true, not_and]
      intro hp hg
      have hne := HasParent_true hp
      have hg := GreaterNode_true hg
      unfold Parent at hg
      rw [keq, kne _ (by omega) (by omega) (by omega)] at hg
      have := hv.heap _ (by omega : 2 ≤ q.idx_to_heap.getD idx 0) p2
      exact absurd (lt_of_lt_of_le hlt (le_of_lt hg)) (not_lt.2 this)
    have e2 : (q.rekeyed key idx).PercolateUp (q.idx_to_heap.getD idx 0) =
        q.rekeyed key idx := PercolateUpLoop_noop _ _ _ hno
    rw [e2]
    have hd : DownInv (q.rekeyed key idx) (q.idx_to_heap.getD idx 0) := by
      refine ⟨fun k k1 k2 k3 => ?_, hgp⟩
      have k2' : k ≤ q.cur_size := k2
      rw [kne _ (by omega) (by omega) k3]
      by_cases e : k = q.idx_to_heap.getD idx 0
      · rw [e, keq]
        have := hv.heap k k1 k2'
        rw [e] at this
        exact le_trans this (le_of_lt hlt)
      · rw [kne k (by omega) k2' e]
        exact hv.heap k k1 k2'
    obtain ⟨a1, a2, a3, a4, a5⟩ := @PercolateDown_at_index K _ _ _ M hs1 hb1 hm1 idx h1 h2 hd
    exact ⟨a1, a2, a5, a4, a3⟩

end IndexMinPQ

namespace IndexMinPQ

variable {K : Type}

/-! ## Sequences of `Push` and `ChangeKey` -/

theorem Push_ok_inv [Inhabited K] [LinearOrder K] {q q2 : IndexMinPQ K} {key : K} {idx : Nat}
    (h : q.Push key idx = .ok q2) : idx < q.capacity ∧ q.idx_to_heap.getD idx 0 = 0 := by
  by_cases h1 : idx ≥ q.capacity
  · simp only [Push, if_pos h1] at h; cases h
  · refine ⟨by omega, ?_⟩
    by_contra h2
    have h4 : (q.idx_to_heap.getD idx 0 != 0) = true := by simpa using h2
    simp only [Push, Contains, if_neg h1, h4] at h
    cases h

theorem ChangeKey_ok_inv [Inhabited K] [LinearOrder K] {q q2 : IndexMinPQ K} {key : K}
    {idx : Nat} (h : q.ChangeKey key idx = .ok q2) :
    idx < q.capacity ∧ q.idx_to_heap.getD idx 0 ≠ 0 := by
  by_cases h1 : idx ≥ q.capacity
  · simp only [ChangeKey, if_pos h1] at h; cases h
  · refine ⟨by omega, ?_⟩
    intro h2
    simp only [ChangeKey, Contains, if_neg h1, h2, bne_self_eq_false] at h
    cases h

theorem new_valid [Inhabited K] [LinearOrder K] (C : Nat) : Valid (new C : IndexMinPQ K) := by
  refine ⟨⟨?_, ?_, ?_, ?_, ?_⟩, ⟨?_, ?_⟩, ?_⟩
  · simp [new]
  · simp [new]
  · simp [new]
  · exact Nat.zero_le _
  · intro p h1 h2
    have : p ≤ 0 := h2
    omega
  · intro p h1 h2
    have : p ≤ 0 := h2
    omega
  · intro idx _ h
    exact absurd (getD_replicate_eq C idx 0) h
  · intro i h1 h2
    have : i ≤ 0 := h2
    omega

theorem new_members [Inhabited K] (C : Nat) :
    Members (new C : IndexMinPQ K) (fun _ => False) := by
  intro idx
  constructor
  · intro h; exact absurd (getD_replicate_eq C idx 0) h
  · intro h; exact h.elim

theorem Tracks.index_in_range [Inhabited K] [LinearOrder K] {q : IndexMinPQ K} {ck : Nat → Option K}
    (ht : Tracks q ck) {idx : Nat} (h : ck idx ≠ none) : idx < q.capacity := by
  have h1 := (ht.mem idx).2 h
  by_contra h2
  apply h1
  rw [List.getD_eq_getElem?_getD, List.getElem?_eq_none]
  · rfl
  · rw [ht.valid.shape.t_len]; omega

theorem Tracks.after_step [Inhabited K] [LinearOrder K] {q q2 : IndexMinPQ K} {ck : Nat → Option K}
    (ht : Tracks q ck) {op : PQOp K} (hop : op ≠ PQOp.pop) (h : q.step op = .ok q2) :
    Tracks q2 (op.track ck) := by
  have kl := ht.valid.shape.keys_len
  cases op with
  | pop => exact absurd rfl hop
  | push key idx =>
    have h0 : q.Push key idx = .ok q2 := h
    obtain ⟨h1, h2⟩ := Push_ok_inv h0
    obtain ⟨q3, e, hv, hm, hk, _, _⟩ := Push_valid ht.valid ht.mem key h1 h2
    rw [h0] at e
    cases e
    refine ⟨hv, ?_, ?_⟩
    · intro x
      rw [hm x]
      simp only [PQOp.track]
      by_cases e : x = idx
      · simp [e]
      · simp [e]
    · intro x k hx
      simp only [PQOp.track] at hx
      rw [hk, getD_set_eq_ite]
      by_cases e : x = idx
      · rw [if_pos e] at hx
        rw [if_pos ⟨e.symm, by omega⟩]
        exact Option.some.inj hx
      · rw [if_neg e] at hx
        rw [if_neg (fun h => e h.1.symm)]
        exact ht.key x k hx
  | changeKey key idx =>
    have h0 : q.ChangeKey key idx = .ok q2 := h
    obtain ⟨h1, h2⟩ := ChangeKey_ok_inv h0
    obtain ⟨q3, e, hv, hm, hk, _, _⟩ := ChangeKey_valid ht.valid ht.mem key h1 h2
    rw [h0] at e
    cases e
    have hck : ck idx ≠ none := (ht.mem idx).1 h2
    refine ⟨hv, ?_, ?_⟩
    · intro x
      rw [hm x]
      simp only [PQOp.track]
      by_cases e : x = idx
      · simp [e, hck]
      · simp [e]
    · intro x k hx
      simp only [PQOp.track] at hx
      rw [hk, getD_set_eq_ite]
      by_cases e : x = idx
      · rw [if_pos e] at hx
        rw [if_pos ⟨e.symm, by omega⟩]
        exact Option.some.inj hx
      · rw [if_neg e] at hx
        rw [if_neg (fun h => e h.1.symm)]
        exact ht.key x k hx

theorem Tracks.after_run [Inhabited K] [LinearOrder K] :
    ∀ (ops : List (PQOp K)) (q q2 : IndexMinPQ K) (ck : Nat → Option K), Tracks q ck →
      (∀ op ∈ ops, op ≠ PQOp.pop) → q.run ops = .ok q2 → Tracks q2 (currentKeyFrom ck ops) := by
  intro ops
  induction ops with
  | nil =>
    intro q q2 ck ht _ h
    cases h
    exact ht
  | cons op ops ih =>
    intro q q2 ck ht hnp h
    unfold IndexMinPQ.run at h
    cases hs : q.step op with
    | error e => rw [hs] at h; cases h
    | ok q1 =>
      rw [hs] at h
      exact ih q1 q2 _ (ht.after_step (hnp op (List.mem_cons_self _ _)) hs)
        (fun o ho => hnp o (List.mem_cons_of_mem _ ho)) h

theorem currentKeyFrom_some {ck : Nat → Option K} {x : Nat} (h : ck x ≠ none) :
    ∀ (ops : List (PQOp K)), currentKeyFrom ck ops x ≠ none := by
  intro ops
  induction ops generalizing ck with
  | nil => exact h
  | cons op ops ih =>
    apply ih
    cases op with
    | pop => exact h
    | push key idx =>
      simp only [PQOp.track]
      by_cases e : x = idx
      · simp [e]
      · simp [e, h]
    | changeKey key idx =>
      simp only [PQOp.track]
      by_cases e : x = idx
      · simp [e]
      · simp [e, h]

/-- In a queue that agrees with a record of current keys and holds at least
one recorded index, `Top` returns an index of least current key. -/
theorem Tracks.top_min [Inhabited K] [LinearOrder K] {q : IndexMinPQ K} {ck : Nat → Option K}
    (ht : Tracks q ck) {x : Nat} (hx : ck x ≠ none) :
    ∃ t kt, q.Top = .ok t ∧ ck t = some kt ∧ ∀ idx k, ck idx = some k → kt ≤ k := by
  have hpos : ∀ idx, ck idx ≠ none → 1 ≤ q.idx_to_heap.getD idx 0 ∧
      q.idx_to_heap.getD idx 0 ≤ q.cur_size ∧
      q.heap_to_idx.getD (q.idx_to_heap.getD idx 0) 0 = idx :=
    fun idx h => ht.valid.bij.2 idx (ht.index_in_range h) ((ht.mem idx).2 h)
  have hsz : 1 ≤ q.cur_size := le_trans (hpos x hx).1 (hpos x hx).2.1
  have htop : q.Top = .ok (q.heap_to_idx.getD Root 0) := by
    unfold Top Size
    rw [if_neg (by omega)]
  have hroot : q.idx_to_heap.getD (q.heap_to_idx.getD 1 0) 0 = 1 :=
    ht.valid.bij.1 1 (le_refl _) hsz
  have hck : ck (q.heap_to_idx.getD 1 0) ≠ none :=
    (ht.mem _).1 (by rw [hroot]; omega)
  obtain ⟨kt, hkt⟩ := Option.ne_none_iff_exists'.1 hck
  refine ⟨_, kt, htop, hkt, ?_⟩
  intro idx k hk
  have hi : ck idx ≠ none := by rw [hk]; exact Option.some_ne_none k
  obtain ⟨a1, a2, a3⟩ := hpos idx hi
  have hle := ht.valid.heap.root_le _ a1 a2
  have e1 : q.keyAt 1 = kt := ht.key _ kt hkt
  have e2 : q.keyAt (q.idx_to_heap.getD idx 0) = k := by
    unfold keyAt; rw [a3]; exact ht.key idx k hk
  rw [e1, e2] at hle
  exact hle

end IndexMinPQ

namespace IndexMinPQ

variable {K : Type}

/-! ## Pop -/

theorem Pop_eq [Inhabited K] [LinearOrder K] (q : IndexMinPQ K) (h : q.cur_size ≠ 0) :
    q.Pop = .ok (q.popped.PercolateDown Root) := by
  unfold Pop Size
  rw [if_neg h]
  rfl

theorem popped_h {q : IndexMinPQ K} (hs : Shape q) (h1 : 1 ≤ q.cur_size) (p : Nat) :
    q.popped.heap_to_idx.getD p 0 = q.heap_to_idx.getD (popPos q.cur_size p) 0 := by
  have hl := hs.h_len
  simp only [popped, Root, getD_set_eq_ite, popPos]
  have hsz := hs.size_le
  by_cases e : p = 1
  · have hc : 1 = p ∧ 1 < q.heap_to_idx.length := ⟨e.symm, by omega⟩
    rw [if_pos e, if_pos hc]
  · have hc : ¬ (1 = p ∧ 1 < q.heap_to_idx.length) := fun h => e h.1.symm
    rw [if_neg e, if_neg hc]

theorem popped_keyAt [Inhabited K] {q : IndexMinPQ K} (hs : Shape q) (h1 : 1 ≤ q.cur_size)
    (p : Nat) : q.popped.keyAt p = q.keyAt (popPos q.cur_size p) := by
  unfold keyAt
  rw [popped_h hs h1 p]
  rfl

theorem Valid.sound [Inhabited K] [LinearOrder K] {q : IndexMinPQ K} (hv : Valid q) :
    Sound q :=
  ⟨hv.shape, hv.bij.inj, hv.heap⟩

/-- A `Pop` on a non-empty sound state succeeds, keeps the state sound,
removes the index at the root from the live indices, keeps the keys and
takes one from the size. -/
theorem Pop_sound [Inhabited K] [LinearOrder K] {q : IndexMinPQ K} (hq : Sound q)
    (hsz : 1 ≤ q.cur_size) :
    ∃ q2, q.Pop = .ok q2 ∧ Sound q2 ∧
      (∀ idx, Live q2 idx ↔ (Live q idx ∧ idx ≠ q.heap_to_idx.getD 1 0)) ∧
      q2.keys = q.keys ∧ q2.cur_size = q.cur_size - 1 ∧ q2.capacity = q.capacity := by
  refine ⟨_, Pop_eq q (by omega), ?_⟩
  have hs := hq.shape
  have hs1 : Shape q.popped := by
    refine ⟨hs.keys_len, ?_, ?_, ?_, ?_⟩
    · simp only [popped, List.length_set]; exact hs.h_len
    · simp only [popped, List.length_set]; exact hs.t_len
    · have := hs.size_le
      show q.cur_size - 1 ≤ q.capacity
      omega
    · intro p p1 p2
      have p2' : p ≤ q.cur_size - 1 := p2
      rw [popped_h hs hsz p]
      apply hs.live_lt
      · unfold popPos; split_ifs <;> omega
      · unfold popPos; split_ifs <;> omega
  have hinj1 : Inj q.popped := by
    intro p p2 a1 a2 a3 a4 he
    have a2' : p ≤ q.cur_size - 1 := a2
    have a4' : p2 ≤ q.cur_size - 1 := a4
    rw [popped_h hs hsz p, popped_h hs hsz p2] at he
    have := hq.inj _ _ (by unfold popPos; split_ifs <;> omega)
      (by unfold popPos; split_ifs <;> omega) (by unfold popPos; split_ifs <;> omega)
      (by unfold popPos; split_ifs <;> omega) he
    unfold popPos at this
    split_ifs at this <;> omega
  have hlive1 : ∀ idx, Live q.popped idx ↔ (Live q idx ∧ idx ≠ q.heap_to_idx.getD 1 0) := by
    intro idx
    constructor
    · rintro ⟨p, a1, a2, a3⟩
      have a2' : p ≤ q.cur_size - 1 := a2
      rw [popped_h hs hsz p] at a3
      have b1 : 1 ≤ popPos q.cur_size p := by unfold popPos; split_ifs <;> omega
      have b2 : popPos q.cur_size p ≤ q.cur_size := by unfold popPos; split_ifs <;> omega
      have b3 : popPos q.cur_size p ≠ 1 := by unfold popPos; split_ifs <;> omega
      refine ⟨⟨_, b1, b2, a3⟩, fun he => b3 ?_⟩
      exact hq.inj _ _ b1 b2 (le_refl _) hsz (by rw [a3, he])
    · rintro ⟨⟨p, a1, a2, a3⟩, hne⟩
      have hp : p ≠ 1 := fun e => hne (by rw [← a3, e])
      by_cases e : p = q.cur_size
      · refine ⟨1, le_refl _, (by show 1 ≤ q.cur_size - 1; omega), ?_⟩
        rw [popped_h hs hsz 1]
        unfold popPos
        rw [if_pos rfl, ← e]; exact a3
      · refine ⟨p, a1, (by show p ≤ q.cur_size - 1; omega), ?_⟩
        rw [popped_h hs hsz p]
        unfold popPos
        rw [if_neg hp]; exact a3
  have hd1 : DownInv q.popped 1 := by
    constructor
    · intro k k1 k2 k3
      have k2' : k ≤ q.cur_size - 1 := k2
      rw [popped_keyAt hs hsz, popped_keyAt hs hsz]
      unfold popPos
      rw [if_neg k3, if_neg (by omega)]
      exact hq.heap k k1 (by omega)
    · intro c _ _ _ h2
      omega
  have hst := PercolateDown_stable _
    (Inj_swapStable (fun idx => Live q idx ∧ idx ≠ q.heap_to_idx.getD 1 0)) (le_refl 1)
    (show Shape q.popped ∧ Inj q.popped ∧ ∀ idx, Live q.popped idx ↔ _ from
      ⟨hs1, hinj1, hlive1⟩)
  have hh := PercolateDown_heap hs1 (le_refl 1) hd1
  have hf := PercolateDown_frame q.popped 1
  exact ⟨⟨hst.1, hst.2.1, hh⟩, hst.2.2, hf.2.2, hf.2.1, hf.1⟩

end IndexMinPQ

namespace IndexMinPQ

variable {K : Type}

/-! ## Pushing a list of pairs, then popping everything -/

theorem pushAll_loaded [Inhabited K] [LinearOrder K] :
    ∀ (l : List (K × Nat)) (q : IndexMinPQ K) (done : List (K × Nat)), Loaded q done →
      (∀ p ∈ l, p.2 < q.capacity) → ((done ++ l).map Prod.snd).Nodup →
      ∃ q1, q.pushAll l = .ok q1 ∧ Loaded q1 (done ++ l) := by
  intro l
  induction l with
  | nil =>
    intro q done hl _ _
    exact ⟨q, rfl, by rw [List.append_nil]; exact hl⟩
  | cons p l ih =>
    intro q done hl hc hn
    have hp : p.2 < q.capacity := hc p (List.mem_cons_self _ _)
    have hnot : p.2 ∉ done.map Prod.snd := by
      intro hmem
      rw [List.map_append, List.nodup_append] at hn
      exact hn.2.2 hmem (by simp)
    have h2 : q.idx_to_heap.getD p.2 0 = 0 := by
      by_contra h
      exact hnot ((hl.mem p.2).1 h)
    obtain ⟨q2, e, hv, hm, hk, hsz, hcap⟩ := Push_valid hl.valid hl.mem p.1 hp h2
    have hl2 : Loaded q2 (done ++ [p]) := by
      refine ⟨hv, ?_, ?_, ?_⟩
      · intro x
        rw [hm x]
        simp only [List.map_append, List.map_cons, List.map_nil, List.mem_append,
          List.mem_singleton]
        exact or_comm
      · intro r hr
        rw [hk, getD_set_eq_ite]
        rw [List.mem_append, List.mem_singleton] at hr
        rcases hr with hr | hr
        · have hne : ¬ (p.2 = r.2 ∧ p.2 < q.keys.length) := by
            rintro ⟨he, _⟩
            exact hnot (he ▸ List.mem_map_of_mem Prod.snd hr)
          rw [if_neg hne]
          exact hl.key r hr
        · have kl := hl.valid.shape.keys_len
          rw [hr, if_pos ⟨rfl, by omega⟩]
      · rw [hsz, hl.size, List.length_append, List.length_singleton]
    have hc2 : ∀ r ∈ l, r.2 < q2.capacity := by
      intro r hr
      rw [hcap]
      exact hc r (List.mem_cons_of_mem _ hr)
    have hn2 : (((done ++ [p]) ++ l).map Prod.snd).Nodup := by
      rw [List.append_assoc, List.singleton_append]; exact hn
    obtain ⟨q1, e1, hl1⟩ := ih q2 (done ++ [p]) hl2 hc2 hn2
    refine ⟨q1, ?_, ?_⟩
    · unfold pushAll
      rw [e]
      exact e1
    · rw [List.append_assoc, List.singleton_append] at hl1
      exact hl1

theorem Loaded.live [Inhabited K] [LinearOrder K] {q : IndexMinPQ K} {done : List (K × Nat)}
    (hl : Loaded q done) (hc : ∀ p ∈ done, p.2 < q.capacity) (idx : Nat) :
    Live q idx ↔ idx ∈ done.map Prod.snd := by
  constructor
  · rintro ⟨p, a1, a2, a3⟩
    apply (hl.mem idx).1
    have := hl.valid.bij.1 p a1 a2
    rw [a3] at this
    omega
  · intro h
    have hnz := (hl.mem idx).2 h
    obtain ⟨r, hr, e⟩ := List.mem_map.1 h
    have hlt : idx < q.capacity := e ▸ hc r hr
    obtain ⟨a1, a2, a3⟩ := hl.valid.bij.2 idx hlt hnz
    exact ⟨_, a1, a2, a3⟩

/-- Popping `n` times a sound queue of size `n` succeeds and empties it;
the recorded indices are the live ones, each once, every one with a key
not above the keys of those recorded after it. -/
theorem drain_sound [Inhabited K] [LinearOrder K] :
    ∀ (n : Nat) (q : IndexMinPQ K), Sound q → q.cur_size = n →
      ∃ out q2, q.drain n = .ok (out, q2) ∧ q2.cur_size = 0 ∧
        (∀ idx, idx ∈ out ↔ Live q idx) ∧ out.Nodup ∧
        out.Pairwise (fun a b => q.keys.getD a default ≤ q.keys.getD b default) := by
  intro n
  induction n with
  | zero =>
    intro q _ hn
    refine ⟨[], q, rfl, hn, ?_, List.nodup_nil, List.Pairwise.nil⟩
    intro idx
    constructor
    · intro h; cases h
    · rintro ⟨p, a1, a2, _⟩; omega
  | succ n ih =>
    intro q hq hn
    have hsz : 1 ≤ q.cur_size := by omega
    have htop : q.Top = .ok (q.heap_to_idx.getD 1 0) := by
      unfold Top Size
      rw [if_neg (by omega)]
      rfl
    obtain ⟨q1, e1, hq1, hlive, hkeys, hsize, _⟩ := Pop_sound hq hsz
    obtain ⟨out, q2, e2, hz, hmem, hnd, hpw⟩ := ih q1 hq1 (by omega)
    refine ⟨q.heap_to_idx.getD 1 0 :: out, q2, ?_, hz, ?_, ?_, ?_⟩
    · unfold drain
      rw [htop]
      simp only [e1, e2]
    · intro idx
      rw [List.mem_cons, hmem idx, hlive idx]
      constructor
      · rintro (h | h)
        · exact ⟨1, le_refl _, hsz, h.symm⟩
        · exact h.1
      · intro h
        by_cases e : idx = q.heap_to_idx.getD 1 0
        · exact Or.inl e
        · exact Or.inr ⟨h, e⟩
    · rw [List.nodup_cons]
      refine ⟨fun h => ?_, hnd⟩
      exact ((hlive _).1 ((hmem _).1 h)).2 rfl
    · rw [List.pairwise_cons]
      refine ⟨?_, ?_⟩
      · intro b hb
        obtain ⟨⟨p, a1, a2, a3⟩, _⟩ := (hlive b).1 ((hmem b).1 hb)
        have := hq.heap.root_le p a1 a2
        unfold keyAt at this
        rw [a3] at this
        exact this
      · rw [hkeys] at hpw
        exact hpw

end IndexMinPQ

/-! ## The claims -/

namespace IndexMinPQ

variable {K : Type}

/-- C1 (heap-order invariant), evaluated where it fails. On a queue of
capacity 3 the calls Push(1,0), Push(5,1), Push(2,2), Pop(), ChangeKey(10,2)
all succeed and leave index 2, with key 10, at the root above index 1, with
key 5: the position 2 has a key below the key of its parent. `Pop` moved
index 2 to the root without recording its new position in `idx_to_heap`, so
`ChangeKey` percolated from the stale position 3. The helper
`CheckHeapOrder(Root())` of the class throws on the state reached. -/
theorem C1_heap_order_broken_by_pop_then_changeKey :
    (new 3 : IndexMinPQ Nat).run
        [.push 1 0, .push 5 1, .push 2 2, .pop, .changeKey 10 2] =
      .ok ⟨3, 2, [1, 5, 10], [0, 2, 1, 2], [0, 2, 3]⟩ ∧
    ¬ HeapOrdered (⟨3, 2, [1, 5, 10], [0, 2, 1, 2], [0, 2, 3]⟩ : IndexMinPQ Nat) ∧
    (⟨3, 2, [1, 5, 10], [0, 2, 1, 2], [0, 2, 3]⟩ : IndexMinPQ Nat).CheckHeapOrder Root =
      false := by
  refine ⟨rfl, fun h => ?_, rfl⟩
  exact absurd (h 2 (by decide) (by decide)) (by decide)

/-- C2 (bijection invariant), evaluated where it fails. On a queue of
capacity 2 the calls Push(1,0), Push(2,1), Pop() succeed and leave index 1
at position 1 while `idx_to_heap[1]` is still 2. -/
theorem C2_bijection_broken_by_pop :
    (new 2 : IndexMinPQ Nat).run [.push 1 0, .push 2 1, .pop] =
      .ok ⟨2, 1, [1, 2], [0, 1, 1], [0, 2]⟩ ∧
    ¬ Bijection (⟨2, 1, [1, 2], [0, 1, 1], [0, 2]⟩ : IndexMinPQ Nat) := by
  refine ⟨rfl, fun h => ?_⟩
  exact absurd (h.1 1 (by decide) (by decide)) (by decide)

end IndexMinPQ

namespace IndexMinPQ

variable {K : Type}

/-- C3 (sorted extraction). For every capacity `C` and every list `l` of
(key, idx) pairs with pairwise distinct keys and pairwise distinct indices
below `C`: pushing the pairs in the given order onto a fresh queue
succeeds, recording `Top()` and calling `Pop()` as many times as there are
pairs succeeds, the final size is 0, and the recorded indices are those of
the pairs of `l` arranged in strictly increasing order of their keys. -/
theorem C3_sorted_extraction [Inhabited K] [LinearOrder K] (C : Nat) (l : List (K × Nat))
    (hk : (l.map Prod.fst).Nodup) (hi : (l.map Prod.snd).Nodup) (hc : ∀ p ∈ l, p.2 < C) :
    ∃ (q1 : IndexMinPQ K) (out : List Nat) (q2 : IndexMinPQ K) (s : List (K × Nat)),
      (new C : IndexMinPQ K).pushAll l = .ok q1 ∧
      q1.drain l.length = .ok (out, q2) ∧ q2.Size = 0 ∧
      s.Perm l ∧ s.Sorted (fun a b => a.1 < b.1) ∧ out = s.map Prod.snd := by
  have h0 : Loaded (new C : IndexMinPQ K) [] :=
    ⟨new_valid C, by simpa using new_members C, by simp, rfl⟩
  obtain ⟨q1, e1, hl⟩ := pushAll_loaded l (new C) [] h0 hc (by simpa using hi)
  rw [List.nil_append] at hl
  have hcap : q1.capacity = C := by
    have := hl.valid.shape.keys_len
    clear h0 hl
    revert q1
    suffices h : ∀ (l : List (K × Nat)) (q q1 : IndexMinPQ K), q.pushAll l = .ok q1 →
        q1.capacity = q.capacity from fun q1 e1 _ => h l _ q1 e1
    intro l
    induction l with
    | nil => intro q q1 e; cases e; rfl
    | cons p l ih =>
      intro q q1 e
      unfold pushAll at e
      cases hp : q.Push p.1 p.2 with
      | error x => rw [hp] at e; cases e
      | ok q3 =>
        rw [hp] at e
        rw [ih q3 q1 e]
        obtain ⟨a, b⟩ := Push_ok_inv hp
        rw [Push_eq q p.1 p.2 a b] at hp
        cases hp
        exact (PercolateUp_frame _ _).1
  have hlive := hl.live (fun p hp => by rw [hcap]; exact hc p hp)
  obtain ⟨out, q2, e2, hz, hmem, hnd, hpw⟩ := drain_sound l.length q1 hl.valid.sound hl.size
  have hsnd : (out.map (fun i => (q1.keys.getD i default, i))).map Prod.snd = out := by
    rw [List.map_map]
    exact List.map_id _
  have hperm : (out.map (fun i => (q1.keys.getD i default, i))).Perm l := by
    rw [List.perm_ext_iff_of_nodup
      (hnd.map (fun a b h => congrArg Prod.snd h)) (List.Nodup.of_map _ hi)]
    intro a
    rw [List.mem_map]
    constructor
    · rintro ⟨i, hio, rfl⟩
      obtain ⟨r, hr, er⟩ := List.mem_map.1 ((hlive i).1 ((hmem i).1 hio))
      have := hl.key r hr
      rw [er] at this
      rw [this, ← er]
      exact hr
    · intro ha
      refine ⟨a.2, (hmem _).2 ((hlive _).2 (List.mem_map_of_mem Prod.snd ha)), ?_⟩
      rw [hl.key a ha]
  refine ⟨q1, out, q2, _, e1, e2, hz, hperm, ?_, hsnd.symm⟩
  have hkn : ((out.map (fun i => (q1.keys.getD i default, i))).map Prod.fst).Nodup :=
    (List.Perm.nodup_iff (hperm.map Prod.fst)).2 hk
  rw [List.map_map] at hkn
  have hne : out.Pairwise (fun a b => q1.keys.getD a default ≠ q1.keys.getD b default) :=
    (List.pairwise_map.1 hkn)
  unfold List.Sorted
  rw [List.pairwise_map]
  exact (hpw.and hne).imp (fun h => lt_of_le_of_ne h.1 h.2)

/-- C3, on the pairs of the test `SimpleScenarioDI`. -/
theorem C3_sorted_extraction_witness :
    (([((8 : Nat), 20), (6, 40), (4, 60), (2, 80)].map Prod.fst).Nodup ∧
      ([((8 : Nat), 20), (6, 40), (4, 60), (2, 80)].map Prod.snd).Nodup ∧
      ∀ p ∈ [((8 : Nat), 20), (6, 40), (4, 60), (2, 80)], p.2 < 100) ∧
    ∃ (q1 : IndexMinPQ Nat) (out : List Nat) (q2 : IndexMinPQ Nat) (s : List (Nat × Nat)),
      (new 100 : IndexMinPQ Nat).pushAll [(8, 20), (6, 40), (4, 60), (2, 80)] = .ok q1 ∧
      q1.drain [((8 : Nat), 20), (6, 40), (4, 60), (2, 80)].length = .ok (out, q2) ∧
      q2.Size = 0 ∧ s.Perm [(8, 20), (6, 40), (4, 60), (2, 80)] ∧
      s.Sorted (fun a b => a.1 < b.1) ∧ out = s.map Prod.snd :=
  ⟨⟨by decide, by decide, by decide⟩,
    C3_sorted_extraction 100 [(8, 20), (6, 40), (4, 60), (2, 80)]
      (by decide) (by decide) (by decide)⟩

end IndexMinPQ

/-- C4 (minimum spanning forest), evaluated where it fails. The graph has
5 vertices and the edges (0,1,1), (0,2,2), (0,3,3), (0,4,2), (1,4,1): it is
well-formed and connected, with strictly positive weights. `BuildPrimMst`
returns no edge array on it: the run stops with the exception of `Push`
for an index already in the queue. -/
theorem C4_no_forest_returned :
    Graph.starWithChordA.WellFormed ∧ Graph.starWithChordA.PositiveWeights ∧
    Prim.BuildPrimMst Graph.starWithChordA = .error (.queue .DuplicateIndex) := by
  refine ⟨?_, ?_, rfl⟩
  · unfold Graph.WellFormed; decide
  · unfold Graph.PositiveWeights; decide

/-- C5 (no queue error during Prim), evaluated where it fails. On the
well-formed graph with 5 vertices and the edges (0,1,1), (0,2,3), (0,3,5),
(0,4,3), (1,4,2) the outer loop has handled the vertices 0 and 1 without
error and reaches vertex 2 with an empty queue, vertex 2 not marked, and
`idx_to_heap[2] = 4`, so that `Contains(2)` is true; the seed call
`Q.Push(0, 2)` then throws for a duplicate index and the run ends with that
exception. -/
theorem C5_seed_push_throws_duplicate :
    Graph.starWithChordB.WellFormed ∧
    Prim.visitAll Graph.starWithChordB.adj_edge_vec (Prim.budget Graph.starWithChordB)
        (Prim.init Graph.starWithChordB) [0, 1] =
      .ok ⟨⟨5, 0, [0, 1, 3, 5, 2], [0, 3, 3, 3, 2, 0], [0, 0, 4, 0, 0]⟩,
        [some 0, some 1, some 3, some 5, some 2], [true, true, false, true, true],
        [⟨0, 0, 0⟩, ⟨0, 1, 1⟩, ⟨0, 2, 3⟩, ⟨0, 3, 5⟩, ⟨1, 4, 2⟩]⟩ ∧
    (⟨5, 0, [0, 1, 3, 5, 2], [0, 3, 3, 3, 2, 0], [0, 0, 4, 0, 0]⟩ : IndexMinPQ Nat).Push 0 2 =
      .error .DuplicateIndex ∧
    Prim.BuildPrimMst Graph.starWithChordB = .error (.queue .DuplicateIndex) := by
  refine ⟨?_, rfl, rfl, rfl⟩
  unfold Graph.WellFormed; decide

namespace IndexMinPQ

variable {K : Type}

/-- C6 (ChangeKey reordering), evaluated where it fails. On a queue of
capacity 3 the calls Push(5,0), Push(50,1), Push(25,2), Pop(),
ChangeKey(75,2) all succeed; afterwards `Top()` returns index 2, whose key
is 75, although index 1 is in the queue with key 50. -/
theorem C6_top_not_minimum_after_changeKey :
    (new 3 : IndexMinPQ Nat).run
        [.push 5 0, .push 50 1, .push 25 2, .pop, .changeKey 75 2] =
      .ok ⟨3, 2, [5, 50, 75], [0, 2, 1, 2], [0, 2, 3]⟩ ∧
    (⟨3, 2, [5, 50, 75], [0, 2, 1, 2], [0, 2, 3]⟩ : IndexMinPQ Nat).Top = .ok 2 ∧
    (⟨3, 2, [5, 50, 75], [0, 2, 1, 2], [0, 2, 3]⟩ : IndexMinPQ Nat).Contains 1 = .ok true ∧
    ¬ ([5, 50, 75].getD 2 0 ≤ [5, 50, 75].getD 1 0) :=
  ⟨rfl, rfl, rfl, by decide⟩

/-- C7 (Top is the minimum when nothing was popped). For every capacity
`C` and every non-empty sequence of `Push` and `ChangeKey` calls, without
`Pop`, that all succeed from the fresh queue: `Top()` succeeds on the
resulting queue and returns an index whose current key is at most the
current key of every index that has one, the current key of an index being
the key of its `Push` or of its latest `ChangeKey`. -/
theorem C7_top_is_minimum_without_pop [Inhabited K] [LinearOrder K] (C : Nat)
    (ops : List (PQOp K)) (q : IndexMinPQ K) (hne : ops ≠ [])
    (hnp : ∀ op ∈ ops, op ≠ PQOp.pop) (hrun : (new C : IndexMinPQ K).run ops = .ok q) :
    ∃ t kt, q.Top = .ok t ∧ currentKey ops t = some kt ∧
      ∀ idx k, currentKey ops idx = some k → kt ≤ k := by
  have h0 : Tracks (new C : IndexMinPQ K) (fun _ => none) :=
    ⟨new_valid C, fun idx => by simpa using (@new_members K _ C idx),
      fun idx k h => by cases h⟩
  have ht : Tracks q (currentKey ops) := Tracks.after_run ops _ q _ h0 hnp hrun
  have hx : ∃ x, currentKey ops x ≠ none := by
    cases ops with
    | nil => exact absurd rfl hne
    | cons op rest =>
      cases op with
      | pop => exact absurd rfl (hnp _ (List.mem_cons_self _ _))
      | push key idx =>
        exact ⟨idx, currentKeyFrom_some (by simp [PQOp.track]) rest⟩
      | changeKey key idx =>
        exact ⟨idx, currentKeyFrom_some (by simp [PQOp.track]) rest⟩
  obtain ⟨x, hx⟩ := hx
  exact ht.top_min hx

/-- C7, on the calls of the test `CheckChangeKey` up to its first
`ChangeKey`, with the indices 99, 77, 55, 33 renamed 3, 2, 1, 0. -/
theorem C7_top_is_minimum_without_pop_witness :
    (([.push 5 3, .push 25 2, .push 50 1, .push 75 0, .changeKey 1 0] : List (PQOp Nat)) ≠ [] ∧
      (∀ op ∈ ([.push 5 3, .push 25 2, .push 50 1, .push 75 0, .changeKey 1 0] :
        List (PQOp Nat)), op ≠ PQOp.pop) ∧
      (new 4 : IndexMinPQ Nat).run
          [.push 5 3, .push 25 2, .push 50 1, .push 75 0, .changeKey 1 0] =
        .ok ⟨4, 4, [1, 50, 25, 5], [0, 0, 3, 1, 2], [1, 3, 4, 2]⟩) ∧
    ∃ t kt, (⟨4, 4, [1, 50, 25, 5], [0, 0, 3, 1, 2], [1, 3, 4, 2]⟩ : IndexMinPQ Nat).Top =
        .ok t ∧
      currentKey [.push 5 3, .push 25 2, .push 50 1, .push 75 0, .changeKey 1 0] t =
        some kt ∧
      ∀ idx k,
        currentKey [.push 5 3, .push 25 2, .push 50 1, .push 75 0, .changeKey 1 0] idx =
          some k → kt ≤ k :=
  ⟨⟨by decide, by decide, rfl⟩,
    C7_top_is_minimum_without_pop 4
      [.push 5 3, .push 25 2, .push 50 1, .push 75 0, .changeKey 1 0]
      ⟨4, 4, [1, 50, 25, 5], [0, 0, 3, 1, 2], [1, 3, 4, 2]⟩ (by decide) (by decide) (by rfl)⟩

/-- C8 (Contains tracks membership), evaluated where it fails. On a queue
of capacity 4 the calls Push(1,0), Push(2,1), Push(3,2), Push(2,3), Pop(),
ChangeKey(1,3) all succeed and leave a queue whose `Top()` is index 3; the
next `Pop()` succeeds, and `Contains(3)` is still true after it. -/
theorem C8_contains_true_after_own_pop :
    (new 4 : IndexMinPQ Nat).run
        [.push 1 0, .push 2 1, .push 3 2, .push 2 3, .pop, .changeKey 1 3] =
      .ok ⟨4, 3, [1, 2, 3, 1], [0, 3, 3, 2, 1], [0, 4, 3, 2]⟩ ∧
    (⟨4, 3, [1, 2, 3, 1], [0, 3, 3, 2, 1], [0, 4, 3, 2]⟩ : IndexMinPQ Nat).Top = .ok 3 ∧
    (⟨4, 3, [1, 2, 3, 1], [0, 3, 3, 2, 1], [0, 4, 3, 2]⟩ : IndexMinPQ Nat).Pop =
      .ok ⟨4, 2, [1, 2, 3, 1], [0, 3, 2, 2, 1], [0, 4, 2, 1]⟩ ∧
    (⟨4, 2, [1, 2, 3, 1], [0, 3, 2, 2, 1], [0, 4, 2, 1]⟩ : IndexMinPQ Nat).Contains 3 =
      .ok true :=
  ⟨rfl, rfl, rfl, rfl⟩

/-- C9 (Push fails exactly on a bad index). In every queue state, for every
key and index: `Push` throws InvalidIndex exactly when `idx >= capacity`,
throws DuplicateIndex exactly when `idx < capacity` and `Contains(idx)` is
true, and returns normally exactly in the remaining case; in particular
`Push(key, capacity)` throws InvalidIndex whatever the size. -/
theorem C9_push_fails_exactly_on_bad_index [Inhabited K] [LinearOrder K]
    (q : IndexMinPQ K) (key : K) (idx : Nat) :
    (q.Push key idx = .error .InvalidIndex ↔ idx ≥ q.capacity) ∧
    (q.Push key idx = .error .DuplicateIndex ↔
      idx < q.capacity ∧ q.Contains idx = .ok true) ∧
    ((∃ q2, q.Push key idx = .ok q2) ↔
      idx < q.capacity ∧ q.Contains idx = .ok false) ∧
    q.Push key q.capacity = .error .InvalidIndex := by
  have hlast : q.Push key q.capacity = .error .InvalidIndex := by
    simp only [Push, ge_iff_le, le_refl, if_true]
  by_cases h1 : idx ≥ q.capacity
  · have hP : q.Push key idx = .error .InvalidIndex := by simp only [Push, if_pos h1]
    have h1' : ¬ idx < q.capacity := by omega
    rw [hP]
    simp [h1, h1']
    exact hlast
  · have h1' : idx < q.capacity := by omega
    by_cases h2 : q.idx_to_heap.getD idx 0 = 0
    · have hP := Push_eq q key idx h1' h2
      have hC : q.Contains idx = .ok false := by
        simp only [Contains, if_neg h1, h2, bne_self_eq_false]
      rw [hP, hC]
      simp [h1, h1']
      exact hlast
    · have h4 : (q.idx_to_heap.getD idx 0 != 0) = true := by simpa using h2
      have hP : q.Push key idx = .error .DuplicateIndex := by
        simp only [Push, Contains, if_neg h1, h4]
      have hC : q.Contains idx = .ok true := by
        simp only [Contains, if_neg h1, h4]
      rw [hP, hC]
      simp [h1, h1']
      exact hlast

/-- C10 (Underflow). In every queue state `Top` throws Underflow exactly
when `Size() = 0`, `Pop` throws Underflow exactly when `Size() = 0`, and on
a non-empty queue `Top` returns `heap_to_idx[1]`. `Top` is a function of
the state alone and yields no new state: its body writes to no member. -/
theorem C10_underflow_exactly_when_empty [Inhabited K] [LinearOrder K] (q : IndexMinPQ K) :
    (q.Top = .error .Underflow ↔ q.Size = 0) ∧
    (q.Pop = .error .Underflow ↔ q.Size = 0) ∧
    (q.Size ≠ 0 → q.Top = .ok (q.heap_to_idx.getD 1 0)) := by
  by_cases h : q.Size = 0
  · simp [Top, Pop, h]
  · simp [Top, Pop, h, Root]

end IndexMinPQ

/-! ## Errors of ChangeKey and Contains, and the size -/

namespace IndexMinPQ

variable {K : Type}

/-- C11 (ChangeKey and Contains fail exactly on a bad index). In every
queue state, for every key and index: `ChangeKey` throws InvalidIndex
exactly when `idx >= capacity`, throws MissingIndex exactly when
`idx < capacity` and `Contains(idx)` is false, and returns normally exactly
in the remaining case; `Contains` throws InvalidIndex exactly when
`idx >= capacity` and returns a value otherwise. -/
theorem C11_changeKey_contains_fail_exactly_on_bad_index [Inhabited K] [LinearOrder K]
    (q : IndexMinPQ K) (key : K) (idx : Nat) :
    (q.ChangeKey key idx = .error .InvalidIndex ↔ idx ≥ q.capacity) ∧
    (q.ChangeKey key idx = .error .MissingIndex ↔
      idx < q.capacity ∧ q.Contains idx = .ok false) ∧
    ((∃ q2, q.ChangeKey key idx = .ok q2) ↔
      idx < q.capacity ∧ q.Contains idx = .ok true) ∧
    (q.Contains idx = .error .InvalidIndex ↔ idx ≥ q.capacity) ∧
    ((∃ b, q.Contains idx = .ok b) ↔ idx < q.capacity) := by
  by_cases h1 : idx ≥ q.capacity
  · have hP : q.ChangeKey key idx = .error .InvalidIndex := by
      simp only [ChangeKey, if_pos h1]
    have hC : q.Contains idx = .error .InvalidIndex := by simp only [Contains, if_pos h1]
    have h1' : ¬ idx < q.capacity := by omega
    rw [hP, hC]
    simp [h1, h1']
  · have h1' : idx < q.capacity := by omega
    by_cases h2 : q.idx_to_heap.getD idx 0 = 0
    · have hP : q.ChangeKey key idx = .error .MissingIndex := by
        simp only [ChangeKey, Contains, if_neg h1, h2, bne_self_eq_false]
      have hC : q.Contains idx = .ok false := by
        simp only [Contains, if_neg h1, h2, bne_self_eq_false]
      rw [hP, hC]
      simp [h1, h1']
    · have h4 : (q.idx_to_heap.getD idx 0 != 0) = true := by simpa using h2
      have hP := ChangeKey_eq q key idx h1' h2
      have hC : q.Contains idx = .ok true := by
        simp only [Contains, if_neg h1, h4]
      rw [hP, hC]
      simp [h1, h1']

theorem Push_size [Inhabited K] [LinearOrder K] {q q2 : IndexMinPQ K} {key : K} {idx : Nat}
    (h : q.Push key idx = .ok q2) :
    q2.cur_size = q.cur_size + 1 ∧ q2.capacity = q.capacity := by
  obtain ⟨a, b⟩ := Push_ok_inv h
  rw [Push_eq q key idx a b] at h
  cases h
  exact ⟨(PercolateUp_frame _ _).2.1, (PercolateUp_frame _ _).1⟩

theorem Pop_ok_inv [Inhabited K] [LinearOrder K] {q q2 : IndexMinPQ K}
    (h : q.Pop = .ok q2) : q.cur_size ≠ 0 := by
  intro h0
  simp only [Pop, Size, h0, if_true] at h
  cases h

theorem Pop_size [Inhabited K] [LinearOrder K] {q q2 : IndexMinPQ K} (h : q.Pop = .ok q2) :
    q2.cur_size + 1 = q.cur_size ∧ q2.capacity = q.capacity := by
  have h0 := Pop_ok_inv h
  rw [Pop_eq q h0] at h
  cases h
  refine ⟨?_, (PercolateDown_frame _ _).1⟩
  rw [(PercolateDown_frame _ _).2.1]
  show q.cur_size - 1 + 1 = q.cur_size
  omega

theorem ChangeKey_size [Inhabited K] [LinearOrder K] {q q2 : IndexMinPQ K} {key : K}
    {idx : Nat} (h : q.ChangeKey key idx = .ok q2) :
    q2.cur_size = q.cur_size ∧ q2.capacity = q.capacity := by
  obtain ⟨a, b⟩ := ChangeKey_ok_inv h
  rw [ChangeKey_eq q key idx a b] at h
  cases h
  constructor
  · rw [(PercolateDown_frame _ _).2.1, (PercolateUp_frame _ _).2.1]; rfl
  · rw [(PercolateDown_frame _ _).1, (PercolateUp_frame _ _).1]; rfl

theorem run_size [Inhabited K] [LinearOrder K] :
    ∀ (ops : List (PQOp K)) (q q2 : IndexMinPQ K), q.run ops = .ok q2 →
      q2.cur_size + countPop ops = q.cur_size + countPush ops := by
  intro ops
  induction ops with
  | nil => intro q q2 h; cases h; rfl
  | cons op ops ih =>
    intro q q2 h
    unfold IndexMinPQ.run at h
    cases hs : q.step op with
    | error e => rw [hs] at h; cases h
    | ok q1 =>
      rw [hs] at h
      have := ih q1 q2 h
      cases op with
      | push key idx =>
        have e := (Push_size (show q.Push key idx = .ok q1 from hs)).1
        simp only [countPush, countPop]
        omega
      | pop =>
        have e := (Pop_size (show q.Pop = .ok q1 from hs)).1
        simp only [countPush, countPop]
        omega
      | changeKey key idx =>
        have e := (ChangeKey_size (show q.ChangeKey key idx = .ok q1 from hs)).1
        simp only [countPush, countPop]
        omega

/-- C12 (size accounting). A fresh queue has size 0; a successful `Push`
adds exactly one to the size, a successful `Pop` takes exactly one from it
and a successful `ChangeKey` keeps it; after a sequence of successful calls
on a fresh queue the size is the number of its pushes minus the number of
its pops. `Top` and `Contains` are functions of the state that yield no new
state. -/
theorem C12_size_accounting [Inhabited K] [LinearOrder K] :
    (∀ C : Nat, (new C : IndexMinPQ K).Size = 0) ∧
    (∀ (q q2 : IndexMinPQ K) (key : K) (idx : Nat),
      q.Push key idx = .ok q2 → q2.Size = q.Size + 1) ∧
    (∀ q q2 : IndexMinPQ K, q.Pop = .ok q2 → q2.Size + 1 = q.Size) ∧
    (∀ (q q2 : IndexMinPQ K) (key : K) (idx : Nat),
      q.ChangeKey key idx = .ok q2 → q2.Size = q.Size) ∧
    (∀ (C : Nat) (ops : List (PQOp K)) (q : IndexMinPQ K),
      (new C : IndexMinPQ K).run ops = .ok q →
        countPop ops ≤ countPush ops ∧ q.Size = countPush ops - countPop ops) := by
  refine ⟨fun _ => rfl, fun q q2 key idx h => (Push_size h).1, fun q q2 h => (Pop_size h).1,
    fun q q2 key idx h => (ChangeKey_size h).1, fun C ops q h => ?_⟩
  have := run_size ops _ q h
  have h0 : (new C : IndexMinPQ K).cur_size = 0 := rfl
  unfold Size
  omega

end IndexMinPQ

/-! ## The size stays within the capacity -/

theorem countP_set_nonzero (l : List Nat) (k v : Nat) (hv : v ≠ 0) :
    l.countP (fun x => x != 0) ≤ (l.set k v).countP (fun x => x != 0) := by
  by_cases hk : k < l.length
  · rw [List.countP_set _ _ _ _ hk]
    have hv2 : (v != 0) = true := by simpa using hv
    simp only [hv2, if_true]
    split
    · omega
    · omega
  · rw [List.set_eq_of_length_le (by omega)]

theorem countP_set_zero (l : List Nat) (k : Nat) :
    l.countP (fun x => x != 0) ≤ (l.set k 0).countP (fun x => x != 0) + 1 := by
  by_cases hk : k < l.length
  · rw [List.countP_set _ _ _ _ hk]
    split <;> first | (simp; omega) | simp
  · rw [List.set_eq_of_length_le (by omega)]
    omega

theorem countP_set_fresh (l : List Nat) (k v : Nat) (hv : v ≠ 0) (hk : k < l.length)
    (h0 : l.getD k 0 = 0) :
    (l.set k v).countP (fun x => x != 0) = l.countP (fun x => x != 0) + 1 := by
  rw [List.countP_set _ _ _ _ hk]
  have hv2 : (v != 0) = true := by simpa using hv
  have e : l[k] = 0 := by
    rw [List.getD_eq_getElem?_getD, List.getElem?_eq_getElem hk] at h0
    exact h0
  simp [hv2, e]

theorem countP_lt_of_zero (l : List Nat) (k : Nat) (hk : k < l.length)
    (h0 : l.getD k 0 = 0) : l.countP (fun x => x != 0) < l.length := by
  have e : l[k] = 0 := by
    rw [List.getD_eq_getElem?_getD, List.getElem?_eq_getElem hk] at h0
    exact h0
  have hle : l.countP (fun x => x != 0) ≤ l.length := List.countP_le_length _
  rcases Nat.lt_or_ge (l.countP (fun x => x != 0)) l.length with h | h
  · exact h
  · have heq : l.countP (fun x => x != 0) = l.length := by omega
    rw [List.countP_eq_length] at heq
    have := heq l[k] (List.getElem_mem hk)
    rw [e] at this
    simp at this

namespace IndexMinPQ

variable {K : Type}

theorem PercolateUpLoop_posStable [Inhabited K] [LinearOrder K] (P : IndexMinPQ K → Prop)
    (hP : PosSwapStable P) :
    ∀ (fuel : Nat) (q : IndexMinPQ K) (i : Nat), P q → P (PercolateUpLoop fuel q i) := by
  intro fuel
  induction fuel with
  | zero => intro q i h; exact h
  | succ n ih =>
    intro q i h
    unfold PercolateUpLoop
    by_cases hc : (HasParent i && q.GreaterNode (Parent i) i) = true
    · rw [if_pos hc]
      rw [Bool.and_eq_true] at hc
      have hne := HasParent_true hc.1
      have h0 : i ≠ 0 := by
        intro e
        rw [e] at hc
        have := hc.2
        simp [Parent, GreaterNode_self] at this
      exact ih _ _ (hP q _ _ (by unfold Parent; omega) (by omega) h)
    · rw [if_neg hc]; exact h

theorem PercolateDownLoop_posStable [Inhabited K] [LinearOrder K] (P : IndexMinPQ K → Prop)
    (hP : PosSwapStable P) :
    ∀ (fuel : Nat) (q : IndexMinPQ K) (i : Nat), 1 ≤ i → P q →
      P (PercolateDownLoop fuel q i) := by
  intro fuel
  induction fuel with
  | zero => intro q i _ h; exact h
  | succ n ih =>
    intro q i h1 h
    unfold PercolateDownLoop
    by_cases hn : q.IsNode (LeftChild i) = true
    · rw [if_pos hn]
      simp only []
      by_cases hg : q.GreaterNode i (q.smallerChild i) = true
      · rw [if_pos hg]
        have hc1 : 1 ≤ q.smallerChild i := by
          rcases smallerChild_cases q i with ⟨e, _⟩ | ⟨e, _, _⟩ <;> omega
        exact ih _ _ hc1 (hP q _ _ h1 hc1 h)
      · rw [if_neg hg]; exact h
    · rw [if_neg hn]; exact h

theorem SwapNodes_t_cases (q : IndexMinPQ K) (i j x : Nat) :
    (q.SwapNodes i j).idx_to_heap.getD x 0 = j ∨
    (q.SwapNodes i j).idx_to_heap.getD x 0 = i ∨
    (q.SwapNodes i j).idx_to_heap.getD x 0 = q.idx_to_heap.getD x 0 := by
  have hset : ∀ (l : List Nat) (a v : Nat),
      (l.set a v).getD x 0 = v ∨ (l.set a v).getD x 0 = l.getD x 0 := by
    intro l a v
    rw [getD_set_eq_ite]
    split
    · exact Or.inl rfl
    · exact Or.inr rfl
  simp only [SwapNodes]
  rcases hset (q.idx_to_heap.set (((q.heap_to_idx.set i (q.heap_to_idx.getD j 0)).set j
      (q.heap_to_idx.getD i 0)).getD i 0) i) (((q.heap_to_idx.set i
      (q.heap_to_idx.getD j 0)).set j (q.heap_to_idx.getD i 0)).getD j 0) j with e | e
  · exact Or.inl e
  · rw [e]
    rcases hset q.idx_to_heap (((q.heap_to_idx.set i (q.heap_to_idx.getD j 0)).set j
      (q.heap_to_idx.getD i 0)).getD i 0) i with e2 | e2
    · exact Or.inr (Or.inl e2)
    · exact Or.inr (Or.inr e2)

theorem Bounded_posSwapStable : PosSwapStable (fun q : IndexMinPQ K => Bounded q) := by
  intro q i j hi hj ⟨h1, h2, h3⟩
  refine ⟨?_, ?_, ?_⟩
  · rw [SwapNodes_t_length]; exact h1
  · rw [SwapNodes_h_length]; exact h2
  · show q.cur_size ≤ _
    unfold present at h3 ⊢
    simp only [SwapNodes]
    exact le_trans h3 (le_trans (countP_set_nonzero _ _ i (by omega))
      (countP_set_nonzero _ _ j (by omega)))

theorem Reported_posSwapStable (x : Nat) :
    PosSwapStable (fun q : IndexMinPQ K => q.idx_to_heap.getD x 0 ≠ 0) := by
  intro q i j hi hj h
  rcases SwapNodes_t_cases q i j x with e | e | e <;> rw [e] <;> omega

end IndexMinPQ

namespace IndexMinPQ

variable {K : Type}

theorem new_bounded [Inhabited K] (C : Nat) : Bounded (new C : IndexMinPQ K) := by
  refine ⟨?_, ?_, Nat.zero_le _⟩
  · simp [new]
  · simp [new]

theorem Bounded.size_le {q : IndexMinPQ K} (hb : Bounded q) : q.cur_size ≤ q.capacity := by
  obtain ⟨h1, _, h3⟩ := hb
  have : q.idx_to_heap.countP (fun x => x != 0) ≤ q.idx_to_heap.length :=
    List.countP_le_length _
  unfold present at h3
  omega

/-- In a bounded state an index that `Contains` does not report leaves
room for one more entry. -/
theorem Bounded.room {q : IndexMinPQ K} (hb : Bounded q) {idx : Nat} (h1 : idx < q.capacity)
    (h2 : q.idx_to_heap.getD idx 0 = 0) : q.cur_size + 1 ≤ q.capacity := by
  obtain ⟨a, _, c⟩ := hb
  have := countP_lt_of_zero q.idx_to_heap idx (by omega) h2
  unfold present at c
  omega

theorem Push_bounded [Inhabited K] [LinearOrder K] {q q2 : IndexMinPQ K} {key : K}
    {idx : Nat} (hb : Bounded q) (h : q.Push key idx = .ok q2) : Bounded q2 := by
  obtain ⟨a, b⟩ := Push_ok_inv h
  rw [Push_eq q key idx a b] at h
  cases h
  apply PercolateUpLoop_posStable _ Bounded_posSwapStable
  obtain ⟨h1, h2, h3⟩ := hb
  refine ⟨?_, ?_, ?_⟩
  · simp only [pushed, List.length_set]; exact h1
  · simp only [pushed, List.length_set]; exact h2
  · show q.cur_size + 1 ≤ _
    unfold present at h3 ⊢
    simp only [pushed]
    rw [countP_set_fresh _ _ _ (by omega) (by omega) b]
    omega

theorem Pop_bounded [Inhabited K] [LinearOrder K] {q q2 : IndexMinPQ K}
    (hb : Bounded q) (h : q.Pop = .ok q2) : Bounded q2 := by
  have h0 := Pop_ok_inv h
  rw [Pop_eq q h0] at h
  cases h
  apply PercolateDownLoop_posStable _ Bounded_posSwapStable _ _ _ (le_refl 1)
  obtain ⟨h1, h2, h3⟩ := hb
  refine ⟨?_, ?_, ?_⟩
  · simp only [popped, List.length_set]; exact h1
  · simp only [popped, List.length_set]; exact h2
  · show q.cur_size - 1 ≤ _
    unfold present at h3 ⊢
    simp only [popped]
    have := countP_set_zero q.idx_to_heap (q.heap_to_idx.getD Root 0)
    omega

theorem ChangeKey_bounded [Inhabited K] [LinearOrder K] {q q2 : IndexMinPQ K} {key : K}
    {idx : Nat} (hb : Bounded q) (h : q.ChangeKey key idx = .ok q2) : Bounded q2 := by
  obtain ⟨a, b⟩ := ChangeKey_ok_inv h
  rw [ChangeKey_eq q key idx a b] at h
  cases h
  have hb1 : Bounded (q.rekeyed key idx) := hb
  have hr1 : (q.rekeyed key idx).idx_to_heap.getD idx 0 ≠ 0 := b
  have hb2 := PercolateUpLoop_posStable _ Bounded_posSwapStable
    (q.idx_to_heap.getD idx 0) _ (q.idx_to_heap.getD idx 0) hb1
  have hr2 := PercolateUpLoop_posStable _ (Reported_posSwapStable idx)
    (q.idx_to_heap.getD idx 0) _ (q.idx_to_heap.getD idx 0) hr1
  exact PercolateDownLoop_posStable _ Bounded_posSwapStable _ _ _ (Nat.pos_of_ne_zero hr2) hb2

theorem stepKeep_bounded [Inhabited K] [LinearOrder K] {q : IndexMinPQ K} (hb : Bounded q)
    (op : PQOp K) : Bounded (q.stepKeep op) ∧ (q.stepKeep op).capacity = q.capacity := by
  unfold stepKeep
  cases hs : q.step op with
  | error e => exact ⟨hb, rfl⟩
  | ok q1 =>
    cases op with
    | push key idx => exact ⟨Push_bounded hb hs, (Push_size hs).2⟩
    | pop => exact ⟨Pop_bounded hb hs, (Pop_size hs).2⟩
    | changeKey key idx => exact ⟨ChangeKey_bounded hb hs, (ChangeKey_size hs).2⟩

theorem runKeep_bounded [Inhabited K] [LinearOrder K] :
    ∀ (ops : List (PQOp K)) (q : IndexMinPQ K), Bounded q →
      Bounded (q.runKeep ops) ∧ (q.runKeep ops).capacity = q.capacity := by
  intro ops
  induction ops with
  | nil => intro q hb; exact ⟨hb, rfl⟩
  | cons op ops ih =>
    intro q hb
    have h1 := stepKeep_bounded hb op
    have h2 := ih _ h1.1
    exact ⟨h2.1, h2.2.trans h1.2⟩

/-- C13 (the size never exceeds the capacity). For every capacity `C` and
every sequence of `Push`, `Pop` and `ChangeKey` calls on a fresh queue,
failed calls included: the state reached has capacity `C` and a size of at
most `C`, and every `Push` that succeeds on it writes `heap_to_idx` at a
position `cur_size + 1` that is at most `C`, inside the `C + 1` slots of
the vector. -/
theorem C13_size_within_capacity [Inhabited K] [LinearOrder K] (C : Nat)
    (ops : List (PQOp K)) :
    ((new C : IndexMinPQ K).runKeep ops).capacity = C ∧
    ((new C : IndexMinPQ K).runKeep ops).cur_size ≤ C ∧
    ((new C : IndexMinPQ K).runKeep ops).heap_to_idx.length = C + 1 ∧
    ∀ (key : K) (idx : Nat) (q2 : IndexMinPQ K),
      ((new C : IndexMinPQ K).runKeep ops).Push key idx = .ok q2 →
        ((new C : IndexMinPQ K).runKeep ops).cur_size + 1 ≤ C := by
  obtain ⟨hb, hc⟩ := runKeep_bounded ops (new C : IndexMinPQ K) (new_bounded C)
  have hc2 : ((new C : IndexMinPQ K).runKeep ops).capacity = C := hc
  refine ⟨hc2, ?_, ?_, ?_⟩
  · have := hb.size_le
    omega
  · rw [hb.2.1, hc2]
  · intro key idx q2 h
    obtain ⟨a, b⟩ := Push_ok_inv h
    have := hb.room a b
    omega

end IndexMinPQ

/-! ## The end-to-end example -/

namespace Prim

variable {K : Type}

/-- A set of vertices that no edge of `es` leaves contains every vertex
joined to one of its members. -/
theorem Joined.stays {es : List (Edge K)} {S : Nat → Prop}
    (hS : ∀ a b, Step es a b → S a → S b) {u v : Nat} (h : Joined es u v) (hu : S u) :
    S v := by
  induction h with
  | refl => exact hu
  | tail _ hstep ih => exact hS _ _ hstep ih

theorem Joined.of_edge {es : List (Edge K)} {e : Edge K} (he : e ∈ es) :
    Joined es e.src e.dst :=
  Relation.ReflTransGen.single ⟨e, he, Or.inl ⟨rfl, rfl⟩⟩

theorem Joined.symm {es : List (Edge K)} {u v : Nat} (h : Joined es u v) : Joined es v u := by
  induction h with
  | refl => exact Relation.ReflTransGen.refl
  | tail _ hstep ih =>
    obtain ⟨e, he, hor⟩ := hstep
    exact Relation.ReflTransGen.head ⟨e, he, hor.symm⟩ ih

theorem Joined.trans {es : List (Edge K)} {u v w : Nat} (h1 : Joined es u v)
    (h2 : Joined es v w) : Joined es u w :=
  Relation.ReflTransGen.trans h1 h2

/-- C14 (end-to-end example). On the graph with 5 vertices and the edges
(0,1,2), (0,2,4), (1,2,1), (1,3,7), (2,3,3), (3,4,5), each stored in the
lists of both endpoints, `BuildPrimMst` returns the array
[(0,0,0), (0,1,2), (1,2,1), (2,3,3), (3,4,5)]; its edges of weight other
than 0 are the last four, their total weight is 11, they form no cycle and
join all 5 vertices. -/
theorem C14_end_to_end_example :
    BuildPrimMst Graph.endToEnd =
      .ok [⟨0, 0, 0⟩, ⟨0, 1, 2⟩, ⟨1, 2, 1⟩, ⟨2, 3, 3⟩, ⟨3, 4, 5⟩] ∧
    printed ([⟨0, 0, 0⟩, ⟨0, 1, 2⟩, ⟨1, 2, 1⟩, ⟨2, 3, 3⟩, ⟨3, 4, 5⟩] : List (Edge Nat)) =
      [⟨0, 1, 2⟩, ⟨1, 2, 1⟩, ⟨2, 3, 3⟩, ⟨3, 4, 5⟩] ∧
    totalWeight ([⟨0, 0, 0⟩, ⟨0, 1, 2⟩, ⟨1, 2, 1⟩, ⟨2, 3, 3⟩, ⟨3, 4, 5⟩] : List (Edge Nat)) =
      11 ∧
    Acyclic ([⟨0, 1, 2⟩, ⟨1, 2, 1⟩, ⟨2, 3, 3⟩, ⟨3, 4, 5⟩] : List (Edge Nat)) ∧
    Spanning ([⟨0, 1, 2⟩, ⟨1, 2, 1⟩, ⟨2, 3, 3⟩, ⟨3, 4, 5⟩] : List (Edge Nat)) 5 := by
  refine ⟨rfl, rfl, rfl, ?_, ?_⟩
  · have hcut : ∀ (i : Nat) (es : List (Edge Nat)),
        (∀ e ∈ es, (e.src ≤ i ↔ e.dst ≤ i)) → ¬ Joined es i (i + 1) := by
      intro i es hes hj
      have := @Joined.stays Nat es (fun x => x ≤ i) (fun a b hst ha => by
        obtain ⟨e, he, h | h⟩ := hst
        · have := hes e he
          rw [h.1, h.2] at this
          exact this.1 ha
        · have := hes e he
          rw [h.1, h.2] at this
          exact this.2 ha) i (i + 1) hj (le_refl i)
      simp at this
    intro e he
    simp only [List.mem_cons, List.mem_singleton, List.not_mem_nil, or_false] at he
    rcases he with rfl | rfl | rfl | rfl
    · exact hcut 0 _ (by decide)
    · exact hcut 1 _ (by decide)
    · exact hcut 2 _ (by decide)
    · exact hcut 3 _ (by decide)
  · have h01 : Joined ([⟨0, 1, 2⟩, ⟨1, 2, 1⟩, ⟨2, 3, 3⟩, ⟨3, 4, 5⟩] : List (Edge Nat)) 0 1 :=
      @Joined.of_edge Nat _ ⟨0, 1, 2⟩ (by decide)
    have h12 : Joined ([⟨0, 1, 2⟩, ⟨1, 2, 1⟩, ⟨2, 3, 3⟩, ⟨3, 4, 5⟩] : List (Edge Nat)) 1 2 :=
      @Joined.of_edge Nat _ ⟨1, 2, 1⟩ (by decide)
    have h23 : Joined ([⟨0, 1, 2⟩, ⟨1, 2, 1⟩, ⟨2, 3, 3⟩, ⟨3, 4, 5⟩] : List (Edge Nat)) 2 3 :=
      @Joined.of_edge Nat _ ⟨2, 3, 3⟩ (by decide)
    have h34 : Joined ([⟨0, 1, 2⟩, ⟨1, 2, 1⟩, ⟨2, 3, 3⟩, ⟨3, 4, 5⟩] : List (Edge Nat)) 3 4 :=
      @Joined.of_edge Nat _ ⟨3, 4, 5⟩ (by decide)
    have hall : ∀ v, v < 5 →
        Joined ([⟨0, 1, 2⟩, ⟨1, 2, 1⟩, ⟨2, 3, 3⟩, ⟨3, 4, 5⟩] : List (Edge Nat)) 0 v := by
      intro v hv
      have hc : v = 0 ∨ v = 1 ∨ v = 2 ∨ v = 3 ∨ v = 4 := by omega
      rcases hc with rfl | rfl | rfl | rfl | rfl
      · exact Relation.ReflTransGen.refl
      · exact h01
      · exact h01.trans h12
      · exact (h01.trans h12).trans h23
      · exact ((h01.trans h12).trans h23).trans h34
    intro u v hu hv
    exact (hall u hu).symm.trans (hall v hv)

end Prim

/-! ## Pop on a state with both invariants -/

namespace IndexMinPQ

variable {K : Type}

/-- The lengths given by the constructor and the bijection invariant imply
the rest of the shape. -/
theorem Shape.of_bijection {q : IndexMinPQ K} (hk : q.keys.length = q.capacity)
    (hh : q.heap_to_idx.length = q.capacity + 1) (ht : q.idx_to_heap.length = q.capacity)
    (hb : Bijection q) : Shape q := by
  have hlive : ∀ p, 1 ≤ p → p ≤ q.cur_size → q.heap_to_idx.getD p 0 < q.capacity := by
    intro p h1 h2
    by_contra hge
    have e := hb.1 p h1 h2
    rw [List.getD_eq_getElem?_getD, List.getElem?_eq_none (by omega)] at e
    simp at e
    omega
  refine ⟨hk, hh, ht, ?_, hlive⟩
  have hc : (Finset.Icc 1 q.cur_size).card ≤ (Finset.range q.capacity).card := by
    apply Finset.card_le_card_of_injOn (fun p => q.heap_to_idx.getD p 0)
    · intro p hp
      rw [Finset.mem_Icc] at hp
      rw [Finset.mem_range]
      exact hlive p hp.1 hp.2
    · intro p hp p2 hp2 he
      simp only [Finset.coe_Icc, Set.mem_Icc] at hp hp2
      exact hb.inj p p2 hp.1 hp.2 hp2.1 hp2.2 he
  rw [Nat.card_Icc, Finset.card_range] at hc
  omega

theorem mem_liveList (q : IndexMinPQ K) (idx : Nat) : idx ∈ q.liveList ↔ Live q idx := by
  unfold liveList Live
  rw [List.mem_map]
  constructor
  · rintro ⟨k, hk, e⟩
    rw [List.mem_range] at hk
    exact ⟨k + 1, by omega, by omega, e⟩
  · rintro ⟨p, h1, h2, e⟩
    refine ⟨p - 1, List.mem_range.2 (by omega), ?_⟩
    rw [show p - 1 + 1 = p by omega]
    exact e

theorem Inj.nodup_liveList {q : IndexMinPQ K} (h : Inj q) : q.liveList.Nodup := by
  unfold liveList
  apply List.Nodup.map_on _ (List.nodup_range _)
  intro x hx y hy e
  rw [List.mem_range] at hx hy
  have := h (x + 1) (y + 1) (by omega) (by omega) (by omega) (by omega) e
  omega

theorem smallerChild_left [Inhabited K] [LinearOrder K] (q : IndexMinPQ K) (i : Nat)
    (h : q.keyAt (LeftChild i) ≤ q.keyAt (RightChild i)) : q.smallerChild i = LeftChild i := by
  unfold smallerChild
  rw [if_neg]
  rw [Bool.and_eq_true, not_and]
  intro _ hg
  exact absurd (GreaterNode_true hg) (not_lt.2 h)

/-- C16 (Pop removes the minimum and restores order). In every state that
has the vector lengths given by the constructor, is in heap order,
satisfies the bijection invariant and has size at least 1: `Pop` succeeds
and yields a state in heap order, of size one less, with the same keys,
whose live positions hold the previous live indices without the one that
was at the root, which had a least key. In `PercolateDown`, from every
position other than 0 of every state, a swap exchanges the node with the
child chosen by `smallerChild`: a child whose key is at most the key of
each existing child, the left one unless the right one exists with a
strictly smaller key. -/
theorem C16_pop_removes_minimum_and_restores_order [Inhabited K] [LinearOrder K]
    (q : IndexMinPQ K) (hk : q.keys.length = q.capacity)
    (hh : q.heap_to_idx.length = q.capacity + 1) (ht : q.idx_to_heap.length = q.capacity)
    (hheap : HeapOrdered q) (hbij : Bijection q) (hsz : 1 ≤ q.cur_size) :
    (∃ q2, q.Pop = .ok q2 ∧ HeapOrdered q2 ∧ q2.cur_size = q.cur_size - 1 ∧
      q2.keys = q.keys ∧
      (q.heap_to_idx.getD 1 0 :: q2.liveList).Perm q.liveList ∧
      ∀ p, 1 ≤ p → p ≤ q.cur_size → q.keyAt 1 ≤ q.keyAt p) ∧
    (∀ (s : IndexMinPQ K) (i : Nat), 1 ≤ i →
      s.PercolateDown i =
        if s.IsNode (LeftChild i) then
          if s.GreaterNode i (s.smallerChild i) then
            (s.SwapNodes i (s.smallerChild i)).PercolateDown (s.smallerChild i)
          else s
        else s) ∧
    (∀ (s : IndexMinPQ K) (i : Nat),
      (s.smallerChild i = LeftChild i ∨
        (s.smallerChild i = RightChild i ∧ s.IsNode (RightChild i) = true ∧
          s.keyAt (RightChild i) < s.keyAt (LeftChild i))) ∧
      s.keyAt (s.smallerChild i) ≤ s.keyAt (LeftChild i) ∧
      (s.IsNode (RightChild i) = true → s.keyAt (s.smallerChild i) ≤ s.keyAt (RightChild i)) ∧
      (s.keyAt (LeftChild i) ≤ s.keyAt (RightChild i) → s.smallerChild i = LeftChild i)) := by
  refine ⟨?_, fun s i hi => PercolateDown_loop s i hi, fun s i => ?_⟩
  · have hs := Shape.of_bijection hk hh ht hbij
    have hsound : Sound q := ⟨hs, hbij.inj, hheap⟩
    obtain ⟨q2, e, hq2, hlive, hkeys, hsize, _⟩ := Pop_sound hsound hsz
    refine ⟨q2, e, hq2.heap, hsize, hkeys, ?_, hheap.root_le⟩
    rw [List.perm_ext_iff_of_nodup _ hbij.inj.nodup_liveList]
    · intro a
      rw [List.mem_cons, mem_liveList, mem_liveList, hlive a]
      constructor
      · rintro (h | h)
        · exact ⟨1, le_refl _, hsz, h.symm⟩
        · exact h.1
      · intro h
        by_cases e : a = q.heap_to_idx.getD 1 0
        · exact Or.inl e
        · exact Or.inr ⟨h, e⟩
    · rw [List.nodup_cons]
      refine ⟨fun hmem => ?_, hq2.inj.nodup_liveList⟩
      rw [mem_liveList, hlive] at hmem
      exact hmem.2 rfl
  · rcases smallerChild_cases s i with ⟨e, hle⟩ | ⟨e, hn, hlt⟩
    · refine ⟨Or.inl e, ?_, ?_, smallerChild_left s i⟩
      · rw [e]; rfl
      · intro hr
        rw [e]
        exact hle (IsNode_true hr)
    · refine ⟨Or.inr ⟨e, ?_, hlt⟩, ?_, ?_, smallerChild_left s i⟩
      · simpa [IsNode, RightChild] using hn
      · rw [e]; exact le_of_lt hlt
      · intro _
        rw [e]; rfl

/-- C16, on the queue of capacity 4 that holds the indices 0, 1, 2 with the
keys 1, 5, 2 at the positions 1, 2, 3. -/
theorem C16_pop_removes_minimum_and_restores_order_witness :
    (HeapOrdered (⟨4, 3, [1, 5, 2, 0], [0, 0, 1, 2, 0], [1, 2, 3, 0]⟩ : IndexMinPQ Nat) ∧
      Bijection (⟨4, 3, [1, 5, 2, 0], [0, 0, 1, 2, 0], [1, 2, 3, 0]⟩ : IndexMinPQ Nat)) ∧
    ∃ q2, (⟨4, 3, [1, 5, 2, 0], [0, 0, 1, 2, 0], [1, 2, 3, 0]⟩ : IndexMinPQ Nat).Pop =
        .ok q2 ∧ HeapOrdered q2 ∧ q2.cur_size = 3 - 1 ∧ q2.keys = [1, 5, 2, 0] ∧
      (0 :: q2.liveList).Perm [0, 1, 2] := by
  have h1 : HeapOrdered (⟨4, 3, [1, 5, 2, 0], [0, 0, 1, 2, 0], [1, 2, 3, 0]⟩ :
      IndexMinPQ Nat) := by
    intro i a b
    have b2 : i ≤ 3 := b
    interval_cases i <;> decide
  have h2 : Bijection (⟨4, 3, [1, 5, 2, 0], [0, 0, 1, 2, 0], [1, 2, 3, 0]⟩ :
      IndexMinPQ Nat) := by
    constructor
    · intro p a b
      have b2 : p ≤ 3 := b
      interval_cases p <;> decide
    · intro idx a
      have a2 : idx < 4 := a
      interval_cases idx <;> decide
  obtain ⟨q2, e, a, b, c, d, _⟩ :=
    (C16_pop_removes_minimum_and_restores_order
      (⟨4, 3, [1, 5, 2, 0], [0, 0, 1, 2, 0], [1, 2, 3, 0]⟩ : IndexMinPQ Nat)
      rfl rfl rfl h1 h2 (by decide)).1
  exact ⟨⟨h1, h2⟩, q2, e, a, b, c, d⟩

end IndexMinPQ

/-! ## ChangeKey after a Pop, and the roots of the inner loop -/

namespace IndexMinPQ

variable {K : Type}

/-- C17 (ChangeKey moves in one direction only), evaluated where it fails.
On a queue of capacity 3 the calls Push(7,0), Push(16,1), Push(8,2), Pop(),
Push(29,0), ChangeKey(20,2) all succeed. In the state reached
`Contains(0)` is true and `idx_to_heap[0] = 3`; in `ChangeKey(18,0)` the
call `PercolateUp(3)` swaps the positions 1 and 3, and the call
`PercolateDown(1)` that follows swaps the positions 1 and 2. -/
theorem C17_changeKey_swaps_both_ways :
    (new 3 : IndexMinPQ Nat).run
        [.push 7 0, .push 16 1, .push 8 2, .pop, .push 29 0, .changeKey 20 2] =
      .ok ⟨3, 3, [29, 16, 20], [0, 2, 1, 0], [3, 2, 3]⟩ ∧
    (⟨3, 3, [29, 16, 20], [0, 2, 1, 0], [3, 2, 3]⟩ : IndexMinPQ Nat).Contains 0 = .ok true ∧
    ((⟨3, 3, [29, 16, 20], [0, 2, 1, 0], [3, 2, 3]⟩ : IndexMinPQ Nat).rekeyed 18 0).upSwaps 3 =
      true ∧
    ((⟨3, 3, [29, 16, 20], [0, 2, 1, 0], [3, 2, 3]⟩ : IndexMinPQ Nat).rekeyed 18 0).PercolateUp
        3 = ⟨3, 3, [18, 16, 20], [0, 0, 1, 2], [1, 2, 3]⟩ ∧
    (⟨3, 3, [18, 16, 20], [0, 0, 1, 2], [1, 2, 3]⟩ : IndexMinPQ Nat).downSwaps 1 = true ∧
    (⟨3, 3, [29, 16, 20], [0, 2, 1, 0], [3, 2, 3]⟩ : IndexMinPQ Nat).ChangeKey 18 0 =
      .ok ⟨3, 3, [18, 16, 20], [0, 1, 0, 2], [2, 1, 3]⟩ :=
  ⟨rfl, rfl, rfl, rfl, rfl, rfl⟩

end IndexMinPQ

namespace Prim

variable {K : Type}

/-- The loop `while (Q.Size())` runs `iteration` while the queue is not
empty. -/
theorem whileLoop_succ [Inhabited K] [LinearOrder K] (adj_edge_vec : List (List (Edge K)))
    (fuel : Nat) (s : PrimState K) :
    whileLoop adj_edge_vec (fuel + 1) s =
      if s.Q.Size = 0 then .ok s
      else
        match iteration adj_edge_vec s with
        | .error x => .error x
        | .ok s2 => whileLoop adj_edge_vec fuel s2 := by
  conv => lhs; unfold whileLoop
  unfold iteration
  split
  · rfl
  · cases liftQ s.Q.Top with
    | error x => rfl
    | ok root =>
      cases liftQ s.Q.Pop with
      | error x => rfl
      | ok q1 => rfl

/-- C18 (each vertex is popped once), evaluated where it fails. On the
well-formed graph with 5 vertices and the edges (0,1,1), (0,2,2), (0,3,3),
(0,4,2), (1,4,1), after the seed `Push(0, 0)` three iterations of the inner
loop run without error; they pop the vertices 0, 1 and 4. The queue is then
not empty, `Top()` returns vertex 4 again, and `marked_vec[4]` is already
true: the fourth iteration pops a visited vertex and scans its edges a
second time. -/
theorem C18_visited_vertex_popped_again :
    Graph.starWithChordA.WellFormed ∧
    (init Graph.starWithChordA).Q.Push 0 0 =
      .ok ⟨5, 1, [0, 0, 0, 0, 0], [0, 0, 0, 0, 0, 0], [1, 0, 0, 0, 0]⟩ ∧
    iteration Graph.starWithChordA.adj_edge_vec
        ⟨⟨5, 1, [0, 0, 0, 0, 0], [0, 0, 0, 0, 0, 0], [1, 0, 0, 0, 0]⟩,
          (init Graph.starWithChordA).dist_vec.set 0 (some 0),
          (init Graph.starWithChordA).marked_vec, (init Graph.starWithChordA).best_edge_vec⟩ =
      .ok ⟨⟨5, 4, [0, 1, 2, 3, 2], [0, 1, 2, 3, 4, 0], [0, 1, 2, 3, 4]⟩,
        [some 0, some 1, some 2, some 3, some 2], [true, false, false, false, false],
        [⟨0, 0, 0⟩, ⟨0, 1, 1⟩, ⟨0, 2, 2⟩, ⟨0, 3, 3⟩, ⟨0, 4, 2⟩]⟩ ∧
    iteration Graph.starWithChordA.adj_edge_vec
        ⟨⟨5, 4, [0, 1, 2, 3, 2], [0, 1, 2, 3, 4, 0], [0, 1, 2, 3, 4]⟩,
          [some 0, some 1, some 2, some 3, some 2], [true, false, false, false, false],
          [⟨0, 0, 0⟩, ⟨0, 1, 1⟩, ⟨0, 2, 2⟩, ⟨0, 3, 3⟩, ⟨0, 4, 2⟩]⟩ =
      .ok ⟨⟨5, 3, [0, 1, 2, 3, 1], [0, 4, 4, 3, 2, 0], [0, 0, 4, 3, 2]⟩,
        [some 0, some 1, some 2, some 3, some 1], [true, true, false, false, false],
        [⟨0, 0, 0⟩, ⟨0, 1, 1⟩, ⟨0, 2, 2⟩, ⟨0, 3, 3⟩, ⟨1, 4, 1⟩]⟩ ∧
    iteration Graph.starWithChordA.adj_edge_vec
        ⟨⟨5, 3, [0, 1, 2, 3, 1], [0, 4, 4, 3, 2, 0], [0, 0, 4, 3, 2]⟩,
          [some 0, some 1, some 2, some 3, some 1], [true, true, false, false, false],
          [⟨0, 0, 0⟩, ⟨0, 1, 1⟩, ⟨0, 2, 2⟩, ⟨0, 3, 3⟩, ⟨1, 4, 1⟩]⟩ =
      .ok ⟨⟨5, 2, [0, 1, 2, 3, 1], [0, 4, 3, 3, 2, 0], [0, 0, 4, 2, 1]⟩,
        [some 0, some 1, some 2, some 3, some 1], [true, true, false, false, true],
        [⟨0, 0, 0⟩, ⟨0, 1, 1⟩, ⟨0, 2, 2⟩, ⟨0, 3, 3⟩, ⟨1, 4, 1⟩]⟩ ∧
    (⟨5, 2, [0, 1, 2, 3, 1], [0, 4, 3, 3, 2, 0], [0, 0, 4, 2, 1]⟩ : IndexMinPQ Nat).Size ≠ 0 ∧
    (⟨5, 2, [0, 1, 2, 3, 1], [0, 4, 3, 3, 2, 0], [0, 0, 4, 2, 1]⟩ : IndexMinPQ Nat).Top =
      .ok 4 ∧
    [true, true, false, false, true].getD 4 false = true := by
  refine ⟨?_, rfl, rfl, rfl, rfl, by decide, rfl, rfl⟩
  unfold Graph.WellFormed; decide

end Prim

/-! ## The adjacency lists built by the constructor -/

namespace Graph

variable {K : Type}

theorem addEdge_mem (adj : List (List (Edge K))) (e0 e : Edge K) (v : Nat)
    (h : e ∈ (addEdge adj e0).getD v []) :
    e ∈ adj.getD v [] ∨ (e = e0 ∧ (e0.src = v ∨ e0.dst = v)) := by
  have hset : ∀ (l : List (List (Edge K))) (a : Nat), e ∈ (l.set a (l.getD a [] ++ [e0])).getD v [] →
      e ∈ l.getD v [] ∨ (e = e0 ∧ a = v) := by
    intro l a hm
    rw [getD_set_eq_ite] at hm
    split at hm
    · rename_i hc
      rw [List.mem_append, List.mem_singleton] at hm
      rcases hm with hm | hm
      · left; rw [← hc.1]; exact hm
      · right; exact ⟨hm, hc.1⟩
    · left; exact hm
  unfold addEdge at h
  rcases hset _ _ h with h1 | ⟨h1, h2⟩
  · rcases hset _ _ h1 with h3 | ⟨h3, h4⟩
    · exact Or.inl h3
    · exact Or.inr ⟨h3, Or.inl h4⟩
  · exact Or.inr ⟨h1, Or.inr h2⟩

theorem foldl_addEdge_mem :
    ∀ (edges : List (Edge K)) (adj : List (List (Edge K))) (e : Edge K) (v : Nat),
      e ∈ (edges.foldl addEdge adj).getD v [] →
        e ∈ adj.getD v [] ∨ (e ∈ edges ∧ (e.src = v ∨ e.dst = v)) := by
  intro edges
  induction edges with
  | nil => intro adj e v h; exact Or.inl h
  | cons e0 rest ih =>
    intro adj e v h
    rw [List.foldl_cons] at h
    rcases ih _ e v h with h1 | ⟨h1, h2⟩
    · rcases addEdge_mem adj e0 e v h1 with h3 | ⟨h3, h4⟩
      · exact Or.inl h3
      · exact Or.inr ⟨by rw [h3]; exact List.mem_cons_self _ _, by rw [h3]; exact h4⟩
    · exact Or.inr ⟨List.mem_cons_of_mem _ h1, h2⟩

/-- Every edge that the constructor stores in the list of `v` is one of
the input edges and has `v` as its source or as its destination. -/
theorem ofInput_mem (n : Nat) (edges : List (Edge K)) (e : Edge K) (v : Nat)
    (h : e ∈ (ofInput n edges).adj_edge_vec.getD v []) :
    e ∈ edges ∧ (e.src = v ∨ e.dst = v) := by
  rcases foldl_addEdge_mem edges _ e v h with h1 | h1
  · rw [getD_replicate_eq] at h1
    cases h1
  · exact h1

end Graph

namespace Prim

variable {K : Type}

theorem scanEdge_of_otherEnd_none [Inhabited K] [LinearOrder K] {root : Nat}
    {s : PrimState K} {e : Edge K} (h : scanEdge root s e = .error .uninitAdj) :
    otherEnd e root = none := by
  unfold scanEdge at h
  cases ho : otherEnd e root with
  | none => rfl
  | some adj =>
    exfalso
    rw [ho] at h
    simp only [] at h
    split at h
    · cases h
    · split at h
      · cases hc : s.Q.Contains adj with
        | error x => rw [hc] at h; simp only [liftQ] at h; cases h
        | ok b =>
          rw [hc] at h
          simp only [liftQ] at h
          cases b with
          | true =>
            simp only [] at h
            cases hk : s.Q.ChangeKey e.weight adj with
            | error x => rw [hk] at h; simp only [] at h; cases h
            | ok q1 => rw [hk] at h; simp only [] at h; cases h
          | false =>
            simp only [] at h
            cases hk : s.Q.Push e.weight adj with
            | error x => rw [hk] at h; simp only [] at h; cases h
            | ok q1 => rw [hk] at h; simp only [] at h; cases h
      · cases h

/-- C20 (the other endpoint is always defined). For every vertex count `n`
and every list of input edges with both endpoints below `n`, in the graph
built by the constructor every edge stored in the list of a vertex `v` has
`v` as its source or destination; one of the two branches that assign `adj`
is taken for it, so that the scan of this edge from `v` never reads an
unassigned `adj`; `adj` is below `n`, and for an edge that is not a
self-loop `adj` is the endpoint other than `v`. -/
theorem C20_other_endpoint_defined [Inhabited K] [LinearOrder K] (n : Nat)
    (edges : List (Edge K)) (h : ∀ e ∈ edges, e.src < n ∧ e.dst < n) (v : Nat) (e : Edge K)
    (he : e ∈ (Graph.ofInput n edges).adj_edge_vec.getD v []) :
    (e.src = v ∨ e.dst = v) ∧
    (∃ adj, otherEnd e v = some adj ∧ adj < n ∧
      (e.src ≠ e.dst → adj ≠ v ∧ (adj = e.src ∨ adj = e.dst))) ∧
    ∀ s : PrimState K, scanEdge v s e ≠ .error .uninitAdj := by
  obtain ⟨hin, hinc⟩ := Graph.ofInput_mem n edges e v he
  have hlt := h e hin
  have hex : ∃ adj, otherEnd e v = some adj ∧ adj < n ∧
      (e.src ≠ e.dst → adj ≠ v ∧ (adj = e.src ∨ adj = e.dst)) := by
    unfold otherEnd
    by_cases h1 : e.dst = v
    · rw [if_pos h1]
      exact ⟨e.src, rfl, hlt.1, fun hne => ⟨fun h2 => hne (h2.trans h1.symm), Or.inl rfl⟩⟩
    · rw [if_neg h1]
      have h2 : e.src = v := hinc.resolve_right h1
      rw [if_pos h2]
      exact ⟨e.dst, rfl, hlt.2, fun _ => ⟨h1, Or.inr rfl⟩⟩
  refine ⟨hinc, hex, fun s hs => ?_⟩
  obtain ⟨adj, ha, _⟩ := hex
  rw [scanEdge_of_otherEnd_none hs] at ha
  cases ha

/-- C20, on the graph of the end-to-end example and the edge (1,2,1) in the
list of vertex 2. -/
theorem C20_other_endpoint_defined_witness :
    ((∀ e ∈ ([⟨0, 1, 2⟩, ⟨0, 2, 4⟩, ⟨1, 2, 1⟩, ⟨1, 3, 7⟩, ⟨2, 3, 3⟩, ⟨3, 4, 5⟩] :
        List (Edge Nat)), e.src < 5 ∧ e.dst < 5) ∧
      (⟨1, 2, 1⟩ : Edge Nat) ∈ (Graph.ofInput 5 ([⟨0, 1, 2⟩, ⟨0, 2, 4⟩, ⟨1, 2, 1⟩, ⟨1, 3, 7⟩,
        ⟨2, 3, 3⟩, ⟨3, 4, 5⟩] : List (Edge Nat))).adj_edge_vec.getD 2 []) ∧
    (((⟨1, 2, 1⟩ : Edge Nat).src = 2 ∨ (⟨1, 2, 1⟩ : Edge Nat).dst = 2) ∧
      (∃ adj, otherEnd (⟨1, 2, 1⟩ : Edge Nat) 2 = some adj ∧ adj < 5 ∧
        ((⟨1, 2, 1⟩ : Edge Nat).src ≠ (⟨1, 2, 1⟩ : Edge Nat).dst →
          adj ≠ 2 ∧ (adj = (⟨1, 2, 1⟩ : Edge Nat).src ∨ adj = (⟨1, 2, 1⟩ : Edge Nat).dst))) ∧
      ∀ s : PrimState Nat, scanEdge 2 s ⟨1, 2, 1⟩ ≠ .error .uninitAdj) :=
  ⟨⟨by decide, by decide⟩,
    C20_other_endpoint_defined 5 [⟨0, 1, 2⟩, ⟨0, 2, 4⟩, ⟨1, 2, 1⟩, ⟨1, 3, 7⟩, ⟨2, 3, 3⟩, ⟨3, 4, 5⟩]
      (by decide) 2 ⟨1, 2, 1⟩ (by decide)⟩

end Prim

/-! ## Termination of the builder -/

namespace Prim

variable {K : Type}

/-- What a scan that returns normally has done: nothing, or a relaxation
through `ChangeKey` or through `Push`. -/
theorem scanEdge_ok [Inhabited K] [LinearOrder K] {root : Nat} {s s2 : PrimState K}
    {e : Edge K} (h : scanEdge root s e = .ok s2) :
    ∃ adj, otherEnd e root = some adj ∧
      (s2 = s ∨
        (s.marked_vec.getD adj false = false ∧
          ltDist e.weight (s.dist_vec.getD adj none) = true ∧
          ∃ q1, (s.Q.ChangeKey e.weight adj = .ok q1 ∨ s.Q.Push e.weight adj = .ok q1) ∧
            s2 = { s with Q := q1, dist_vec := s.dist_vec.set adj (some e.weight),
                          best_edge_vec := s.best_edge_vec.set adj e })) := by
  unfold scanEdge at h
  cases ho : otherEnd e root with
  | none => rw [ho] at h; cases h
  | some adj =>
    refine ⟨adj, rfl, ?_⟩
    rw [ho] at h
    simp only [] at h
    by_cases hm : s.marked_vec.getD adj false = true
    · rw [if_pos hm] at h
      cases h
      exact Or.inl rfl
    · rw [if_neg hm] at h
      by_cases hl : ltDist e.weight (s.dist_vec.getD adj none) = true
      · rw [if_pos hl] at h
        right
        refine ⟨by simpa using hm, hl, ?_⟩
        cases hc : s.Q.Contains adj with
        | error x => rw [hc] at h; simp only [liftQ] at h; cases h
        | ok b =>
          rw [hc] at h
          simp only [liftQ] at h
          cases b with
          | true =>
            simp only [] at h
            cases hk : s.Q.ChangeKey e.weight adj with
            | error x => rw [hk] at h; simp only [] at h; cases h
            | ok q1 =>
              rw [hk] at h
              simp only [] at h
              cases h
              exact ⟨q1, Or.inl rfl, rfl⟩
          | false =>
            simp only [] at h
            cases hk : s.Q.Push e.weight adj with
            | error x => rw [hk] at h; simp only [] at h; cases h
            | ok q1 =>
              rw [hk] at h
              simp only [] at h
              cases h
              exact ⟨q1, Or.inr rfl, rfl⟩
      · rw [if_neg hl] at h
        cases h
        exact Or.inl rfl

theorem mem_entriesFrom :
    ∀ (adj : List (List (Edge K))) (k r : Nat) (e : Edge K),
      (r, e) ∈ entriesFrom k adj ↔ k ≤ r ∧ e ∈ adj.getD (r - k) [] := by
  intro adj
  induction adj with
  | nil =>
    intro k r e
    simp [entriesFrom]
  | cons es rest ih =>
    intro k r e
    unfold entriesFrom
    rw [List.mem_append, ih (k + 1) r e, List.mem_map]
    constructor
    · rintro (⟨x, hx, hxe⟩ | ⟨h1, h2⟩)
      · cases hxe
        refine ⟨le_refl _, ?_⟩
        rw [Nat.sub_self]
        exact hx
      · refine ⟨by omega, ?_⟩
        have : r - k = (r - (k + 1)) + 1 := by omega
        rw [this]
        exact h2
    · rintro ⟨h1, h2⟩
      by_cases hr : r = k
      · left
        rw [hr, Nat.sub_self] at h2
        exact ⟨e, h2, by rw [hr]⟩
      · right
        refine ⟨by omega, ?_⟩
        have : r - k = (r - (k + 1)) + 1 := by omega
        rw [this] at h2
        exact h2

theorem length_entriesFrom :
    ∀ (adj : List (List (Edge K))) (k : Nat),
      (entriesFrom k adj).length = (adj.map List.length).sum := by
  intro adj
  induction adj with
  | nil => intro k; rfl
  | cons es rest ih =>
    intro k
    unfold entriesFrom
    rw [List.length_append, List.length_map, ih (k + 1), List.map_cons, List.sum_cons]

theorem pending_le [LinearOrder K] (adj : List (List (Edge K))) (dist : List (Option K)) :
    pending adj dist ≤ (adj.map List.length).sum := by
  unfold pending
  rw [← length_entriesFrom adj 0]
  exact List.countP_le_length _

theorem countP_lt_of_mem {α : Type} (p p2 : α → Bool) (l : List α)
    (hmono : ∀ x ∈ l, p2 x = true → p x = true) (x0 : α) (hx : x0 ∈ l) (h1 : p x0 = true)
    (h2 : p2 x0 = false) : l.countP p2 < l.countP p := by
  induction l with
  | nil => cases hx
  | cons a rest ih =>
    rw [List.countP_cons, List.countP_cons]
    have hrest : rest.countP p2 ≤ rest.countP p :=
      List.countP_mono_left (fun x hx => hmono x (List.mem_cons_of_mem _ hx))
    rcases List.mem_cons.1 hx with hxa | hxr
    · rw [← hxa, h1, h2]
      simp only [if_true]
      simp
      omega
    · have := ih (fun x hx => hmono x (List.mem_cons_of_mem _ hx)) hxr
      by_cases ha : p2 a = true
      · rw [ha, hmono a (List.mem_cons_self _ _) ha]
        simp only [if_true]
        omega
      · have ha2 : p2 a = false := by simpa using ha
        rw [ha2]
        simp
        omega

/-- A relaxation through an entry of the list of `root` takes at least one
from the number of entries that can still relax. -/
theorem pending_relax [LinearOrder K] (adj_edge_vec : List (List (Edge K)))
    (dist : List (Option K)) {root adj : Nat} {e : Edge K}
    (he : e ∈ adj_edge_vec.getD root []) (ho : otherEnd e root = some adj)
    (ha : adj < dist.length) (hl : ltDist e.weight (dist.getD adj none) = true) :
    pending adj_edge_vec (dist.set adj (some e.weight)) + 1 ≤ pending adj_edge_vec dist := by
  unfold pending
  apply countP_lt_of_mem _ _ _ _ (root, e)
  · rw [mem_entriesFrom]
    exact ⟨Nat.zero_le _, he⟩
  · unfold canRelax
    simp only [ho]
    exact hl
  · unfold canRelax
    simp only [ho]
    rw [getD_set_eq_ite, if_pos ⟨rfl, ha⟩]
    simp [ltDist]
  · intro x _ hx
    unfold canRelax at hx ⊢
    cases hox : otherEnd x.2 x.1 with
    | none => rw [hox] at hx; simp only [] at hx; cases hx
    | some a2 =>
      rw [hox] at hx
      simp only [] at hx ⊢
      rw [getD_set_eq_ite] at hx
      split at hx
      · rename_i hc
        rw [← hc.1]
        cases hd : dist.getD adj none with
        | none => rfl
        | some d =>
          rw [hd] at hl
          simp only [ltDist, decide_eq_true_eq] at hl hx ⊢
          exact lt_trans hx hl
      · exact hx

end Prim

namespace Prim

variable {K : Type}

theorem otherEnd_some_of_incident {e : Edge K} {v : Nat} (h : e.src = v ∨ e.dst = v) :
    ∃ adj, otherEnd e v = some adj := by
  unfold otherEnd
  by_cases h1 : e.dst = v
  · rw [if_pos h1]; exact ⟨_, rfl⟩
  · rw [if_neg h1, if_pos (h.resolve_right h1)]; exact ⟨_, rfl⟩

/-- A scan that stops does so with an exception of the queue, or because
neither branch assigned `adj`. -/
theorem scanEdge_error [Inhabited K] [LinearOrder K] {root : Nat} {s : PrimState K}
    {e : Edge K} {x : PrimStop} (h : scanEdge root s e = .error x) :
    (x = .uninitAdj ∧ otherEnd e root = none) ∨ ∃ qe, x = .queue qe := by
  unfold scanEdge at h
  cases ho : otherEnd e root with
  | none =>
    rw [ho] at h
    cases h
    exact Or.inl ⟨rfl, rfl⟩
  | some adj =>
    right
    rw [ho] at h
    simp only [] at h
    split at h
    · cases h
    · split at h
      · cases hc : s.Q.Contains adj with
        | error y => rw [hc] at h; simp only [liftQ] at h; cases h; exact ⟨_, rfl⟩
        | ok b =>
          rw [hc] at h
          simp only [liftQ] at h
          cases b with
          | true =>
            simp only [] at h
            cases hk : s.Q.ChangeKey e.weight adj with
            | error y => rw [hk] at h; simp only [] at h; cases h; exact ⟨_, rfl⟩
            | ok q1 => rw [hk] at h; simp only [] at h; cases h
          | false =>
            simp only [] at h
            cases hk : s.Q.Push e.weight adj with
            | error y => rw [hk] at h; simp only [] at h; cases h; exact ⟨_, rfl⟩
            | ok q1 => rw [hk] at h; simp only [] at h; cases h
      · cases h

theorem scanEdge_measure [Inhabited K] [LinearOrder K] (adj_edge_vec : List (List (Edge K)))
    {root : Nat} {s s2 : PrimState K} {e : Edge K} (he : e ∈ adj_edge_vec.getD root [])
    (hinv : s.Q.capacity = s.dist_vec.length) (h : scanEdge root s e = .ok s2) :
    s2.Q.capacity = s2.dist_vec.length ∧
    s2.Q.cur_size + pending adj_edge_vec s2.dist_vec ≤
      s.Q.cur_size + pending adj_edge_vec s.dist_vec := by
  obtain ⟨adj, ho, hcase⟩ := scanEdge_ok h
  rcases hcase with rfl | ⟨_, hl, q1, hq, rfl⟩
  · exact ⟨hinv, le_refl _⟩
  · simp only [List.length_set]
    rcases hq with hq | hq
    · obtain ⟨a, _⟩ := IndexMinPQ.ChangeKey_ok_inv hq
      obtain ⟨b, c⟩ := IndexMinPQ.ChangeKey_size hq
      have := pending_relax adj_edge_vec s.dist_vec he ho (by omega) hl
      exact ⟨by omega, by omega⟩
    · obtain ⟨a, _⟩ := IndexMinPQ.Push_ok_inv hq
      obtain ⟨b, c⟩ := IndexMinPQ.Push_size hq
      have := pending_relax adj_edge_vec s.dist_vec he ho (by omega) hl
      exact ⟨by omega, by omega⟩

theorem scanEdges_result [Inhabited K] [LinearOrder K] (adj_edge_vec : List (List (Edge K)))
    (root : Nat) :
    ∀ (es : List (Edge K)) (s : PrimState K),
      (∀ e ∈ es, e ∈ adj_edge_vec.getD root [] ∧ otherEnd e root ≠ none) →
      s.Q.capacity = s.dist_vec.length →
      (∃ s2, scanEdges root s es = .ok s2 ∧ s2.Q.capacity = s2.dist_vec.length ∧
        s2.Q.cur_size + pending adj_edge_vec s2.dist_vec ≤
          s.Q.cur_size + pending adj_edge_vec s.dist_vec) ∨
      ∃ qe, scanEdges root s es = .error (.queue qe) := by
  intro es
  induction es with
  | nil => intro s _ hinv; exact Or.inl ⟨s, rfl, hinv, le_refl _⟩
  | cons e rest ih =>
    intro s hes hinv
    unfold scanEdges
    cases h : scanEdge root s e with
    | error x =>
      right
      rcases scanEdge_error h with ⟨_, hn⟩ | ⟨qe, rfl⟩
      · exact absurd hn (hes e (List.mem_cons_self _ _)).2
      · exact ⟨qe, rfl⟩
    | ok s1 =>
      simp only []
      obtain ⟨hinv1, hm1⟩ := scanEdge_measure adj_edge_vec (hes e (List.mem_cons_self _ _)).1
        hinv h
      rcases ih s1 (fun x hx => hes x (List.mem_cons_of_mem _ hx)) hinv1 with
        ⟨s2, e2, hinv2, hm2⟩ | ⟨qe, e2⟩
      · exact Or.inl ⟨s2, e2, hinv2, le_trans hm2 hm1⟩
      · exact Or.inr ⟨qe, e2⟩

theorem iteration_result [Inhabited K] [LinearOrder K] (adj_edge_vec : List (List (Edge K)))
    (hinc : ∀ v e, e ∈ adj_edge_vec.getD v [] → otherEnd e v ≠ none) (s : PrimState K)
    (hinv : s.Q.capacity = s.dist_vec.length) (hsz : s.Q.cur_size ≠ 0) :
    (∃ s2, iteration adj_edge_vec s = .ok s2 ∧ s2.Q.capacity = s2.dist_vec.length ∧
      s2.Q.cur_size + pending adj_edge_vec s2.dist_vec + 1 ≤
        s.Q.cur_size + pending adj_edge_vec s.dist_vec) ∨
    ∃ qe, iteration adj_edge_vec s = .error (.queue qe) := by
  unfold iteration
  have htop : s.Q.Top = .ok (s.Q.heap_to_idx.getD IndexMinPQ.Root 0) := by
    unfold IndexMinPQ.Top IndexMinPQ.Size
    rw [if_neg hsz]
  have hpop := IndexMinPQ.Pop_eq s.Q hsz
  rw [htop, hpop]
  simp only [liftQ]
  have hf := IndexMinPQ.PercolateDown_frame s.Q.popped IndexMinPQ.Root
  rcases scanEdges_result adj_edge_vec (s.Q.heap_to_idx.getD IndexMinPQ.Root 0)
      (adj_edge_vec.getD (s.Q.heap_to_idx.getD IndexMinPQ.Root 0) [])
      { s with Q := s.Q.popped.PercolateDown IndexMinPQ.Root,
               marked_vec := s.marked_vec.set (s.Q.heap_to_idx.getD IndexMinPQ.Root 0) true }
      (fun e he => ⟨he, hinc _ e he⟩) (by rw [hf.1]; exact hinv) with
    ⟨s2, e2, hinv2, hm2⟩ | ⟨qe, e2⟩
  · refine Or.inl ⟨s2, e2, hinv2, ?_⟩
    have hs : (s.Q.popped.PercolateDown IndexMinPQ.Root).cur_size = s.Q.cur_size - 1 := hf.2.1
    simp only [hs] at hm2
    omega
  · exact Or.inr ⟨qe, e2⟩

/-- With a budget of at least the size of the queue plus the number of
entries that can still relax, the loop `while (Q.Size())` ends with an
empty queue or with an exception of the queue. -/
theorem whileLoop_result [Inhabited K] [LinearOrder K] (adj_edge_vec : List (List (Edge K)))
    (hinc : ∀ v e, e ∈ adj_edge_vec.getD v [] → otherEnd e v ≠ none) :
    ∀ (fuel : Nat) (s : PrimState K), s.Q.capacity = s.dist_vec.length →
      s.Q.cur_size + pending adj_edge_vec s.dist_vec ≤ fuel →
      (∃ s2, whileLoop adj_edge_vec fuel s = .ok s2 ∧ s2.Q.capacity = s2.dist_vec.length ∧
        s2.Q.cur_size = 0) ∨
      ∃ qe, whileLoop adj_edge_vec fuel s = .error (.queue qe) := by
  intro fuel
  induction fuel with
  | zero =>
    intro s hinv hm
    have h0 : s.Q.cur_size = 0 := by omega
    left
    refine ⟨s, ?_, hinv, h0⟩
    unfold whileLoop IndexMinPQ.Size
    rw [if_pos h0]
  | succ n ih =>
    intro s hinv hm
    rw [whileLoop_succ]
    by_cases h0 : s.Q.cur_size = 0
    · left
      refine ⟨s, ?_, hinv, h0⟩
      unfold IndexMinPQ.Size
      rw [if_pos h0]
    · have h0' : ¬ s.Q.Size = 0 := h0
      rw [if_neg h0']
      rcases iteration_result adj_edge_vec hinc s hinv h0 with ⟨s2, e2, hinv2, hm2⟩ | ⟨qe, e2⟩
      · rw [e2]
        exact ih s2 hinv2 (by omega)
      · rw [e2]
        exact Or.inr ⟨qe, rfl⟩

theorem visit_result [Inhabited K] [LinearOrder K] [Zero K]
    (adj_edge_vec : List (List (Edge K)))
    (hinc : ∀ v e, e ∈ adj_edge_vec.getD v [] → otherEnd e v ≠ none) (fuel : Nat)
    (hfuel : (adj_edge_vec.map List.length).sum + 1 ≤ fuel) (s : PrimState K) (v : Nat)
    (hinv : s.Q.capacity = s.dist_vec.length) (hsz : s.Q.cur_size = 0) :
    (∃ s2, visit adj_edge_vec fuel s v = .ok s2 ∧ s2.Q.capacity = s2.dist_vec.length ∧
      s2.Q.cur_size = 0) ∨
    ∃ qe, visit adj_edge_vec fuel s v = .error (.queue qe) := by
  unfold visit
  by_cases hm : s.marked_vec.getD v false = true
  · rw [if_pos hm]
    exact Or.inl ⟨s, rfl, hinv, hsz⟩
  · rw [if_neg hm]
    simp only []
    cases hp : s.Q.Push 0 v with
    | error x => exact Or.inr ⟨x, rfl⟩
    | ok q1 =>
      simp only [liftQ]
      obtain ⟨a, b⟩ := IndexMinPQ.Push_size hp
      apply whileLoop_result adj_edge_vec hinc
      · simp only [List.length_set]
        omega
      · have := pending_le adj_edge_vec (s.dist_vec.set v (some 0))
        simp only []
        omega

theorem visitAll_result [Inhabited K] [LinearOrder K] [Zero K]
    (adj_edge_vec : List (List (Edge K)))
    (hinc : ∀ v e, e ∈ adj_edge_vec.getD v [] → otherEnd e v ≠ none) (fuel : Nat)
    (hfuel : (adj_edge_vec.map List.length).sum + 1 ≤ fuel) :
    ∀ (vs : List Nat) (s : PrimState K), s.Q.capacity = s.dist_vec.length →
      s.Q.cur_size = 0 →
      (∃ s2, visitAll adj_edge_vec fuel s vs = .ok s2) ∨
      ∃ qe, visitAll adj_edge_vec fuel s vs = .error (.queue qe) := by
  intro vs
  induction vs with
  | nil => intro s _ _; exact Or.inl ⟨s, rfl⟩
  | cons v rest ih =>
    intro s hinv hsz
    unfold visitAll
    rcases visit_result adj_edge_vec hinc fuel hfuel s v hinv hsz with
      ⟨s2, e2, hinv2, hsz2⟩ | ⟨qe, e2⟩
    · rw [e2]
      exact ih s2 hinv2 hsz2
    · rw [e2]
      exact Or.inr ⟨qe, rfl⟩

/-- On a graph whose lists hold only edges incident to their vertex,
`BuildPrimMst` returns an array or stops with an exception of the queue:
the iteration budget is never used up. -/
theorem BuildPrimMst_result [Inhabited K] [LinearOrder K] [Zero K] (g : Graph K)
    (hinc : ∀ v e, e ∈ g.adj_edge_vec.getD v [] → e.src = v ∨ e.dst = v) :
    (∃ r, BuildPrimMst g = .ok r) ∨ ∃ qe, BuildPrimMst g = .error (.queue qe) := by
  unfold BuildPrimMst
  have hinc2 : ∀ v e, e ∈ g.adj_edge_vec.getD v [] → otherEnd e v ≠ none := by
    intro v e he hn
    obtain ⟨a, ha⟩ := otherEnd_some_of_incident (hinc v e he)
    rw [hn] at ha
    cases ha
  rcases visitAll_result g.adj_edge_vec hinc2 (budget g) (by unfold budget; omega)
      (List.range g.num_vertex) (init g) (by simp [init, IndexMinPQ.new]) rfl with
    ⟨s2, e2⟩ | ⟨qe, e2⟩
  · rw [e2]
    exact Or.inl ⟨_, rfl⟩
  · rw [e2]
    exact Or.inr ⟨qe, rfl⟩

end Prim

namespace IndexMinPQ

variable {K : Type}

/-- The model of `PercolateDown` satisfies the equation of its `while` loop
at every position, position 0 included. -/
theorem PercolateDown_loop_all [Inhabited K] [LinearOrder K] (q : IndexMinPQ K) (i : Nat) :
    q.PercolateDown i =
      if q.IsNode (LeftChild i) then
        if q.GreaterNode i (q.smallerChild i) then
          (q.SwapNodes i (q.smallerChild i)).PercolateDown (q.smallerChild i)
        else q
      else q := by
  by_cases hi : 1 ≤ i
  · exact PercolateDown_loop q i hi
  · have h0 : i = 0 := by omega
    subst h0
    unfold PercolateDown
    conv => lhs; unfold PercolateDownLoop
    by_cases hn : q.IsNode (LeftChild 0) = true
    · rw [if_pos hn, if_pos hn]
      simp only []
      by_cases hg : q.GreaterNode 0 (q.smallerChild 0) = true
      · rw [if_pos hg, if_pos hg]
        have hc : q.smallerChild 0 = 1 := by
          rcases smallerChild_cases q 0 with ⟨e, _⟩ | ⟨e, _, _⟩
          · rw [e] at hg
            simp [GreaterNode_self] at hg
          · exact e
        rw [hc]
        exact PercolateDownLoop_fuel _ _ _ _ (le_refl 1)
          (by simp only [SwapNodes_cur_size]; omega) (by simp only [SwapNodes_cur_size]; omega)
      · rw [if_neg hg, if_neg hg]
    · rw [if_neg hn, if_neg hn]

end IndexMinPQ

namespace Prim

variable {K : Type}

/-- C19 (termination). For every vertex count `n` and every list of input
edges with both endpoints below `n`, `BuildPrimMst` on the graph built by
the constructor returns an array or stops at an exception of the queue: no
run uses up its iteration budget. From every state whose queue has as many
slots as `dist_vec`, the loop `while (Q.Size())` ends within
`cur_size + pending` iterations, with an empty queue or with an exception
of the queue. `PercolateUp` and `PercolateDown` satisfy the equations of
their loops from every position of every queue state. -/
theorem C19_termination [Inhabited K] [LinearOrder K] [Zero K] (n : Nat)
    (edges : List (Edge K)) (_h : ∀ e ∈ edges, e.src < n ∧ e.dst < n) :
    ((∃ r, BuildPrimMst (Graph.ofInput n edges) = .ok r) ∨
      ∃ qe, BuildPrimMst (Graph.ofInput n edges) = .error (.queue qe)) ∧
    (∀ s : PrimState K, s.Q.capacity = s.dist_vec.length →
      (∃ s2, whileLoop (Graph.ofInput n edges).adj_edge_vec
          (s.Q.cur_size + pending (Graph.ofInput n edges).adj_edge_vec s.dist_vec) s = .ok s2 ∧
        s2.Q.cur_size = 0) ∨
      ∃ qe, whileLoop (Graph.ofInput n edges).adj_edge_vec
          (s.Q.cur_size + pending (Graph.ofInput n edges).adj_edge_vec s.dist_vec) s =
        .error (.queue qe)) ∧
    (∀ (q : IndexMinPQ K) (i : Nat),
      q.PercolateUp i =
        if IndexMinPQ.HasParent i && q.GreaterNode (IndexMinPQ.Parent i) i then
          (q.SwapNodes (IndexMinPQ.Parent i) i).PercolateUp (IndexMinPQ.Parent i)
        else q) ∧
    (∀ (q : IndexMinPQ K) (i : Nat),
      q.PercolateDown i =
        if q.IsNode (IndexMinPQ.LeftChild i) then
          if q.GreaterNode i (q.smallerChild i) then
            (q.SwapNodes i (q.smallerChild i)).PercolateDown (q.smallerChild i)
          else q
        else q) := by
  have hinc : ∀ v e, e ∈ (Graph.ofInput n edges).adj_edge_vec.getD v [] →
      e.src = v ∨ e.dst = v := fun v e he => (Graph.ofInput_mem n edges e v he).2
  have hinc2 : ∀ v e, e ∈ (Graph.ofInput n edges).adj_edge_vec.getD v [] →
      otherEnd e v ≠ none := by
    intro v e he hn
    obtain ⟨a, ha⟩ := otherEnd_some_of_incident (hinc v e he)
    rw [hn] at ha
    cases ha
  refine ⟨BuildPrimMst_result _ hinc, ?_, IndexMinPQ.PercolateUp_loop,
    IndexMinPQ.PercolateDown_loop_all⟩
  intro s hinv
  rcases whileLoop_result _ hinc2 _ s hinv (le_refl _) with ⟨s2, e2, _, hz⟩ | ⟨qe, e2⟩
  · exact Or.inl ⟨s2, e2, hz⟩
  · exact Or.inr ⟨qe, e2⟩

/-- C19, on the input of the end-to-end example. -/
theorem C19_termination_witness :
    (∀ e ∈ ([⟨0, 1, 2⟩, ⟨0, 2, 4⟩, ⟨1, 2, 1⟩, ⟨1, 3, 7⟩, ⟨2, 3, 3⟩, ⟨3, 4, 5⟩] :
        List (Edge Nat)), e.src < 5 ∧ e.dst < 5) ∧
    ((∃ r, BuildPrimMst (Graph.ofInput 5 ([⟨0, 1, 2⟩, ⟨0, 2, 4⟩, ⟨1, 2, 1⟩, ⟨1, 3, 7⟩,
        ⟨2, 3, 3⟩, ⟨3, 4, 5⟩] : List (Edge Nat))) = .ok r) ∨
      ∃ qe, BuildPrimMst (Graph.ofInput 5 ([⟨0, 1, 2⟩, ⟨0, 2, 4⟩, ⟨1, 2, 1⟩, ⟨1, 3, 7⟩,
        ⟨2, 3, 3⟩, ⟨3, 4, 5⟩] : List (Edge Nat))) = .error (.queue qe)) :=
  ⟨by decide,
    (C19_termination 5 [⟨0, 1, 2⟩, ⟨0, 2, 4⟩, ⟨1, 2, 1⟩, ⟨1, 3, 7⟩, ⟨2, 3, 3⟩, ⟨3, 4, 5⟩]
      (by decide)).1⟩

end Prim

/-! ## Queues of at most two entries -/

namespace IndexMinPQ

variable {K : Type}

theorem Tame.live_cases {q : IndexMinPQ K} (ht : Tame q) {idx : Nat} (h : Live q idx) :
    (1 ≤ q.cur_size ∧ idx = q.heap_to_idx.getD 1 0) ∨
    (q.cur_size = 2 ∧ idx = q.heap_to_idx.getD 2 0) := by
  obtain ⟨p, h1, h2, h3⟩ := h
  have := ht.small
  have hp : p = 1 ∨ p = 2 := by omega
  rcases hp with rfl | rfl
  · exact Or.inl ⟨h2, h3.symm⟩
  · exact Or.inr ⟨by omega, h3.symm⟩

theorem Tame.pos_of_live {q : IndexMinPQ K} (ht : Tame q) {idx : Nat} (h : Live q idx) :
    q.idx_to_heap.getD idx 0 = 1 ∨ q.idx_to_heap.getD idx 0 = 2 := by
  rcases ht.live_cases h with ⟨h1, rfl⟩ | ⟨h1, rfl⟩
  · rcases ht.pos1 h1 with e | ⟨e, _⟩
    · exact Or.inl e
    · exact Or.inr e
  · exact Or.inr (ht.pos2 h1)

theorem Tame.idx_lt {q : IndexMinPQ K} (ht : Tame q) {idx : Nat} (h : Live q idx) :
    idx < q.capacity := by
  obtain ⟨p, h1, h2, h3⟩ := h
  rw [← h3]
  exact ht.shape.live_lt p h1 h2

/-- In a tame state `Contains` reports exactly the live indices. -/
theorem Tame.reported_iff {q : IndexMinPQ K} (ht : Tame q) {idx : Nat}
    (hlt : idx < q.capacity) : q.idx_to_heap.getD idx 0 ≠ 0 ↔ Live q idx := by
  constructor
  · exact ht.reported idx hlt
  · intro h
    rcases ht.pos_of_live h with e | e <;> omega

theorem Tame.size_eq_zero {q : IndexMinPQ K} (h : ∀ x, ¬ Live q x) : q.cur_size = 0 := by
  by_contra h0
  exact h _ ⟨1, le_refl _, by omega, rfl⟩

theorem Tame.of_swap {q : IndexMinPQ K} (ht : Tame q) (h2 : q.cur_size = 2) :
    Tame (q.SwapNodes 1 2) ∧ ∀ x, Live (q.SwapNodes 1 2) x ↔ Live q x := by
  have hst := Inj_swapStable (fun x => Live q x) q 1 2 (le_refl _) (by omega) (by omega)
    (by omega) (by omega) ⟨ht.shape, ht.inj, fun _ => Iff.rfl⟩
  have hl1 := ht.shape.pos_lt (show 1 ≤ q.cur_size by omega)
  have hl2 := ht.shape.pos_lt (show 2 ≤ q.cur_size by omega)
  have ht1 := ht.shape.live_idx_lt (le_refl 1) (show 1 ≤ q.cur_size by omega)
  have ht2 := ht.shape.live_idx_lt (show 1 ≤ 2 by omega) (show 2 ≤ q.cur_size by omega)
  have hne : q.heap_to_idx.getD 1 0 ≠ q.heap_to_idx.getD 2 0 := by
    intro e
    have := ht.inj 1 2 (le_refl _) (by omega) (by omega) (by omega) e
    omega
  have hT : ∀ x, (q.SwapNodes 1 2).idx_to_heap.getD x 0 =
      if x = q.heap_to_idx.getD 1 0 then 2
      else if x = q.heap_to_idx.getD 2 0 then 1 else q.idx_to_heap.getD x 0 :=
    fun x => SwapNodes_t q 1 2 x (by omega) hl1 hl2 ht1 ht2
  have hH1 : (q.SwapNodes 1 2).heap_to_idx.getD 1 0 = q.heap_to_idx.getD 2 0 := by
    rw [SwapNodes_h q 1 2 1 hl1 hl2, if_neg (by omega), if_pos rfl]
  have hH2 : (q.SwapNodes 1 2).heap_to_idx.getD 2 0 = q.heap_to_idx.getD 1 0 := by
    rw [SwapNodes_h q 1 2 2 hl1 hl2, if_pos rfl]
  refine ⟨⟨hst.1, ht.small, hst.2.1, ?_, ?_, ?_⟩, hst.2.2⟩
  · intro idx hlt hnz
    rw [hst.2.2]
    rw [hT] at hnz
    by_cases e1 : idx = q.heap_to_idx.getD 1 0
    · exact ⟨1, le_refl _, by omega, e1.symm⟩
    · by_cases e2 : idx = q.heap_to_idx.getD 2 0
      · exact ⟨2, by omega, by omega, e2.symm⟩
      · rw [if_neg e1, if_neg e2] at hnz
        exact ht.reported idx hlt hnz
  · intro _
    left
    rw [hH1, hT, if_neg (Ne.symm hne), if_pos rfl]
  · intro _
    rw [hH2, hT, if_pos rfl]

theorem PercolateUp_one [Inhabited K] [LinearOrder K] (q : IndexMinPQ K) :
    q.PercolateUp 1 = q := by
  rw [PercolateUp_loop, if_neg]
  simp [HasParent, Root]

/-- In a queue of at most two entries `PercolateUp` from position 1 or 2
does nothing or exchanges the positions 1 and 2. -/
theorem PercolateUp_small [Inhabited K] [LinearOrder K] (q : IndexMinPQ K) {p : Nat}
    (hp : p = 1 ∨ p = 2)
    (hstale : q.cur_size ≠ 2 → q.heap_to_idx.getD 2 0 = q.heap_to_idx.getD 1 0) :
    q.PercolateUp p = q ∨ (q.cur_size = 2 ∧ q.PercolateUp p = q.SwapNodes 1 2) := by
  rcases hp with rfl | rfl
  · exact Or.inl (PercolateUp_one q)
  · rw [PercolateUp_loop]
    by_cases hc : (HasParent 2 && q.GreaterNode (Parent 2) 2) = true
    · rw [if_pos hc]
      right
      have hP : Parent 2 = 1 := rfl
      rw [hP] at hc ⊢
      rw [PercolateUp_one]
      refine ⟨?_, rfl⟩
      by_contra h2
      rw [Bool.and_eq_true] at hc
      have hlt := GreaterNode_true hc.2
      unfold keyAt at hlt
      rw [hstale h2] at hlt
      exact lt_irrefl _ hlt
    · rw [if_neg hc]
      exact Or.inl rfl

/-- In a queue of at most two entries `PercolateDown` from position 1 or 2
does nothing or exchanges the positions 1 and 2. -/
theorem PercolateDown_small [Inhabited K] [LinearOrder K] (q : IndexMinPQ K) {p : Nat}
    (hp : p = 1 ∨ p = 2) (hsz : q.cur_size ≤ 2) :
    q.PercolateDown p = q ∨ (q.cur_size = 2 ∧ q.PercolateDown p = q.SwapNodes 1 2) := by
  have hleaf : ∀ s : IndexMinPQ K, s.cur_size ≤ 2 → s.PercolateDown 2 = s := by
    intro s hs
    rw [PercolateDown_loop s 2 (by omega), if_neg]
    intro h
    have := IsNode_true h
    unfold LeftChild at this
    omega
  rcases hp with rfl | rfl
  · rw [PercolateDown_loop q 1 (le_refl _)]
    by_cases hn : q.IsNode (LeftChild 1) = true
    · rw [if_pos hn]
      have h2 : q.cur_size = 2 := by
        have := IsNode_true hn
        unfold LeftChild at this
        omega
      have hc : q.smallerChild 1 = 2 := by
        rcases smallerChild_cases q 1 with ⟨e, _⟩ | ⟨_, h3, _⟩
        · exact e
        · omega
      rw [hc]
      by_cases hg : q.GreaterNode 1 2 = true
      · rw [if_pos hg]
        right
        exact ⟨h2, hleaf _ (by simp only [SwapNodes_cur_size]; omega)⟩
      · rw [if_neg hg]
        exact Or.inl rfl
    · rw [if_neg hn]
      exact Or.inl rfl
  · exact Or.inl (hleaf q hsz)

end IndexMinPQ

namespace IndexMinPQ

variable {K : Type}

theorem new_tame [Inhabited K] (C : Nat) : Tame (new C : IndexMinPQ K) := by
  refine ⟨⟨?_, ?_, ?_, Nat.zero_le _, ?_⟩, Nat.zero_le _, ?_, ?_, ?_, ?_⟩
  · simp [new]
  · simp [new]
  · simp [new]
  · intro p h1 h2
    have : p ≤ 0 := h2
    omega
  · intro p p2 h1 h2
    have : p ≤ 0 := h2
    omega
  · intro idx _ h
    exact absurd (getD_replicate_eq C idx 0) h
  · intro h
    have : 1 ≤ 0 := h
    omega
  · intro h
    have : 0 = 2 := h
    omega

theorem Tame.of_rekeyed {q : IndexMinPQ K} (ht : Tame q) (key : K) (idx : Nat) :
    Tame (q.rekeyed key idx) :=
  ⟨⟨by simp only [IndexMinPQ.rekeyed, List.length_set]; exact ht.shape.keys_len,
      ht.shape.h_len, ht.shape.t_len, ht.shape.size_le, ht.shape.live_lt⟩,
    ht.small, ht.inj, ht.reported, ht.pos1, ht.pos2⟩

/-- On a tame queue `ChangeKey` of a reported index succeeds, keeps the
queue tame and keeps the live indices. -/
theorem Tame.of_changeKey [Inhabited K] [LinearOrder K] {q : IndexMinPQ K} (ht : Tame q)
    (key : K) {idx : Nat} (h1 : idx < q.capacity) (h2 : q.idx_to_heap.getD idx 0 ≠ 0) :
    ∃ q2, q.ChangeKey key idx = .ok q2 ∧ Tame q2 ∧ (∀ x, Live q2 x ↔ Live q x) ∧
      q2.capacity = q.capacity := by
  refine ⟨_, ChangeKey_eq q key idx h1 h2, ?_⟩
  have hlive : Live q idx := ht.reported idx h1 h2
  have ht1 : Tame (q.rekeyed key idx) := ht.of_rekeyed key idx
  have hp := ht.pos_of_live hlive
  have hup : ∃ q2, (q.rekeyed key idx).PercolateUp (q.idx_to_heap.getD idx 0) = q2 ∧
      Tame q2 ∧ (∀ x, Live q2 x ↔ Live q x) ∧ q2.capacity = q.capacity := by
    rcases hp with e | e
    · rw [e, PercolateUp_one]
      exact ⟨_, rfl, ht1, fun _ => Iff.rfl, rfl⟩
    · have hstale : (q.rekeyed key idx).cur_size ≠ 2 →
          (q.rekeyed key idx).heap_to_idx.getD 2 0 =
            (q.rekeyed key idx).heap_to_idx.getD 1 0 := by
        intro hne
        have hne2 : q.cur_size ≠ 2 := hne
        rcases ht.live_cases hlive with ⟨a, b⟩ | ⟨a, _⟩
        · rcases ht.pos1 a with c | ⟨_, d⟩
          · rw [← b] at c
            omega
          · have := ht.small
            exact d (by omega)
        · exact absurd a hne2
      rcases PercolateUp_small (q.rekeyed key idx) (Or.inr e) hstale with r | ⟨r1, r2⟩
      · rw [r]
        exact ⟨_, rfl, ht1, fun _ => Iff.rfl, rfl⟩
      · rw [r2]
        obtain ⟨a, b⟩ := ht1.of_swap r1
        exact ⟨_, rfl, a, b, rfl⟩
  obtain ⟨q2, e2, ht2, hl2, hc2⟩ := hup
  rw [e2]
  have hp2 := ht2.pos_of_live ((hl2 idx).2 hlive)
  rcases PercolateDown_small q2 hp2 ht2.small with r | ⟨r1, r2⟩
  · rw [r]
    exact ⟨ht2, hl2, hc2⟩
  · rw [r2]
    obtain ⟨a, b⟩ := ht2.of_swap r1
    exact ⟨a, fun x => (b x).trans (hl2 x), hc2⟩

theorem popped_live {q : IndexMinPQ K} (hs : Shape q) (hinj : Inj q) (hsz : 1 ≤ q.cur_size) :
    Shape q.popped ∧ Inj q.popped ∧
      ∀ idx, Live q.popped idx ↔ (Live q idx ∧ idx ≠ q.heap_to_idx.getD 1 0) := by
  refine ⟨?_, ?_, ?_⟩
  · refine ⟨hs.keys_len, ?_, ?_, ?_, ?_⟩
    · simp only [popped, List.length_set]; exact hs.h_len
    · simp only [popped, List.length_set]; exact hs.t_len
    · have := hs.size_le
      show q.cur_size - 1 ≤ q.capacity
      omega
    · intro p p1 p2
      have p2' : p ≤ q.cur_size - 1 := p2
      rw [popped_h hs hsz p]
      apply hs.live_lt
      · unfold popPos; split_ifs <;> omega
      · unfold popPos; split_ifs <;> omega
  · intro p p2 a1 a2 a3 a4 he
    have a2' : p ≤ q.cur_size - 1 := a2
    have a4' : p2 ≤ q.cur_size - 1 := a4
    rw [popped_h hs hsz p, popped_h hs hsz p2] at he
    have := hinj _ _ (by unfold popPos; split_ifs <;> omega)
      (by unfold popPos; split_ifs <;> omega) (by unfold popPos; split_ifs <;> omega)
      (by unfold popPos; split_ifs <;> omega) he
    unfold popPos at this
    split_ifs at this <;> omega
  · intro idx
    constructor
    · rintro ⟨p, a1, a2, a3⟩
      have a2' : p ≤ q.cur_size - 1 := a2
      rw [popped_h hs hsz p] at a3
      have b1 : 1 ≤ popPos q.cur_size p := by unfold popPos; split_ifs <;> omega
      have b2 : popPos q.cur_size p ≤ q.cur_size := by unfold popPos; split_ifs <;> omega
      have b3 : popPos q.cur_size p ≠ 1 := by unfold popPos; split_ifs <;> omega
      refine ⟨⟨_, b1, b2, a3⟩, fun he => b3 ?_⟩
      exact hinj _ _ b1 b2 (le_refl _) hsz (by rw [a3, he])
    · rintro ⟨⟨p, a1, a2, a3⟩, hne⟩
      have hp : p ≠ 1 := fun e => hne (by rw [← a3, e])
      by_cases e : p = q.cur_size
      · refine ⟨1, le_refl _, (by show 1 ≤ q.cur_size - 1; omega), ?_⟩
        rw [popped_h hs hsz 1]
        unfold popPos
        rw [if_pos rfl, ← e]; exact a3
      · refine ⟨p, a1, (by show p ≤ q.cur_size - 1; omega), ?_⟩
        rw [popped_h hs hsz p]
        unfold popPos
        rw [if_neg hp]; exact a3

/-- On a tame queue that is not empty `Top` returns a live index and `Pop`
succeeds, keeps the queue tame and removes that index from the live
ones. -/
theorem Tame.of_pop [Inhabited K] [LinearOrder K] {q : IndexMinPQ K} (ht : Tame q)
    (hsz : 1 ≤ q.cur_size) :
    q.Top = .ok (q.heap_to_idx.getD 1 0) ∧ Live q (q.heap_to_idx.getD 1 0) ∧
    ∃ q2, q.Pop = .ok q2 ∧ Tame q2 ∧
      (∀ x, Live q2 x ↔ (Live q x ∧ x ≠ q.heap_to_idx.getD 1 0)) ∧
      q2.capacity = q.capacity := by
  have htop : q.Top = .ok (q.heap_to_idx.getD 1 0) := by
    unfold Top Size
    rw [if_neg (by omega)]
    rfl
  refine ⟨htop, ⟨1, le_refl _, hsz, rfl⟩, _, Pop_eq q (by omega), ?_⟩
  obtain ⟨hs1, hi1, hl1⟩ := popped_live ht.shape ht.inj hsz
  have hsmall : q.popped.cur_size ≤ 1 := by
    have := ht.small
    show q.cur_size - 1 ≤ 1
    omega
  have hdown : q.popped.PercolateDown Root = q.popped := by
    rcases PercolateDown_small q.popped (Or.inl rfl) (by omega) with r | ⟨r1, _⟩
    · exact r
    · omega
  rw [hdown]
  have htl := ht.shape.t_len
  have hroot := ht.shape.live_lt 1 (le_refl _) hsz
  have hT : ∀ x, q.popped.idx_to_heap.getD x 0 =
      if x = q.heap_to_idx.getD 1 0 then 0 else q.idx_to_heap.getD x 0 := by
    intro x
    simp only [popped, Root, getD_set_eq_ite]
    by_cases e : x = q.heap_to_idx.getD 1 0
    · rw [if_pos e, if_pos ⟨e.symm, by omega⟩]
    · rw [if_neg e, if_neg (fun h => e h.1.symm)]
  refine ⟨⟨hs1, by omega, hi1, ?_, ?_, ?_⟩, hl1, rfl⟩
  · intro idx hlt hnz
    rw [hT] at hnz
    by_cases e : idx = q.heap_to_idx.getD 1 0
    · rw [if_pos e] at hnz
      exact absurd rfl hnz
    · rw [if_neg e] at hnz
      exact (hl1 idx).2 ⟨ht.reported idx hlt hnz, e⟩
  · intro h1
    have h1' : 1 ≤ q.cur_size - 1 := h1
    have h2 : q.cur_size = 2 := by
      have := ht.small
      omega
    right
    have e1 : q.popped.heap_to_idx.getD 1 0 = q.heap_to_idx.getD 2 0 := by
      rw [popped_h ht.shape hsz 1]
      unfold popPos
      rw [if_pos rfl, h2]
    have e2 : q.popped.heap_to_idx.getD 2 0 = q.heap_to_idx.getD 2 0 := by
      rw [popped_h ht.shape hsz 2]
      unfold popPos
      rw [if_neg (by omega)]
    have hne : q.heap_to_idx.getD 2 0 ≠ q.heap_to_idx.getD 1 0 := by
      intro e
      have := ht.inj 2 1 (by omega) (by omega) (le_refl _) hsz e
      omega
    rw [e1, e2, hT, if_neg hne]
    exact ⟨ht.pos2 h2, fun _ => rfl⟩
  · intro h2
    have : q.cur_size - 1 = 2 := h2
    omega

end IndexMinPQ

namespace IndexMinPQ

variable {K : Type}

/-- On a tame queue of at most one entry `Push` of an index that is not
reported succeeds, keeps the queue tame and adds the index to the live
ones. -/
theorem Tame.of_push [Inhabited K] [LinearOrder K] {q : IndexMinPQ K} (ht : Tame q)
    (hsz : q.cur_size ≤ 1) (key : K) {idx : Nat} (h1 : idx < q.capacity)
    (h2 : q.idx_to_heap.getD idx 0 = 0) :
    ∃ q2, q.Push key idx = .ok q2 ∧ Tame q2 ∧ (∀ x, Live q2 x ↔ (x = idx ∨ Live q x)) ∧
      q2.capacity = q.capacity := by
  refine ⟨_, Push_eq q key idx h1 h2, ?_⟩
  have hl := ht.shape.h_len
  have tl := ht.shape.t_len
  have hfresh : ∀ p, 1 ≤ p → p ≤ q.cur_size → q.heap_to_idx.getD p 0 ≠ idx := by
    intro p a b e
    have hlive : Live q idx := ⟨p, a, b, e⟩
    exact (ht.reported_iff (ht.idx_lt hlive)).2 hlive h2
  have hcap : q.cur_size < q.capacity := by
    rcases Nat.eq_zero_or_pos q.cur_size with e | e
    · omega
    · have a := ht.shape.live_lt 1 (le_refl _) e
      have b := hfresh 1 (le_refl _) e
      omega
  have hH : ∀ p, (q.pushed key idx).heap_to_idx.getD p 0 =
      if p = q.cur_size + 1 then idx else q.heap_to_idx.getD p 0 := by
    intro p
    simp only [pushed, getD_set_eq_ite]
    by_cases e : p = q.cur_size + 1
    · rw [if_pos e, if_pos ⟨e.symm, by omega⟩]
    · rw [if_neg e, if_neg (fun h => e h.1.symm)]
  have hT : ∀ x, (q.pushed key idx).idx_to_heap.getD x 0 =
      if x = idx then q.cur_size + 1 else q.idx_to_heap.getD x 0 := by
    intro x
    simp only [pushed, getD_set_eq_ite]
    by_cases e : x = idx
    · rw [if_pos e, if_pos ⟨e.symm, by omega⟩]
    · rw [if_neg e, if_neg (fun h => e h.1.symm)]
  have hsize : (q.pushed key idx).cur_size = q.cur_size + 1 := rfl
  have hlive1 : ∀ x, Live (q.pushed key idx) x ↔ (x = idx ∨ Live q x) := by
    intro x
    constructor
    · rintro ⟨p, a, b, c⟩
      rw [hsize] at b
      rw [hH] at c
      by_cases e : p = q.cur_size + 1
      · rw [if_pos e] at c
        exact Or.inl c.symm
      · rw [if_neg e] at c
        exact Or.inr ⟨p, a, by omega, c⟩
    · rintro (e | ⟨p, a, b, c⟩)
      · refine ⟨q.cur_size + 1, by omega, le_refl _, ?_⟩
        rw [hH, if_pos rfl, e]
      · refine ⟨p, a, (by rw [hsize]; omega), ?_⟩
        rw [hH, if_neg (by omega)]
        exact c
  have ht1 : Tame (q.pushed key idx) := by
    refine ⟨pushed_shape ht.shape key h1 hcap, by rw [hsize]; omega, ?_, ?_, ?_, ?_⟩
    · intro p p2 a1 a2 a3 a4 he
      rw [hsize] at a2 a4
      rw [hH, hH] at he
      by_cases e : p = q.cur_size + 1
      · by_cases e2 : p2 = q.cur_size + 1
        · omega
        · rw [if_pos e, if_neg e2] at he
          exact absurd he.symm (hfresh p2 a3 (by omega))
      · by_cases e2 : p2 = q.cur_size + 1
        · rw [if_neg e, if_pos e2] at he
          exact absurd he (hfresh p a1 (by omega))
        · rw [if_neg e, if_neg e2] at he
          exact ht.inj p p2 a1 (by omega) a3 (by omega) he
    · intro x hx hnz
      rw [hT] at hnz
      by_cases e : x = idx
      · exact (hlive1 x).2 (Or.inl e)
      · rw [if_neg e] at hnz
        exact (hlive1 x).2 (Or.inr (ht.reported x hx hnz))
    · intro _
      rcases Nat.eq_zero_or_pos q.cur_size with e | e
      · left
        rw [hH, if_pos (by omega), hT, if_pos rfl]
        omega
      · have hne := hfresh 1 (le_refl _) e
        rw [hH, if_neg (by omega), hT, if_neg hne]
        rcases ht.pos1 e with c | ⟨c, _⟩
        · exact Or.inl c
        · refine Or.inr ⟨c, fun h => ?_⟩
          rw [hsize] at h
          omega
    · intro h
      rw [hsize] at h
      rw [hH, if_pos (by omega), hT, if_pos rfl]
      omega
  rcases Nat.eq_zero_or_pos q.cur_size with e | e
  · rw [e]
    show Tame ((q.pushed key idx).PercolateUp 1) ∧ _
    rw [PercolateUp_one]
    exact ⟨ht1, hlive1, rfl⟩
  · have hstale : (q.pushed key idx).cur_size ≠ 2 →
        (q.pushed key idx).heap_to_idx.getD 2 0 = (q.pushed key idx).heap_to_idx.getD 1 0 := by
      intro h
      rw [hsize] at h
      omega
    have hp : q.cur_size + 1 = 1 ∨ q.cur_size + 1 = 2 := by omega
    rcases PercolateUp_small (q.pushed key idx) hp hstale with r | ⟨r1, r2⟩
    · rw [r]
      exact ⟨ht1, hlive1, rfl⟩
    · rw [r2]
      obtain ⟨a, b⟩ := ht1.of_swap r1
      exact ⟨a, fun x => (b x).trans (hlive1 x), rfl⟩

end IndexMinPQ

namespace Prim

variable {K : Type}

/-! ## Graphs whose components have at most three vertices -/

theorem Conn.refl (g : Graph K) (v : Nat) : Conn g v v := Relation.ReflTransGen.refl

theorem mem_edges {g : Graph K} {v : Nat} {e : Edge K} (hv : v < g.adj_edge_vec.length)
    (he : e ∈ g.adj_edge_vec.getD v []) : e ∈ g.edges := by
  unfold Graph.edges
  rw [List.mem_flatten]
  refine ⟨g.adj_edge_vec.getD v [], ?_, he⟩
  rw [List.getD_eq_getElem _ _ hv]
  exact List.getElem_mem _

theorem mem_edges_inv {g : Graph K} {e : Edge K} (he : e ∈ g.edges) :
    ∃ v, v < g.adj_edge_vec.length ∧ e ∈ g.adj_edge_vec.getD v [] := by
  unfold Graph.edges at he
  rw [List.mem_flatten] at he
  obtain ⟨l, hl, hel⟩ := he
  obtain ⟨i, hi, rfl⟩ := List.getElem_of_mem hl
  exact ⟨i, hi, by rw [List.getD_eq_getElem _ _ hi]; exact hel⟩

/-- In a well-formed graph an edge of the list of `root` leads to another
vertex, in whose list it is stored too. -/
theorem otherEnd_wf [LinearOrder K] [Zero K] {g : Graph K} (hwf : g.WellFormed) {root : Nat}
    (hlt : root < g.num_vertex) {e : Edge K} (he : e ∈ g.adj_edge_vec.getD root []) :
    ∃ adj, otherEnd e root = some adj ∧ adj < g.num_vertex ∧ adj ≠ root ∧
      e ∈ g.adj_edge_vec.getD adj [] ∧ Conn g root adj := by
  obtain ⟨hlen, hall⟩ := hwf
  obtain ⟨h1, h2, h3, h4, _, h6, h7⟩ := hall root hlt e he
  have hmem : e ∈ g.edges := mem_edges (by omega) he
  unfold otherEnd
  by_cases hd : e.dst = root
  · rw [if_pos hd]
    refine ⟨_, rfl, h1, fun h => h4 (by rw [h, hd]), h6, ?_⟩
    rw [← hd]
    exact (Joined.of_edge hmem).symm
  · have hs : e.src = root := h3.resolve_right hd
    rw [if_neg hd, if_pos hs]
    refine ⟨_, rfl, h2, hd, h7, ?_⟩
    rw [← hs]
    exact Joined.of_edge hmem

/-- In a well-formed graph a step along a stored edge is a step along an
edge of the list of its start. -/
theorem Step.to_otherEnd [LinearOrder K] [Zero K] {g : Graph K} (hwf : g.WellFormed)
    {a b : Nat} (h : Step g.edges a b) :
    a < g.num_vertex ∧ b < g.num_vertex ∧
      ∃ e ∈ g.adj_edge_vec.getD a [], otherEnd e a = some b := by
  obtain ⟨e, he, hor⟩ := h
  obtain ⟨v, hv, hev⟩ := mem_edges_inv he
  obtain ⟨hlen, hall⟩ := hwf
  obtain ⟨h1, h2, _, h4, _, h6, h7⟩ := hall v (by omega) e hev
  rcases hor with ⟨rfl, rfl⟩ | ⟨rfl, rfl⟩
  · refine ⟨h1, h2, e, h6, ?_⟩
    unfold otherEnd
    rw [if_neg (fun h => h4 h.symm), if_pos rfl]
  · refine ⟨h2, h1, e, h7, ?_⟩
    unfold otherEnd
    rw [if_pos rfl]

theorem Conn.lt [LinearOrder K] [Zero K] {g : Graph K} (hwf : g.WellFormed) {u v : Nat}
    (h : Conn g u v) (hu : u < g.num_vertex) : v < g.num_vertex := by
  induction h with
  | refl => exact hu
  | tail _ hstep _ => exact (Step.to_otherEnd hwf hstep).2.1

theorem Entry.set [Zero K] {g : Graph K} {r0 : Nat} {best : List (Edge K)} {x adj : Nat}
    (e : Edge K) (hne : x ≠ adj) (h : Entry g r0 best x) : Entry g r0 (best.set adj e) x := by
  unfold Entry at h ⊢
  rw [getD_set_eq_ite, if_neg (fun c => hne c.1.symm)]
  exact h

end Prim

namespace IndexMinPQ

variable {K : Type}

/-- A tame queue whose live indices lie in a set of at most three elements,
two of which are not live, has at most one entry. -/
theorem Tame.at_most_one {q : IndexMinPQ K} (ht : Tame q) (X : Finset Nat) (hX : X.card ≤ 3)
    (hsub : ∀ x, Live q x → x ∈ X) {a b : Nat} (ha : a ∈ X) (hb : b ∈ X) (hab : a ≠ b)
    (hna : ¬ Live q a) (hnb : ¬ Live q b) : q.cur_size ≤ 1 := by
  by_contra hc
  have h2 : q.cur_size = 2 := by
    have := ht.small
    omega
  have l1 : Live q (q.heap_to_idx.getD 1 0) := ⟨1, le_refl _, by omega, rfl⟩
  have l2 : Live q (q.heap_to_idx.getD 2 0) := ⟨2, by omega, by omega, rfl⟩
  have hne : q.heap_to_idx.getD 1 0 ≠ q.heap_to_idx.getD 2 0 := by
    intro e
    have := ht.inj 1 2 (le_refl _) (by omega) (by omega) (by omega) e
    omega
  have h1a : q.heap_to_idx.getD 1 0 ≠ a := fun e => hna (e ▸ l1)
  have h1b : q.heap_to_idx.getD 1 0 ≠ b := fun e => hnb (e ▸ l1)
  have h2a : q.heap_to_idx.getD 2 0 ≠ a := fun e => hna (e ▸ l2)
  have h2b : q.heap_to_idx.getD 2 0 ≠ b := fun e => hnb (e ▸ l2)
  have hnd : [q.heap_to_idx.getD 1 0, q.heap_to_idx.getD 2 0, a, b].Nodup := by
    simp only [List.nodup_cons, List.mem_cons, List.mem_singleton, List.not_mem_nil,
      List.nodup_nil, not_or, or_false, not_false_eq_true, and_true]
    exact ⟨⟨hne, h1a, h1b⟩, ⟨h2a, h2b⟩, hab⟩
  have hcard := List.toFinset_card_of_nodup hnd
  have hsubset : [q.heap_to_idx.getD 1 0, q.heap_to_idx.getD 2 0, a, b].toFinset ⊆ X := by
    intro x hx
    simp only [List.mem_toFinset, List.mem_cons, List.mem_singleton, List.not_mem_nil,
      or_false] at hx
    rcases hx with rfl | rfl | rfl | rfl
    · exact hsub _ l1
    · exact hsub _ l2
    · exact ha
    · exact hb
  have := Finset.card_le_card hsubset
  rw [hcard] at this
  simp only [List.length_cons, List.length_nil] at this
  omega

end IndexMinPQ

namespace Prim

variable {K : Type}

/-- A relaxation of the unmarked vertex `adj` that keeps the queue tame and
makes `adj` live keeps the state of the search. -/
theorem Frontier.relax [Zero K] {g : Graph K} {r0 root adj : Nat} {s0 s : PrimState K}
    {e : Edge K} (hf : Frontier g r0 root s0 s) (hr0 : s.marked_vec.getD r0 false = true)
    (hmf : s.marked_vec.getD adj false = false) (hadj : adj < g.num_vertex)
    (hea : e ∈ g.adj_edge_vec.getD adj []) (hca : Conn g r0 adj) {q1 : IndexMinPQ K}
    (ht1 : IndexMinPQ.Tame q1) (hc1 : q1.capacity = s.Q.capacity)
    (hl1 : ∀ x, IndexMinPQ.Live q1 x ↔ (x = adj ∨ IndexMinPQ.Live s.Q x)) :
    Frontier g r0 root s0
      { s with Q := q1, dist_vec := s.dist_vec.set adj (some e.weight),
               best_edge_vec := s.best_edge_vec.set adj e } := by
  have hne0 : adj ≠ r0 := by
    intro h
    rw [h, hr0] at hmf
    cases hmf
  have hbest : ∀ x, x ≠ adj →
      (s.best_edge_vec.set adj e).getD x ⟨0, 0, 0⟩ = s.best_edge_vec.getD x ⟨0, 0, 0⟩ := by
    intro x hx
    rw [getD_set_eq_ite, if_neg (fun c => hx c.1.symm)]
  have hmarked : ∀ x, s.marked_vec.getD x false = true → x ≠ adj := by
    intro x hx h
    rw [h, hmf] at hx
    cases hx
  refine ⟨ht1, by rw [hc1]; exact hf.cap, ?_, hf.marked_len, ?_, ?_, ?_, ?_, ?_, ?_, Or.inl hr0⟩
  · simp only [List.length_set]
    exact hf.dist_len
  · simp only [List.length_set]
    exact hf.best_len
  · intro x hx
    by_cases hxa : x = adj
    · subst hxa
      refine ⟨hmf, hca, fun h => absurd h hne0, fun _ => ?_⟩
      show (s.best_edge_vec.set x e).getD x ⟨0, 0, 0⟩ ∈ _
      rw [getD_set_eq_ite, if_pos ⟨rfl, by rw [hf.best_len]; exact hadj⟩]
      exact hea
    · have h : IndexMinPQ.Live s.Q x := ((hl1 x).1 hx).resolve_left hxa
      obtain ⟨a, b, c⟩ := hf.live x h
      exact ⟨a, b, c.set e hxa⟩
  · intro x hlt hm hnl
    have hx : x ≠ adj := fun h => hnl ((hl1 x).2 (Or.inl h))
    have hnl2 : ¬ IndexMinPQ.Live s.Q x := fun h => hnl ((hl1 x).2 (Or.inr h))
    obtain ⟨a, b⟩ := hf.fresh x hlt hm hnl2
    refine ⟨?_, ?_⟩
    · show (s.dist_vec.set adj (some e.weight)).getD x none = none
      rw [getD_set_eq_ite, if_neg (fun c => hx c.1.symm)]
      exact a
    · show (s.best_edge_vec.set adj e).getD x ⟨0, 0, 0⟩ = _
      rw [hbest x hx]
      exact b
  · intro x h0
    obtain ⟨a, b⟩ := hf.old x h0
    refine ⟨a, ?_⟩
    show (s.best_edge_vec.set adj e).getD x ⟨0, 0, 0⟩ = _
    rw [hbest x (hmarked x a)]
    exact b
  · intro x h0 hm
    obtain ⟨a, b⟩ := hf.reached x h0 hm
    exact ⟨a, b.set e (hmarked x hm)⟩
  · intro x h0 hm hsk e2 he2 y hy
    rcases hf.closed x h0 hm hsk e2 he2 y hy with h | h
    · exact Or.inl h
    · exact Or.inr ((hl1 y).2 (Or.inr h))

/-- One scan of an edge of the marked vertex `root`, in a component of at
most three vertices: the scan returns normally, keeps the state of the
search, and leaves the other end of the edge marked or live. -/
theorem Frontier.scanEdge_step [Inhabited K] [LinearOrder K] [Zero K] {g : Graph K}
    (hwf : g.WellFormed) {r0 root : Nat} {s0 s : PrimState K} (X : Finset Nat)
    (hX : X.card ≤ 3) (hXc : ∀ x, Conn g r0 x → x ∈ X) (hf : Frontier g r0 root s0 s)
    (hr0 : s.marked_vec.getD r0 false = true) (hroot : s.marked_vec.getD root false = true)
    (hroot0 : s0.marked_vec.getD root false = false) (hlt : root < g.num_vertex)
    {e : Edge K} (he : e ∈ g.adj_edge_vec.getD root []) :
    ∃ s2, scanEdge root s e = .ok s2 ∧ Frontier g r0 root s0 s2 ∧
      s2.marked_vec = s.marked_vec ∧
      (∀ x, IndexMinPQ.Live s.Q x → IndexMinPQ.Live s2.Q x) ∧
      ∀ y, otherEnd e root = some y →
        s2.marked_vec.getD y false = true ∨ IndexMinPQ.Live s2.Q y := by
  obtain ⟨adj, ho, hadj, hne, hea, hconn⟩ := otherEnd_wf hwf hlt he
  have hcr : Conn g r0 root := (hf.reached root hroot0 hroot).1
  have hca : Conn g r0 adj := Joined.trans hcr hconn
  unfold scanEdge
  rw [ho]
  simp only []
  by_cases hm : s.marked_vec.getD adj false = true
  · rw [if_pos hm]
    refine ⟨s, rfl, hf, rfl, fun _ h => h, ?_⟩
    intro y hy
    cases hy
    exact Or.inl hm
  · rw [if_neg hm]
    have hmf : s.marked_vec.getD adj false = false := by simpa using hm
    by_cases hl : ltDist e.weight (s.dist_vec.getD adj none) = true
    · rw [if_pos hl]
      have hcont : s.Q.Contains adj = .ok (s.Q.idx_to_heap.getD adj 0 != 0) := by
        unfold IndexMinPQ.Contains
        rw [if_neg (by rw [hf.cap]; omega)]
      rw [hcont]
      have hcap : adj < s.Q.capacity := by rw [hf.cap]; exact hadj
      by_cases hz : s.Q.idx_to_heap.getD adj 0 = 0
      · have hb : (s.Q.idx_to_heap.getD adj 0 != 0) = false := by rw [hz]; rfl
        rw [hb]
        simp only [liftQ]
        have hnl : ¬ IndexMinPQ.Live s.Q adj := fun h => (hf.tame.reported_iff hcap).2 h hz
        have hnr : ¬ IndexMinPQ.Live s.Q root := by
          intro h
          have := (hf.live root h).1
          rw [hroot] at this
          cases this
        have hsz : s.Q.cur_size ≤ 1 :=
          hf.tame.at_most_one X hX (fun x hx => hXc x (hf.live x hx).2.1) (hXc root hcr)
            (hXc adj hca) (Ne.symm hne) hnr hnl
        obtain ⟨q1, hp, ht1, hl1, hc1⟩ := hf.tame.of_push hsz e.weight hcap hz
        rw [hp]
        simp only []
        refine ⟨_, rfl, hf.relax hr0 hmf hadj hea hca ht1 hc1 hl1, rfl,
          fun x h => (hl1 x).2 (Or.inr h), ?_⟩
        intro y hy
        cases hy
        exact Or.inr ((hl1 adj).2 (Or.inl rfl))
      · have hb : (s.Q.idx_to_heap.getD adj 0 != 0) = true := bne_iff_ne.2 hz
        rw [hb]
        simp only [liftQ]
        have hlive : IndexMinPQ.Live s.Q adj := (hf.tame.reported_iff hcap).1 hz
        obtain ⟨q1, hp, ht1, hl0, hc1⟩ := hf.tame.of_changeKey e.weight hcap hz
        have hl1 : ∀ x, IndexMinPQ.Live q1 x ↔ (x = adj ∨ IndexMinPQ.Live s.Q x) := by
          intro x
          rw [hl0 x]
          constructor
          · exact Or.inr
          · rintro (rfl | h)
            · exact hlive
            · exact h
        rw [hp]
        simp only []
        refine ⟨_, rfl, hf.relax hr0 hmf hadj hea hca ht1 hc1 hl1, rfl,
          fun x h => (hl1 x).2 (Or.inr h), ?_⟩
        intro y hy
        cases hy
        exact Or.inr ((hl1 adj).2 (Or.inl rfl))
    · rw [if_neg hl]
      refine ⟨s, rfl, hf, rfl, fun _ h => h, ?_⟩
      intro y hy
      cases hy
      right
      by_contra hnl
      have := (hf.fresh adj hadj hmf hnl).1
      rw [this] at hl
      exact hl rfl

end Prim

namespace Prim

variable {K : Type}

/-- The scan of a list of edges of the marked vertex `root`, in a component
of at most three vertices: the scan returns normally, keeps the state of
the search, and leaves the other end of every scanned edge marked or
live. -/
theorem Frontier.scanEdges_run [Inhabited K] [LinearOrder K] [Zero K] {g : Graph K}
    (hwf : g.WellFormed) {r0 root : Nat} {s0 : PrimState K} (X : Finset Nat)
    (hX : X.card ≤ 3) (hXc : ∀ x, Conn g r0 x → x ∈ X)
    (hroot0 : s0.marked_vec.getD root false = false) (hlt : root < g.num_vertex) :
    ∀ (es : List (Edge K)) (s : PrimState K), (∀ e ∈ es, e ∈ g.adj_edge_vec.getD root []) →
      Frontier g r0 root s0 s → s.marked_vec.getD r0 false = true →
      s.marked_vec.getD root false = true →
      ∃ s2, scanEdges root s es = .ok s2 ∧ Frontier g r0 root s0 s2 ∧
        s2.marked_vec = s.marked_vec ∧
        (∀ x, IndexMinPQ.Live s.Q x → IndexMinPQ.Live s2.Q x) ∧
        ∀ e ∈ es, ∀ y, otherEnd e root = some y →
          s2.marked_vec.getD y false = true ∨ IndexMinPQ.Live s2.Q y := by
  intro es
  induction es with
  | nil =>
    intro s _ hf _ _
    exact ⟨s, rfl, hf, rfl, fun _ h => h, fun e he => absurd he (List.not_mem_nil e)⟩
  | cons e rest ih =>
    intro s hes hf hr0 hroot
    obtain ⟨s1, e1, hf1, hm1, hl1, hc1⟩ :=
      hf.scanEdge_step hwf X hX hXc hr0 hroot hroot0 hlt (hes e (List.mem_cons_self _ _))
    obtain ⟨s2, e2, hf2, hm2, hl2, hc2⟩ :=
      ih s1 (fun x hx => hes x (List.mem_cons_of_mem _ hx)) hf1 (by rw [hm1]; exact hr0)
        (by rw [hm1]; exact hroot)
    refine ⟨s2, ?_, hf2, by rw [hm2, hm1], fun x h => hl2 x (hl1 x h), ?_⟩
    · unfold scanEdges
      rw [e1]
      exact e2
    · intro e3 he3 y hy
      rcases List.mem_cons.1 he3 with rfl | h
      · rcases hc1 y hy with a | a
        · left
          rw [hm2]
          exact a
        · exact Or.inr (hl2 y a)
      · exact hc2 e3 h y hy

/-- One iteration of the loop `while (Q.Size())`, in a component of at most
three vertices: it returns normally and keeps the state of the search. -/
theorem Frontier.iteration_step [Inhabited K] [LinearOrder K] [Zero K] {g : Graph K}
    (hwf : g.WellFormed) {r0 : Nat} {s0 s : PrimState K} (X : Finset Nat)
    (hX : X.card ≤ 3) (hXc : ∀ x, Conn g r0 x → x ∈ X)
    (hf : Frontier g r0 g.num_vertex s0 s) (hsz : s.Q.cur_size ≠ 0) :
    ∃ s2, iteration g.adj_edge_vec s = .ok s2 ∧ Frontier g r0 g.num_vertex s0 s2 := by
  obtain ⟨htop, hlive, q1, hpop, ht1, hl1, hc1⟩ := hf.tame.of_pop (Nat.pos_of_ne_zero hsz)
  have hroot_lt : s.Q.heap_to_idx.getD 1 0 < g.num_vertex := by
    rw [← hf.cap]
    exact hf.tame.idx_lt hlive
  obtain ⟨hrm, hrc, hre⟩ := hf.live _ hlive
  have hroot0 : s0.marked_vec.getD (s.Q.heap_to_idx.getD 1 0) false = false := by
    cases h : s0.marked_vec.getD (s.Q.heap_to_idx.getD 1 0) false with
    | false => rfl
    | true =>
      have := (hf.old _ h).1
      rw [hrm] at this
      cases this
  have hM : ∀ x, (s.marked_vec.set (s.Q.heap_to_idx.getD 1 0) true).getD x false =
      if x = s.Q.heap_to_idx.getD 1 0 then true else s.marked_vec.getD x false := by
    intro x
    rw [getD_set_eq_ite]
    by_cases e : x = s.Q.heap_to_idx.getD 1 0
    · rw [if_pos e, if_pos ⟨e.symm, by rw [hf.marked_len]; exact hroot_lt⟩]
    · rw [if_neg e, if_neg (fun h => e h.1.symm)]
  have hf1 : Frontier g r0 (s.Q.heap_to_idx.getD 1 0) s0
      { s with Q := q1, marked_vec := s.marked_vec.set (s.Q.heap_to_idx.getD 1 0) true } := by
    refine ⟨ht1, by rw [hc1]; exact hf.cap, hf.dist_len, ?_, hf.best_len, ?_, ?_, ?_, ?_, ?_, ?_⟩
    · simp only [List.length_set]
      exact hf.marked_len
    · intro x hx
      obtain ⟨a, b⟩ := (hl1 x).1 hx
      obtain ⟨c, d, e⟩ := hf.live x a
      refine ⟨?_, d, e⟩
      show (s.marked_vec.set (s.Q.heap_to_idx.getD 1 0) true).getD x false = false
      rw [hM, if_neg b]
      exact c
    · intro x hx hm hnl
      have hm2 : (s.marked_vec.set (s.Q.heap_to_idx.getD 1 0) true).getD x false = false := hm
      rw [hM] at hm2
      by_cases e : x = s.Q.heap_to_idx.getD 1 0
      · rw [if_pos e] at hm2
        cases hm2
      · rw [if_neg e] at hm2
        exact hf.fresh x hx hm2 (fun h => hnl ((hl1 x).2 ⟨h, e⟩))
    · intro x h0
      obtain ⟨a, b⟩ := hf.old x h0
      refine ⟨?_, b⟩
      show (s.marked_vec.set (s.Q.heap_to_idx.getD 1 0) true).getD x false = true
      rw [hM]
      split_ifs
      · rfl
      · exact a
    · intro x h0 hm
      have hm2 : (s.marked_vec.set (s.Q.heap_to_idx.getD 1 0) true).getD x false = true := hm
      rw [hM] at hm2
      by_cases e : x = s.Q.heap_to_idx.getD 1 0
      · rw [e]
        exact ⟨hrc, hre⟩
      · rw [if_neg e] at hm2
        exact hf.reached x h0 hm2
    · intro x h0 hm hsk e2 he2 y hy
      have hm2 : (s.marked_vec.set (s.Q.heap_to_idx.getD 1 0) true).getD x false = true := hm
      rw [hM, if_neg hsk] at hm2
      have hxn : x ≠ g.num_vertex := by
        intro h
        rw [h, List.getD_eq_default _ _ (by rw [hf.marked_len])] at hm2
        cases hm2
      show (s.marked_vec.set (s.Q.heap_to_idx.getD 1 0) true).getD y false = true ∨ _
      rw [hM]
      by_cases e : y = s.Q.heap_to_idx.getD 1 0
      · rw [if_pos e]
        exact Or.inl rfl
      · rw [if_neg e]
        rcases hf.closed x h0 hm2 hxn e2 he2 y hy with h | h
        · exact Or.inl h
        · exact Or.inr ((hl1 y).2 ⟨h, e⟩)
    · left
      show (s.marked_vec.set (s.Q.heap_to_idx.getD 1 0) true).getD r0 false = true
      rw [hM]
      rcases hf.seed with h | h
      · split_ifs
        · rfl
        · exact h
      · rw [if_pos ((h _).1 hlive).symm]
  have hr0 : (s.marked_vec.set (s.Q.heap_to_idx.getD 1 0) true).getD r0 false = true := by
    rcases hf1.seed with h | h
    · exact h
    · rw [hM]
      rcases hf.seed with h2 | h2
      · split_ifs
        · rfl
        · exact h2
      · rw [if_pos ((h2 _).1 hlive).symm]
  have hroot : (s.marked_vec.set (s.Q.heap_to_idx.getD 1 0) true).getD
      (s.Q.heap_to_idx.getD 1 0) false = true := by
    rw [hM, if_pos rfl]
  obtain ⟨s2, e2, hf2, hm2, hl2, hc2⟩ :=
    Frontier.scanEdges_run hwf X hX hXc hroot0 hroot_lt
      (g.adj_edge_vec.getD (s.Q.heap_to_idx.getD 1 0) []) _ (fun _ h => h) hf1 hr0 hroot
  refine ⟨s2, ?_, ?_⟩
  · unfold iteration
    rw [htop, hpop]
    exact e2
  · refine ⟨hf2.tame, hf2.cap, hf2.dist_len, hf2.marked_len, hf2.best_len, hf2.live, hf2.fresh,
      hf2.old, hf2.reached, ?_, hf2.seed⟩
    intro x h0 hm _ e3 he3 y hy
    by_cases e : x = s.Q.heap_to_idx.getD 1 0
    · rw [e] at he3 hy
      exact hc2 e3 he3 y hy
    · exact hf2.closed x h0 hm e e3 he3 y hy

end Prim

namespace Prim

variable {K : Type}

theorem otherEnd_ne_none [LinearOrder K] [Zero K] {g : Graph K} (hwf : g.WellFormed)
    (v : Nat) (e : Edge K) (he : e ∈ g.adj_edge_vec.getD v []) : otherEnd e v ≠ none := by
  by_cases hv : v < g.num_vertex
  · obtain ⟨adj, ho, _⟩ := otherEnd_wf hwf hv he
    rw [ho]
    exact fun h => Option.noConfusion h
  · rw [List.getD_eq_default _ _ (by rw [hwf.1]; omega)] at he
    exact absurd he (List.not_mem_nil e)

/-- The loop `while (Q.Size())`, in a component of at most three vertices:
with a budget of the size of the queue plus the number of entries that can
still relax, it returns normally with an empty queue and keeps the state
of the search. -/
theorem Frontier.whileLoop_run [Inhabited K] [LinearOrder K] [Zero K] {g : Graph K}
    (hwf : g.WellFormed) {r0 : Nat} {s0 : PrimState K} (X : Finset Nat)
    (hX : X.card ≤ 3) (hXc : ∀ x, Conn g r0 x → x ∈ X) :
    ∀ (fuel : Nat) (s : PrimState K), Frontier g r0 g.num_vertex s0 s →
      s.Q.cur_size + pending g.adj_edge_vec s.dist_vec ≤ fuel →
      ∃ s2, whileLoop g.adj_edge_vec fuel s = .ok s2 ∧ Frontier g r0 g.num_vertex s0 s2 ∧
        s2.Q.cur_size = 0 := by
  intro fuel
  induction fuel with
  | zero =>
    intro s hf hm
    have h0 : s.Q.cur_size = 0 := by omega
    refine ⟨s, ?_, hf, h0⟩
    unfold whileLoop IndexMinPQ.Size
    rw [if_pos h0]
  | succ n ih =>
    intro s hf hm
    rw [whileLoop_succ]
    by_cases h0 : s.Q.cur_size = 0
    · refine ⟨s, ?_, hf, h0⟩
      unfold IndexMinPQ.Size
      rw [if_pos h0]
    · have h0b : ¬ s.Q.Size = 0 := h0
      rw [if_neg h0b]
      obtain ⟨s2, e2, hf2⟩ := hf.iteration_step hwf X hX hXc h0
      have hinv : s.Q.capacity = s.dist_vec.length := by rw [hf.cap, hf.dist_len]
      rcases iteration_result g.adj_edge_vec (otherEnd_ne_none hwf) s hinv h0 with
        ⟨s3, e3, _, hm3⟩ | ⟨qe, e3⟩
      · rw [e2] at e3
        cases e3
        rw [e2]
        exact ih s2 hf2 (by omega)
      · rw [e2] at e3
        cases e3

/-- One pass of the loop over the vertices, when every component has at
most three vertices: it returns normally and has then dealt with the
component of vertex `k`. -/
theorem Outer.visit_step [Inhabited K] [LinearOrder K] [Zero K] {g : Graph K}
    (hwf : g.WellFormed)
    (hcomp : ∀ v, v < g.num_vertex → ∃ X : Finset Nat, X.card ≤ 3 ∧ ∀ x, Conn g v x → x ∈ X)
    {k : Nat} {s : PrimState K} (ho : Outer g k s) (hk : k < g.num_vertex) (fuel : Nat)
    (hfuel : (g.adj_edge_vec.map List.length).sum + 1 ≤ fuel) :
    ∃ s2, visit g.adj_edge_vec fuel s k = .ok s2 ∧ Outer g (k + 1) s2 := by
  unfold visit
  by_cases hm : s.marked_vec.getD k false = true
  · rw [if_pos hm]
    refine ⟨s, rfl, ho.tame, ho.empty, ho.cap, ho.dist_len, ho.marked_len, ho.best_len, ?_,
      ho.done, ho.rest⟩
    intro v hv
    rw [ho.marked_iff v hv]
    constructor
    · rintro ⟨u, hu, hc⟩
      exact ⟨u, by omega, hc⟩
    · rintro ⟨u, hu, hc⟩
      by_cases e : u = k
      · subst e
        obtain ⟨u2, hu2, hc2⟩ := (ho.marked_iff u hk).1 hm
        exact ⟨u2, hu2, Joined.trans hc2 hc⟩
      · exact ⟨u, by omega, hc⟩
  · rw [if_neg hm]
    have hmf : s.marked_vec.getD k false = false := by simpa using hm
    have hnolive : ∀ x, ¬ IndexMinPQ.Live s.Q x := by
      rintro x ⟨p, h1, h2, _⟩
      rw [ho.empty] at h2
      omega
    have hcap : k < s.Q.capacity := by rw [ho.cap]; exact hk
    have hz : s.Q.idx_to_heap.getD k 0 = 0 := by
      by_contra h
      exact hnolive k (ho.tame.reported k hcap h)
    obtain ⟨q1, hp, ht1, hl1, hc1⟩ :=
      ho.tame.of_push (by rw [ho.empty]; omega) (0 : K) hcap hz
    rw [hp]
    simp only [liftQ]
    have hl1b : ∀ x, IndexMinPQ.Live q1 x ↔ x = k := by
      intro x
      rw [hl1 x]
      constructor
      · rintro (h | h)
        · exact h
        · exact absurd h (hnolive x)
      · exact Or.inl
    have hf1 : Frontier g k g.num_vertex s
        { s with Q := q1, dist_vec := s.dist_vec.set k (some 0) } := by
      refine ⟨ht1, by rw [hc1]; exact ho.cap, ?_, ho.marked_len, ho.best_len, ?_, ?_, ?_, ?_, ?_,
        Or.inr hl1b⟩
      · simp only [List.length_set]
        exact ho.dist_len
      · intro x hx
        have hxk := (hl1b x).1 hx
        subst hxk
        exact ⟨hmf, Conn.refl g x, fun _ => (ho.rest x hk hmf).2, fun h => absurd rfl h⟩
      · intro x hx hmx hnl
        have hxk : x ≠ k := fun h => hnl ((hl1b x).2 h)
        obtain ⟨a, b⟩ := ho.rest x hx hmx
        refine ⟨?_, b⟩
        show (s.dist_vec.set k (some 0)).getD x none = none
        rw [getD_set_eq_ite, if_neg (fun c => hxk c.1.symm)]
        exact a
      · intro x h0
        exact ⟨h0, rfl⟩
      · intro x h0 h1
        have h2 : s.marked_vec.getD x false = true := h1
        rw [h0] at h2
        cases h2
      · intro x h0 h1
        have h2 : s.marked_vec.getD x false = true := h1
        rw [h0] at h2
        cases h2
    obtain ⟨X, hX, hXc⟩ := hcomp k hk
    obtain ⟨a, _⟩ := IndexMinPQ.Push_size hp
    have hpend := pending_le g.adj_edge_vec (s.dist_vec.set k (some 0))
    obtain ⟨s2, e2, hf2, hsz2⟩ := Frontier.whileLoop_run hwf X hX hXc fuel
      { s with Q := q1, dist_vec := s.dist_vec.set k (some 0) } hf1
      (by
        show q1.cur_size + pending g.adj_edge_vec (s.dist_vec.set k (some 0)) ≤ fuel
        rw [a, ho.empty]
        omega)
    refine ⟨s2, e2, ?_⟩
    have hnolive2 : ∀ x, ¬ IndexMinPQ.Live s2.Q x := by
      rintro x ⟨p, h1, h2, _⟩
      rw [hsz2] at h2
      omega
    have hk2 : s2.marked_vec.getD k false = true :=
      hf2.seed.resolve_right (fun h => hnolive2 k ((h k).2 rfl))
    have hleast : Least g k := by
      intro u hu
      by_contra hlt
      have := (ho.marked_iff k hk).2 ⟨u, by omega, hu⟩
      rw [hmf] at this
      cases this
    have hnew : ∀ x, Conn g k x → s.marked_vec.getD x false = false := by
      intro x hx
      cases h : s.marked_vec.getD x false with
      | false => rfl
      | true =>
        obtain ⟨u, hu, hc⟩ := (ho.marked_iff x (Conn.lt hwf hx hk)).1 h
        have := (ho.marked_iff k hk).2 ⟨u, hu, Joined.trans hc (Joined.symm hx)⟩
        rw [hmf] at this
        cases this
    have hall : ∀ x, Conn g k x → s2.marked_vec.getD x false = true := by
      intro x hx
      induction hx with
      | refl => exact hk2
      | tail hab hstep ih =>
        obtain ⟨hb, _, e, he, hoe⟩ := Step.to_otherEnd hwf hstep
        rcases hf2.closed _ (hnew _ hab) ih (by omega) e he _ hoe with h | h
        · exact h
        · exact absurd h (hnolive2 _)
    refine ⟨hf2.tame, hsz2, hf2.cap, hf2.dist_len, hf2.marked_len, hf2.best_len, ?_, ?_, ?_⟩
    · intro v hv
      constructor
      · intro hm2
        cases h0 : s.marked_vec.getD v false with
        | true =>
          obtain ⟨u, hu, hc⟩ := (ho.marked_iff v hv).1 h0
          exact ⟨u, by omega, hc⟩
        | false => exact ⟨k, by omega, (hf2.reached v h0 hm2).1⟩
      · rintro ⟨u, hu, hc⟩
        by_cases e : u = k
        · subst e
          exact hall v hc
        · exact (hf2.old v ((ho.marked_iff v hv).2 ⟨u, by omega, hc⟩)).1
    · intro v hm2
      cases h0 : s.marked_vec.getD v false with
      | true =>
        rw [(hf2.old v h0).2]
        exact ho.done v h0
      | false =>
        obtain ⟨hc, hE1, hE2⟩ := hf2.reached v h0 hm2
        by_cases e : v = k
        · exact ⟨fun _ => hE1 e, fun h => absurd (e ▸ hleast) h⟩
        · refine ⟨fun h => ?_, fun _ => hE2 e⟩
          have h1 := h k hc
          have h2 := hleast v (Joined.symm hc)
          exact absurd (le_antisymm h1 h2) e
    · intro v hv hm2
      exact hf2.fresh v hv hm2 (hnolive2 v)

/-- The loop over the vertices from vertex `k` on, when every component has
at most three vertices. -/
theorem Outer.visitAll_run [Inhabited K] [LinearOrder K] [Zero K] {g : Graph K}
    (hwf : g.WellFormed)
    (hcomp : ∀ v, v < g.num_vertex → ∃ X : Finset Nat, X.card ≤ 3 ∧ ∀ x, Conn g v x → x ∈ X)
    (fuel : Nat) (hfuel : (g.adj_edge_vec.map List.length).sum + 1 ≤ fuel) :
    ∀ (m k : Nat) (s : PrimState K), Outer g k s → k + m ≤ g.num_vertex →
      ∃ s2, visitAll g.adj_edge_vec fuel s (List.range' k m) = .ok s2 ∧ Outer g (k + m) s2 := by
  intro m
  induction m with
  | zero =>
    intro k s ho _
    exact ⟨s, rfl, ho⟩
  | succ m ih =>
    intro k s ho hkm
    obtain ⟨s1, e1, ho1⟩ := ho.visit_step hwf hcomp (by omega) fuel hfuel
    obtain ⟨s2, e2, ho2⟩ := ih (k + 1) s1 ho1 (by omega)
    refine ⟨s2, ?_, ?_⟩
    · rw [List.range'_succ]
      unfold visitAll
      rw [e1]
      exact e2
    · have : k + (m + 1) = k + 1 + m := by omega
      rw [this]
      exact ho2

theorem Outer.init [Inhabited K] [LinearOrder K] [Zero K] (g : Graph K) :
    Outer g 0 (Prim.init g) := by
  refine ⟨IndexMinPQ.new_tame _, rfl, rfl, ?_, ?_, ?_, ?_, ?_, ?_⟩
  · simp [Prim.init]
  · simp [Prim.init]
  · simp [Prim.init]
  · intro v _
    have : (Prim.init g).marked_vec.getD v false = false := getD_replicate_eq _ _ _
    rw [this]
    constructor
    · intro h
      cases h
    · rintro ⟨u, hu, _⟩
      omega
  · intro v h
    have : (Prim.init g).marked_vec.getD v false = false := getD_replicate_eq _ _ _
    rw [this] at h
    cases h
  · intro v _ _
    exact ⟨getD_replicate_eq _ _ _, getD_replicate_eq _ _ _⟩

/-- On a well-formed graph whose components have at most three vertices
each, `BuildPrimMst` returns an array with one entry per vertex: the
initial value for the vertex of smallest id of each component, and an edge
of the list of the vertex for every other vertex. -/
theorem BuildPrimMst_small_components [Inhabited K] [LinearOrder K] [Zero K] {g : Graph K}
    (hwf : g.WellFormed)
    (hcomp : ∀ v, v < g.num_vertex → ∃ X : Finset Nat, X.card ≤ 3 ∧ ∀ x, Conn g v x → x ∈ X) :
    ∃ best, BuildPrimMst g = .ok best ∧ best.length = g.num_vertex ∧
      ∀ v, v < g.num_vertex →
        (Least g v → best.getD v ⟨0, 0, 0⟩ = ⟨0, 0, 0⟩) ∧
        (¬ Least g v → best.getD v ⟨0, 0, 0⟩ ∈ g.adj_edge_vec.getD v []) := by
  obtain ⟨s2, e2, ho2⟩ := Outer.visitAll_run hwf hcomp (budget g) (by unfold budget; omega)
    g.num_vertex 0 (Prim.init g) (Outer.init g) (by omega)
  refine ⟨s2.best_edge_vec, ?_, ho2.best_len, ?_⟩
  · unfold BuildPrimMst
    rw [List.range_eq_range', e2]
  · intro v hv
    apply ho2.done v
    rw [ho2.marked_iff v hv]
    exact ⟨v, by omega, Conn.refl g v⟩

end Prim

namespace Prim

variable {K : Type}

/-- In an array of 5 entries whose entries of weight 0 are exactly those of
two different vertices, `PrintMst` prints 3 edges. -/
theorem printed_length_of_two_zero [DecidableEq K] [Zero K] (best : List (Edge K))
    (hlen : best.length = 5) (a b : Nat) (ha : a < 5) (hb : b < 5) (hab : a ≠ b)
    (hz : ∀ v, v < 5 → ((best.getD v ⟨0, 0, 0⟩).weight = 0 ↔ (v = a ∨ v = b))) :
    (printed best).length = 3 := by
  rcases best with _ | ⟨e0, _ | ⟨e1, _ | ⟨e2, _ | ⟨e3, _ | ⟨e4, _ | ⟨e5, t⟩⟩⟩⟩⟩⟩ <;>
    simp only [List.length_cons, List.length_nil] at hlen <;> try omega
  have h0 := hz 0 (by omega)
  have h1 := hz 1 (by omega)
  have h2 := hz 2 (by omega)
  have h3 := hz 3 (by omega)
  have h4 := hz 4 (by omega)
  simp only [List.getD_cons_zero, List.getD_cons_succ] at h0 h1 h2 h3 h4
  unfold printed
  interval_cases a <;> interval_cases b <;>
    first
    | exact absurd rfl hab
    | (simp only [List.filter_cons, List.filter_nil, decide_not, h0, h1, h2, h3, h4]
       simp)

/-- C15 (forest on a disconnected graph). For every well-formed graph of 5
vertices with strictly positive weights whose vertices are split into a
set `A` of 3 vertices and a set `B` of 2 vertices, such that any two
vertices of the same set are joined by a walk along stored edges and no
vertex of `A` is joined to a vertex of `B`, and with `a` and `b` the
smallest ids of `A` and of `B`: `BuildPrimMst` returns an array of 5
entries in which the entries of `a` and `b`, two different vertices, are
the initial value (0,0,0) of weight 0, the entry of each of the other
vertices is an edge of the list of that vertex and has a weight other than
0, and the edges of weight other than 0, those that `PrintMst` prints, are
3 in number. -/
theorem C15_forest_on_two_components [Inhabited K] [LinearOrder K] [Zero K] (g : Graph K)
    (hwf : g.WellFormed) (hpos : g.PositiveWeights) (hn : g.num_vertex = 5)
    (A B : Finset Nat) (hA : A.card = 3) (hB : B.card = 2) (hAB : A ∪ B = Finset.range 5)
    (hconnA : ∀ u ∈ A, ∀ v ∈ A, Conn g u v) (hconnB : ∀ u ∈ B, ∀ v ∈ B, Conn g u v)
    (hsep : ∀ u ∈ A, ∀ v ∈ B, ¬ Conn g u v)
    (a b : Nat) (ha : a ∈ A) (hamin : ∀ x ∈ A, a ≤ x) (hb : b ∈ B) (hbmin : ∀ x ∈ B, b ≤ x) :
    ∃ best, BuildPrimMst g = .ok best ∧ best.length = 5 ∧ a ≠ b ∧
      best.getD a ⟨0, 0, 0⟩ = ⟨0, 0, 0⟩ ∧ best.getD b ⟨0, 0, 0⟩ = ⟨0, 0, 0⟩ ∧
      (∀ v, v < 5 → v ≠ a → v ≠ b →
        best.getD v ⟨0, 0, 0⟩ ∈ g.adj_edge_vec.getD v [] ∧
        (best.getD v ⟨0, 0, 0⟩).weight ≠ 0) ∧
      (printed best).length = 3 := by
  have hmem : ∀ v, v < 5 → v ∈ A ∨ v ∈ B := by
    intro v hv
    have : v ∈ A ∪ B := by rw [hAB]; exact Finset.mem_range.2 hv
    exact Finset.mem_union.1 this
  have hltA : ∀ v, v ∈ A → v < 5 := by
    intro v hv
    have : v ∈ A ∪ B := Finset.mem_union_left _ hv
    rw [hAB] at this
    exact Finset.mem_range.1 this
  have hltB : ∀ v, v ∈ B → v < 5 := by
    intro v hv
    have : v ∈ A ∪ B := Finset.mem_union_right _ hv
    rw [hAB] at this
    exact Finset.mem_range.1 this
  have hclA : ∀ v, v ∈ A → ∀ x, Conn g v x → x ∈ A := by
    intro v hv x hx
    have hx5 : x < 5 := by
      have := Conn.lt hwf hx (by rw [hn]; exact hltA v hv)
      omega
    rcases hmem x hx5 with h | h
    · exact h
    · exact absurd hx (hsep v hv x h)
  have hclB : ∀ v, v ∈ B → ∀ x, Conn g v x → x ∈ B := by
    intro v hv x hx
    have hx5 : x < 5 := by
      have := Conn.lt hwf hx (by rw [hn]; exact hltB v hv)
      omega
    rcases hmem x hx5 with h | h
    · exact absurd (Joined.symm hx) (hsep x h v hv)
    · exact h
  have hcomp : ∀ v, v < g.num_vertex →
      ∃ X : Finset Nat, X.card ≤ 3 ∧ ∀ x, Conn g v x → x ∈ X := by
    intro v hv
    rcases hmem v (by omega) with h | h
    · exact ⟨A, by omega, hclA v h⟩
    · exact ⟨B, by omega, hclB v h⟩
  have hleastA : Least g a := fun u hu => hamin u (hclA a ha u (Joined.symm hu))
  have hleastB : Least g b := fun u hu => hbmin u (hclB b hb u (Joined.symm hu))
  have hnot : ∀ v, v < 5 → v ≠ a → v ≠ b → ¬ Least g v := by
    intro v hv hva hvb hl
    rcases hmem v hv with h | h
    · exact hva (le_antisymm (hl a (hconnA a ha v h)) (hamin v h))
    · exact hvb (le_antisymm (hl b (hconnB b hb v h)) (hbmin v h))
  have hab : a ≠ b := by
    intro e
    exact hsep a ha a (e ▸ hb) (Conn.refl g a)
  obtain ⟨best, e1, hlen, hres⟩ := BuildPrimMst_small_components hwf hcomp
  rw [hn] at hlen hres
  have hza := (hres a (hltA a ha)).1 hleastA
  have hzb := (hres b (hltB b hb)).1 hleastB
  have hrest : ∀ v, v < 5 → v ≠ a → v ≠ b →
      best.getD v ⟨0, 0, 0⟩ ∈ g.adj_edge_vec.getD v [] ∧
      (best.getD v ⟨0, 0, 0⟩).weight ≠ 0 := by
    intro v hv hva hvb
    have h := (hres v hv).2 (hnot v hv hva hvb)
    exact ⟨h, ne_of_gt (hpos v (by rw [hn]; exact hv) _ h)⟩
  refine ⟨best, e1, hlen, hab, hza, hzb, hrest, ?_⟩
  apply printed_length_of_two_zero best hlen a b (hltA a ha) (hltB b hb) hab
  intro v hv
  constructor
  · intro hw
    by_contra hc
    rw [not_or] at hc
    exact (hrest v hv hc.1 hc.2).2 hw
  · rintro (rfl | rfl)
    · rw [hza]
    · rw [hzb]

theorem twoComponents_wf : Graph.twoComponents.WellFormed := by
  unfold Graph.WellFormed
  decide

theorem twoComponents_pos : Graph.twoComponents.PositiveWeights := by
  unfold Graph.PositiveWeights
  decide

theorem twoComponents_parity {u v : Nat} (h : Conn Graph.twoComponents u v) :
    v % 2 = u % 2 := by
  have hedges : ∀ e ∈ Graph.twoComponents.edges, e.src % 2 = e.dst % 2 := by decide
  refine @Joined.stays Nat Graph.twoComponents.edges (fun x => x % 2 = u % 2) ?_ u v h rfl
  intro x y hstep hx
  obtain ⟨e, he, hor⟩ := hstep
  have := hedges e he
  rcases hor with ⟨rfl, rfl⟩ | ⟨rfl, rfl⟩
  · show e.dst % 2 = u % 2
    omega
  · show e.src % 2 = u % 2
    omega

theorem twoComponents_even :
    ∀ u ∈ ({0, 2, 4} : Finset Nat), ∀ v ∈ ({0, 2, 4} : Finset Nat),
      Conn Graph.twoComponents u v := by
  have c02 : Conn Graph.twoComponents 0 2 :=
    @Joined.of_edge Nat _ ⟨0, 2, 3⟩ (by decide)
  have c24 : Conn Graph.twoComponents 2 4 :=
    @Joined.of_edge Nat _ ⟨2, 4, 1⟩ (by decide)
  have h0 : ∀ u ∈ ({0, 2, 4} : Finset Nat), Conn Graph.twoComponents 0 u := by
    intro u hu
    simp only [Finset.mem_insert, Finset.mem_singleton] at hu
    rcases hu with rfl | rfl | rfl
    · exact Conn.refl _ _
    · exact c02
    · exact Joined.trans c02 c24
  intro u hu v hv
  exact Joined.trans (Joined.symm (h0 u hu)) (h0 v hv)

theorem twoComponents_odd :
    ∀ u ∈ ({1, 3} : Finset Nat), ∀ v ∈ ({1, 3} : Finset Nat),
      Conn Graph.twoComponents u v := by
  have c13 : Conn Graph.twoComponents 1 3 :=
    @Joined.of_edge Nat _ ⟨1, 3, 5⟩ (by decide)
  have h0 : ∀ u ∈ ({1, 3} : Finset Nat), Conn Graph.twoComponents 1 u := by
    intro u hu
    simp only [Finset.mem_insert, Finset.mem_singleton] at hu
    rcases hu with rfl | rfl
    · exact Conn.refl _ _
    · exact c13
  intro u hu v hv
  exact Joined.trans (Joined.symm (h0 u hu)) (h0 v hv)

theorem twoComponents_apart :
    ∀ u ∈ ({0, 2, 4} : Finset Nat), ∀ v ∈ ({1, 3} : Finset Nat),
      ¬ Conn Graph.twoComponents u v := by
  intro u hu v hv h
  have := twoComponents_parity h
  simp only [Finset.mem_insert, Finset.mem_singleton] at hu hv
  rcases hu with rfl | rfl | rfl <;> rcases hv with rfl | rfl <;> omega

/-- C15, on the graph of 5 vertices with the edges (0,2,3), (2,4,1),
(0,4,2) and (1,3,5): the components are 0, 2, 4 and 1, 3, with the smallest
ids 0 and 1. -/
theorem C15_forest_on_two_components_witness :
    (Graph.twoComponents.WellFormed ∧ Graph.twoComponents.PositiveWeights ∧
      Graph.twoComponents.num_vertex = 5 ∧ ({0, 2, 4} : Finset Nat).card = 3 ∧
      ({1, 3} : Finset Nat).card = 2 ∧
      ({0, 2, 4} : Finset Nat) ∪ {1, 3} = Finset.range 5) ∧
    ∃ best, BuildPrimMst Graph.twoComponents = .ok best ∧ best.length = 5 ∧ 0 ≠ 1 ∧
      best.getD 0 ⟨0, 0, 0⟩ = ⟨0, 0, 0⟩ ∧ best.getD 1 ⟨0, 0, 0⟩ = ⟨0, 0, 0⟩ ∧
      (∀ v, v < 5 → v ≠ 0 → v ≠ 1 →
        best.getD v ⟨0, 0, 0⟩ ∈ Graph.twoComponents.adj_edge_vec.getD v [] ∧
        (best.getD v ⟨0, 0, 0⟩).weight ≠ 0) ∧
      (printed best).length = 3 :=
  ⟨⟨twoComponents_wf, twoComponents_pos, rfl, by decide, by decide, by decide⟩,
    C15_forest_on_two_components Graph.twoComponents twoComponents_wf twoComponents_pos rfl
      {0, 2, 4} {1, 3} (by decide) (by decide) (by decide) twoComponents_even
      twoComponents_odd twoComponents_apart 0 1 (by decide) (by decide) (by decide)
      (by decide)⟩

end Prim

/-! ## Input validation -/

namespace Prim

/-- A read that does not fail takes at least one character from the
stream. -/
theorem readToken_lt (s : IStream) (temp : String)
    (h : (readToken s temp).1.failbit = false) :
    (readToken s temp).1.rest.length < s.rest.length := by
  unfold readToken at h ⊢
  by_cases hb : (s.eofbit || s.failbit) = true
  · rw [if_pos hb] at h
    cases h
  · rw [if_neg hb] at h ⊢
    have hsub : (s.rest.dropWhile isSpace).length ≤ s.rest.length :=
      List.Sublist.length_le (List.dropWhile_sublist _)
    cases hd : s.rest.dropWhile isSpace with
    | nil =>
      rw [hd] at h
      cases h
    | cons c cs =>
      rw [hd] at hsub
      have hc : isSpace c = false := by
        have := List.head_dropWhile_not isSpace s.rest (by rw [hd]; exact List.cons_ne_nil _ _)
        simpa [hd] using this
      have hsub2 : (cs.dropWhile (fun x => !isSpace x)).length ≤ cs.length :=
        List.Sublist.length_le (List.dropWhile_sublist _)
      show ((c :: cs).dropWhile (fun x => !isSpace x)).length < s.rest.length
      rw [List.dropWhile_cons_of_pos (by simp [hc])]
      simp only [List.length_cons] at hsub
      omega

/-- With more fuel than characters left, the loop of `IsValidArgument`
does not use up its budget. -/
theorem checkEdges_budget :
    ∀ (fuel : Nat) (s : IStream) (temp : String) (graph_size counter : Nat),
      s.rest.length < fuel →
      checkEdges fuel s temp graph_size counter ≠ .error .budget := by
  intro fuel
  induction fuel with
  | zero =>
    intro s _ _ _ h
    omega
  | succ n ih =>
    intro s temp graph_size counter h
    unfold checkEdges
    by_cases hf : (readToken s temp).1.failbit = true
    · rw [if_pos hf]
      exact fun e => Except.noConfusion e
    · rw [if_neg hf]
      have hlt := readToken_lt s temp (by simpa using hf)
      have hrec := ih (readToken s temp).1 (readToken s temp).2 graph_size (counter + 1)
        (by omega)
      by_cases hc : counter % 3 = 2
      · rw [if_pos hc]
        split
        · exact fun e => Except.noConfusion e
        · exact hrec
      · rw [if_neg hc]
        unfold vertexRejected
        split
        · rename_i x hx
          split at hx
          · cases hx
          · split at hx
            · rename_i y hy
              cases hx
              unfold stoi at hy
              split at hy
              · cases hy
                exact fun e => ValidationStop.noConfusion (Except.error.inj e)
              · split at hy
                · cases hy
                  exact fun e => ValidationStop.noConfusion (Except.error.inj e)
                · cases hy
            · cases hx
        · exact fun e => Except.noConfusion e
        · exact hrec

theorem stoi_error {input : String} {x : ValidationStop} (h : stoi input = .error x) :
    x ≠ .budget := by
  unfold stoi at h
  split at h
  · cases h
    exact fun e => ValidationStop.noConfusion e
  · split at h
    · cases h
      exact fun e => ValidationStop.noConfusion e
    · cases h

/-- The first read of a file fails only at the end of the file. -/
theorem readToken_first (content : String) (temp : String)
    (h : (readToken ⟨content.toList, false, false⟩ temp).1.eofbit = false) :
    (readToken ⟨content.toList, false, false⟩ temp).1.failbit = false := by
  unfold readToken at h ⊢
  simp only [Bool.or_self, Bool.false_eq_true, if_false] at h ⊢
  cases hd : content.toList.dropWhile isSpace with
  | nil =>
    rw [hd] at h
    cases h
  | cons c cs => rfl

/-- The model of `IsValidArgument` returns true or false, or stops with an
exception of `std::stoi`: its iteration budget is never used up. -/
theorem IsValidArgument_budget (argc : Nat) (file : Option String) :
    IsValidArgument argc file ≠ .error .budget := by
  unfold IsValidArgument
  split
  · exact fun e => Except.noConfusion e
  · cases file with
    | none => exact fun e => Except.noConfusion e
    | some content =>
      simp only []
      split
      · exact fun e => Except.noConfusion e
      · rename_i hc
        simp only [Bool.or_eq_true, not_or, Bool.not_eq_true] at hc
        have hf := readToken_first content "" hc.2
        have hlt := readToken_lt ⟨content.toList, false, false⟩ "" hf
        split
        · rename_i x hx
          intro e
          exact stoi_error hx (Except.error.inj e)
        · exact checkEdges_budget _ _ _ _ _ hlt

theorem vertexRejected_false {temp : String} {graph_size : Nat}
    (h : vertexRejected temp graph_size = .ok false) :
    ∃ v, stoi temp = .ok v ∧ v ≤ graph_size := by
  unfold vertexRejected at h
  split at h
  · cases h
  · split at h
    · cases h
    · rename_i v hv
      refine ⟨v, hv, ?_⟩
      have h2 : decide (v > graph_size) = false := Except.ok.inj h
      have := of_decide_eq_false h2
      omega

/-- When the loop of `IsValidArgument` ends with true, every string it read
at the place of a source or of a destination vertex has a value of at most
`graph_size`. -/
theorem checkEdges_ids :
    ∀ (fuel : Nat) (s : IStream) (temp : String) (graph_size counter : Nat),
      checkEdges fuel s temp graph_size counter = .ok true →
      ∀ i tok, (tokensFrom fuel s temp)[i]? = some tok → (counter + i) % 3 ≠ 2 →
        ∃ v, stoi tok = .ok v ∧ v ≤ graph_size := by
  intro fuel
  induction fuel with
  | zero =>
    intro s temp graph_size counter h
    cases h
  | succ n ih =>
    intro s temp graph_size counter h i tok hi hc
    unfold checkEdges at h
    unfold tokensFrom at hi
    by_cases hf : (readToken s temp).1.failbit = true
    · rw [if_pos hf] at hi
      simp at hi
    · rw [if_neg hf] at h hi
      by_cases h2 : counter % 3 = 2
      · rw [if_pos h2] at h
        split at h
        · cases h
        · cases i with
          | zero => exact absurd h2 hc
          | succ j =>
            rw [List.getElem?_cons_succ] at hi
            exact ih _ _ _ _ h j tok hi (by omega)
      · rw [if_neg h2] at h
        split at h
        · cases h
        · cases h
        · rename_i hv
          cases i with
          | zero =>
            rw [List.getElem?_cons_zero] at hi
            cases hi
            exact vertexRejected_false hv
          | succ j =>
            rw [List.getElem?_cons_succ] at hi
            exact ih _ _ _ _ h j tok hi (by omega)

theorem tokensFrom_succ (fuel : Nat) (s : IStream) (temp : String) :
    tokensFrom (fuel + 1) s temp =
      if (readToken s temp).1.failbit then []
      else (readToken s temp).2 :: tokensFrom fuel (readToken s temp).1 (readToken s temp).2 := by
  rw [tokensFrom]

/-- What the checks of `IsValidArgument` do bound: on a file that is
accepted, the first string is the graph size and every string at the place
of a source or of a destination vertex has a value of at most the graph
size. -/
theorem IsValidArgument_ids_le (argc : Nat) (content : String)
    (h : IsValidArgument argc (some content) = .ok true) :
    ∃ size rest n, tokens content = size :: rest ∧ stoi size = .ok n ∧
      ∀ i tok, rest[i]? = some tok → i % 3 ≠ 2 → ∃ v, stoi tok = .ok v ∧ v ≤ n := by
  unfold IsValidArgument at h
  split at h
  · cases h
  · simp only [] at h
    split at h
    · cases h
    · rename_i hc
      simp only [Bool.or_eq_true, not_or, Bool.not_eq_true] at hc
      have hf := readToken_first content "" hc.2
      split at h
      · cases h
      · rename_i n hn
        refine ⟨_, tokensFrom content.length (readToken ⟨content.toList, false, false⟩ "").1
          (readToken ⟨content.toList, false, false⟩ "").2, n, ?_, hn, ?_⟩
        · unfold tokens
          rw [tokensFrom_succ, if_neg (by rw [hf]; exact Bool.false_ne_true)]
        · intro i tok hi hi2
          exact checkEdges_ids _ _ _ _ _ h i tok hi (by omega)

/-- C21 (validation bounds vertex ids). On the file with the two lines "2"
and "0 2 3": `IsValidArgument` returns true; the strings read are "2", "0",
"2" and "3"; the string at the place of the destination vertex has the
value 2, which is the graph size and so not strictly less than it; and the
graph that the constructor builds from the size 2 and the triple (0,2,3)
has 2 adjacency lists, so that the index 2 of `adj_edge_vec[cur_dst]` is
not below their number. -/
theorem C21_vertex_id_equal_to_size_accepted :
    IsValidArgument 2 (some "2\n0 2 3\n") = .ok true ∧
    tokens "2\n0 2 3\n" = ["2", "0", "2", "3"] ∧
    stoi "2" = .ok 2 ∧ stoi "0" = .ok 0 ∧ ¬ (2 < 2) ∧
    (Graph.ofInput 2 [(⟨0, 2, 3⟩ : Edge Nat)]).adj_edge_vec.length = 2 ∧
    ¬ ((⟨0, 2, 3⟩ : Edge Nat).dst <
      (Graph.ofInput 2 [(⟨0, 2, 3⟩ : Edge Nat)]).adj_edge_vec.length) := by
  refine ⟨by rfl, by rfl, by rfl, by rfl, by decide, by rfl, by decide⟩

end Prim
